import Mathlib

/-!
# Edge-group table generator (`cube.cpp`)

A shallow embedding of the table generator: the fixed geometry (15 points, 24
tetrahedra), the edge labelling and adjacency graph, the per-case marks, the
closure of the kept subgraph by repeated boolean squaring, the component
numbering and the packing of the 12 cube-edge fields into one code.

Conventions of the embedding.
* `int` values are `Nat` where the program only ever holds non-negative values
  (point indices, edge ids, labels, the packed code) and `Int` where -1 occurs
  (`marks`) or an integer product is taken (matrix entries).  No value of the
  program comes near 2^31, so no wrap-around is modelled.
* `double` values are modelled by `ℚ`.  Every value the program stores in `vals`
  is a multiple of 1/8 between 0 and 1, which a `double` holds exactly, and no
  multiple of 1/8 lies between 7/10 and the `double` nearest to 0.7, so each
  comparison `vals[p] > theta` has the same outcome in both arithmetics.
* `assert` failures are modelled by `none`.
* `std::unordered_map<int,int>` is an association list in insertion order,
  `std::unordered_set<int>` a duplicate-free list in insertion order.  Where the
  program iterates over the map (the encoder loop) the iteration order is a
  parameter of the model.
* The `do ... while` loop of the closure takes a fuel argument.
* The type `point` comes from the header `geom.h`, which is not among the sources;
  it is modelled as three exact coordinates (see `Point`).
* `buildEdgesFrom`, `buildGraphFrom`, `evaluateFrom` and `tableEntryFrom` are the
  same loops as `buildEdges`, `buildGraph`, `evaluate` and `tableEntry` with the list
  of tetrahedra as a parameter; at `tets` they are the program (`evaluateFrom_tets`,
  `tableEntryFrom_tets`).
-/

namespace Mcubes

/-! ## Geometry -/

/-- The table `cubefaces[6][4]`. -/
def cubefaces : List (List Nat) :=
  [[0, 2, 6, 4], [1, 5, 7, 3],
   [0, 4, 5, 1], [2, 3, 7, 6],
   [0, 1, 3, 2], [4, 6, 7, 5]]

/-- The entry `cubefaces[f][j]`. -/
def face (f j : Nat) : Nat := (cubefaces.getD f []).getD j 0

/-- The function `cubeedge(v1, v2)`; `none` is a failed `assert`. -/
def cubeedge (v1 v2 : Nat) : Option Nat :=
  let x1 := v1 &&& 1
  let x2 := v2 &&& 1
  let y1 := (v1 &&& 2) >>> 1
  let y2 := (v2 &&& 2) >>> 1
  let z1 := v1 >>> 2
  let z2 := v2 >>> 2
  if x1 ≠ x2 then
    if y1 = y2 ∧ z1 = z2 then some (y1 + 2 * z1) else none
  else if y1 ≠ y2 then
    if x1 = x2 ∧ z1 = z2 then some (4 + x1 + 2 * z1) else none
  else
    if x1 = x2 ∧ y1 = y2 then some (8 + x1 + 2 * y1) else none

/-- The function `edgeid(u, v)`. -/
def edgeid (u v : Nat) : Nat := min u v * 100 + max u v

/-- The struct `tet`. -/
structure Tet where
  a : Nat
  b : Nat
  c : Nat
  d : Nat
deriving DecidableEq, Repr

/-- The vector `tets` built in `main`: for each face `f` and each `j`, the
tetrahedron `{cubefaces[f][(j+1)&3], cubefaces[f][j], 8+f, 14}`. -/
def tets : List Tet :=
  (List.range 6).flatMap fun f =>
    (List.range 4).map fun j => ⟨face f ((j + 1) &&& 3), face f j, 8 + f, 14⟩

/-! ## Edge labelling -/

/-- The local array `p[4] = {t.a, t.b, t.c, t.d}`. -/
def tetPoint (t : Tet) (n : Nat) : Nat := [t.a, t.b, t.c, t.d].getD n 0

/-- The local array `i[6] = {0, 0, 0, 1, 1, 2}`. -/
def pairI (k : Nat) : Nat := [0, 0, 0, 1, 1, 2].getD k 0

/-- The local array `j[6] = {1, 2, 3, 2, 3, 3}`. -/
def pairJ (k : Nat) : Nat := [1, 2, 3, 2, 3, 3].getD k 0

/-- The id `edgeid(p[i[k]], p[j[k]])` of the `k`-th vertex pair of a tetrahedron. -/
def tetEdge (t : Tet) (k : Nat) : Nat :=
  edgeid (tetPoint t (pairI k)) (tetPoint t (pairJ k))

/-- The pair of containers `edgemap` (edge id to label, in insertion order) and
`iedgemap` (label to edge id). -/
structure EdgeTables where
  edgemap : List (Nat × Nat)
  iedgemap : List Nat
deriving DecidableEq, Repr

/-- One pass of the body of the labelling loop: `id = edgemap.size()`, and when
`eid` is not yet a key, `edgemap[eid] = id; iedgemap.push_back(eid)`. -/
def addEdge (s : EdgeTables) (eid : Nat) : EdgeTables :=
  let id := s.edgemap.length
  if s.edgemap.lookup eid = none then
    ⟨s.edgemap ++ [(eid, id)], s.iedgemap ++ [eid]⟩
  else s

/-- The labelling loop over all tetrahedra and their 6 vertex pairs. -/
def buildEdges : EdgeTables :=
  tets.foldl (fun s t => (List.range 6).foldl (fun s k => addEdge s (tetEdge t k)) s) ⟨[], []⟩

/-- The map `edgemap` after the labelling loop. -/
def edgemap : List (Nat × Nat) := buildEdges.edgemap

/-- The vector `iedgemap` after the labelling loop. -/
def iedgemap : List Nat := buildEdges.iedgemap

/-- The read `edgemap[key]` of a key that is present (a missing key reads 0);
`em` is the map. -/
def edgeLabel (em : List (Nat × Nat)) (key : Nat) : Nat := (em.lookup key).getD 0

/-! ## Adjacency graph -/

/-- The call `graph[u].insert(v)`. -/
def graphInsert (g : List (List Nat)) (u v : Nat) : List (List Nat) :=
  let s := g.getD u []
  if v ∈ s then g else g.set u (s ++ [v])

/-- The body of the graph loop for one tetrahedron: every pair `k < ks` of its 6
edges is inserted in both directions. -/
def addTet (em : List (Nat × Nat)) (g : List (List Nat)) (t : Tet) : List (List Nat) :=
  (List.range 6).foldl (fun g k =>
    let eid := edgeLabel em (tetEdge t k)
    ((List.range 6).filter fun ks => k + 1 ≤ ks).foldl (fun g ks =>
      let eids := edgeLabel em (tetEdge t ks)
      graphInsert (graphInsert g eid eids) eids eid) g) g

/-- The graph loop over all tetrahedra, started from `em.size()` empty sets. -/
def buildGraph (em : List (Nat × Nat)) : List (List Nat) :=
  tets.foldl (addTet em) (List.replicate em.length [])

/-- The vector `graph` of adjacency sets, one per label. -/
def graph : List (List Nat) := buildGraph edgemap

/-! ## Per-case evaluation -/

/-- The constant `theta = .7`. -/
def theta : ℚ := 7 / 10

/-- The corner values `vals[k] = (cases & (1 << k)) ? 1 : 0` for `k < 8`. -/
def cornerVal (cases k : Nat) : ℚ := if cases &&& (1 <<< k) ≠ 0 then 1 else 0

/-- The body-centre value: `vals[14]` is the sum of the 8 corner values times 0.125. -/
def bodyVal (cases : Nat) : ℚ :=
  (List.range 8).foldl (fun s k => s + cornerVal cases k) 0 * (1 / 8)

/-- The face-centre value: `vals[8 + f]` is the sum of the values of the 4 corners
of face `f` times 0.25. -/
def faceVal (cases f : Nat) : ℚ :=
  (List.range 4).foldl (fun s j => s + cornerVal cases (face f j)) 0 * (1 / 4)

/-- The vector `vals` once the three value loops of a case have run (15 entries). -/
def vals (cases : Nat) : List ℚ :=
  (List.range 8).map (cornerVal cases) ++ (List.range 6).map (faceVal cases) ++ [bodyVal cases]

/-- The test `vals[p] > theta`. -/
def above (cases p : Nat) : Bool := decide ((vals cases).getD p 0 > theta)

/-- The mark of label `e` set by the marks loop: with `eid = iedgemap[e]`,
`u = eid % 100`, `v = eid / 100`, the mark is
`(vals[u] > theta) ^ (vals[v] > theta) ? 0 : -1`. -/
def markOf (cases e : Nat) : Int :=
  let eid := iedgemap.getD e 0
  let u := eid % 100
  let v := eid / 100
  if xor (above cases u) (above cases v) then 0 else -1

/-- The vector `marks` after the marks loop of a case. -/
def initialMarks (cases : Nat) : List Int :=
  (List.range edgemap.length).map (markOf cases)

/-! ## Dense 50 x 50 integer matrices -/

/-- An `Eigen::Matrix<int, 50, 50>`, stored as 50 rows of 50 entries. -/
abbrev Mat := List (List Int)

/-- The entry `A(i, j)`. -/
def Mat.entry (A : Mat) (i j : Nat) : Int := (A.getD i []).getD j 0

/-- The 50 x 50 matrix whose entry `(i, j)` is `f i j`. -/
def Mat.tab (f : Nat → Nat → Int) : Mat :=
  (List.range 50).map fun i => (List.range 50).map fun j => f i j

/-- The matrix after `A.setZero()`. -/
def Mat.zero : Mat := Mat.tab fun _ _ => 0

/-- The assignment `A(i, j) = x`. -/
def Mat.set (A : Mat) (i j : Nat) (x : Int) : Mat :=
  List.set A i ((A.getD i []).set j x)

/-- The integer matrix product `A * B`. -/
def Mat.mul (A B : Mat) : Mat :=
  Mat.tab fun i j => ((List.range 50).map fun k => A.entry i k * B.entry k j).sum

/-- The coefficient-wise map `.unaryExpr([] (int v) { return v > 0; }).cast<int>()`. -/
def Mat.positive (A : Mat) : Mat :=
  A.map fun row => row.map fun v => if v > 0 then 1 else 0

/-- The right-hand side `(A * A).unaryExpr(...).cast<int>()` of the loop body. -/
def squareStep (A : Mat) : Mat := (Mat.mul A A).positive

/-- The masked adjacency matrix: after `A.setZero()`, for every label `u` that is
not masked, `A(u, u) = 1` and `A(u, v) = A(v, u) = 1` for every neighbour `v` of
`u` that is not masked. -/
def initMatrix (g : List (List Nat)) (marks : List Int) : Mat :=
  (List.range g.length).foldl (fun A u =>
    if marks.getD u 0 = -1 then A
    else
      (g.getD u []).foldl (fun A v =>
        if marks.getD v 0 = -1 then A else (A.set u v 1).set v u 1) (A.set u u 1))
    Mat.zero

/-- The loop `do { A.swap(B); B = squareStep(A); } while (B != A);` started with
the matrix `B`; the result is the matrix `A` on exit, `none` when the fuel runs
out first. -/
def closureLoop : Nat → Mat → Option Mat
  | 0, _ => none
  | fuel + 1, B =>
    let A := B
    let B := squareStep A
    if B ≠ A then closureLoop fuel B else some A

/-! ## Component numbering -/

/-- The inner loop of the numbering for a fixed `u`: every `v` with `A(u, v) == 1`
must have `marks[v] == 0` (the `assert`) and gets `marks[v] = color`. -/
def labelRow (A : Mat) (n u : Nat) (color : Int) (marks : List Int) : Option (List Int) :=
  (List.range n).foldl (fun s v =>
    match s with
    | none => none
    | some marks =>
      if A.entry u v = 1 then
        if marks.getD v 0 = 0 then some (marks.set v color) else none
      else some marks) (some marks)

/-- The numbering loop: labels are scanned in increasing order, a label whose mark
is still 0 starts the next component.  The state is `marks` and `color`. -/
def labelLoop (A : Mat) (n : Nat) (marks : List Int) : Option (List Int × Int) :=
  (List.range n).foldl (fun s u =>
    match s with
    | none => none
    | some (marks, color) =>
      if marks.getD u 0 = -1 then some (marks, color)
      else if marks.getD u 0 ≠ 0 then some (marks, color)
      else
        match labelRow A n u color marks with
        | none => none
        | some marks => some (marks, color + 1)) (some (marks, 1))

/-- The state `(marks, color)` of a case after the numbering loop, `none` when the
closure runs out of fuel or an `assert` fails (the first one being
`assert(graph.size() == 50)`). -/
def evaluate (fuel cases : Nat) : Option (List Int × Int) :=
  let marks := initialMarks cases
  if graph.length = 50 then
    match closureLoop fuel (initMatrix graph marks) with
    | none => none
    | some A => labelLoop A graph.length marks
  else none

/-- The number printed after `disjoint patches: `, that is `color - 1`. -/
def patches (fuel cases : Nat) : Option Int :=
  (evaluate fuel cases).map fun s => s.2 - 1

/-! ## Encoder -/

/-- The body of the encoder loop for one entry `e` of `edgemap`: entries with a
non-corner endpoint are skipped; for the others the 2-bit value of the mark is
or-ed into `code` at bit `2 * cubeedge(v1, v2)`. -/
def encodeStep (marks : List Int) (s : Option Nat) (e : Nat × Nat) : Option Nat :=
  match s with
  | none => none
  | some code =>
    let v1 := e.1 / 100
    let v2 := e.1 % 100
    if v1 < 8 ∧ v2 < 8 then
      match cubeedge v1 v2 with
      | none => none
      | some ceid =>
        let mkid := marks.getD e.2 0
        if mkid = 0 then none
        else
          let mkid := if mkid < 0 then 3 else mkid - 1
          if mkid < 4 ∧ mkid ≥ 0 then some (code ||| (mkid.toNat <<< (2 * ceid))) else none
    else some code

/-- The encoder loop `for (const auto &e : edgemap)`, run over the entries in the
order `order`, starting from `code = 0`. -/
def encode (order : List (Nat × Nat)) (marks : List Int) : Option Nat :=
  order.foldl (encodeStep marks) (some 0)

/-- The value written to the table for a case, when the map is iterated in the
order `order`. -/
def tableEntry (fuel : Nat) (order : List (Nat × Nat)) (cases : Nat) : Option Nat :=
  (evaluate fuel cases).bind fun s => encode order s.1

/-! ## The fixed tables, evaluated -/

/-- The labelled edges in insertion order, as the labelling loop leaves them. -/
def edgemapTable : List (Nat × Nat) :=
   [(2, 0), (208, 1), (214, 2), (8, 3), (14, 4), (814, 5), (206, 6), (608, 7), (614, 8), (406, 9),
    (408, 10), (414, 11), (4, 12), (105, 13), (509, 14), (514, 15), (109, 16), (114, 17), (914, 18),
    (507, 19), (709, 20), (714, 21), (307, 22), (309, 23), (314, 24), (103, 25), (410, 26), (10,
    27), (1014, 28), (405, 29), (510, 30), (110, 31), (1, 32), (203, 33), (311, 34), (211, 35),
    (1114, 36), (711, 37), (607, 38), (611, 39), (112, 40), (12, 41), (1214, 42), (312, 43), (212,
    44), (613, 45), (413, 46), (1314, 47), (713, 48), (513, 49)]

/-- The adjacency sets in insertion order, as the graph loop leaves them. -/
def graphTable : List (List Nat) :=
  [[1, 2, 3, 4, 5, 41, 44, 42],
   [0, 2, 3, 4, 5, 6, 7, 8],
   [0, 1, 3, 4, 5, 6, 7, 8, 33, 34, 24, 35, 36, 39, 44, 43, 42, 41],
   [0, 1, 2, 4, 5, 12, 10, 11],
   [0, 1, 2, 3, 5, 12, 10, 11, 26, 27, 28, 32, 31, 17, 40, 41, 42, 44],
   [0, 1, 2, 3, 4, 6, 7, 8, 9, 10, 11, 12],
   [7, 8, 1, 2, 5, 35, 39, 36],
   [6, 8, 1, 2, 5, 9, 10, 11],
   [6, 7, 1, 2, 5, 9, 10, 11, 38, 39, 37, 21, 36, 35, 45, 46, 47, 48],
   [10, 11, 7, 8, 5, 45, 46, 47],
   [9, 11, 7, 8, 5, 12, 3, 4],
   [9, 10, 7, 8, 5, 12, 3, 4, 26, 27, 28, 29, 30, 15, 45, 46, 47, 49],
   [3, 4, 10, 11, 5, 26, 27, 28],
   [14, 15, 16, 17, 18, 31, 30, 28],
   [13, 15, 16, 17, 18, 19, 20, 21],
   [13, 14, 16, 17, 18, 19, 20, 21, 29, 30, 26, 11, 28, 31, 49, 48, 47, 46],
   [13, 14, 15, 17, 18, 25, 23, 24],
   [13, 14, 15, 16, 18, 25, 23, 24, 31, 30, 28, 32, 27, 4, 40, 41, 42, 43],
   [13, 14, 15, 16, 17, 19, 20, 21, 22, 23, 24, 25],
   [20, 21, 14, 15, 18, 49, 48, 47],
   [19, 21, 14, 15, 18, 22, 23, 24],
   [19, 20, 14, 15, 18, 22, 23, 24, 37, 34, 36, 38, 39, 8, 48, 45, 47, 49],
   [23, 24, 20, 21, 18, 37, 34, 36],
   [22, 24, 20, 21, 18, 25, 16, 17],
   [22, 23, 20, 21, 18, 25, 16, 17, 33, 34, 35, 2, 36, 37, 43, 40, 42, 44],
   [16, 17, 23, 24, 18, 43, 40, 42],
   [12, 11, 27, 4, 28, 29, 30, 15],
   [12, 26, 11, 4, 28, 32, 31, 17],
   [12, 26, 11, 27, 4, 29, 30, 15, 13, 31, 17, 32],
   [30, 15, 26, 11, 28, 46, 49, 47],
   [29, 15, 26, 11, 28, 13, 31, 17],
   [13, 17, 30, 15, 28, 32, 27, 4],
   [27, 4, 31, 17, 28, 40, 41, 42],
   [34, 24, 35, 2, 36, 44, 43, 42],
   [33, 24, 35, 2, 36, 22, 37, 21],
   [33, 34, 24, 2, 36, 6, 39, 8],
   [33, 34, 24, 35, 2, 22, 37, 21, 38, 39, 8, 6],
   [22, 21, 34, 24, 36, 38, 39, 8],
   [39, 8, 37, 21, 36, 48, 45, 47],
   [38, 8, 37, 21, 36, 6, 35, 2],
   [32, 17, 41, 4, 42, 25, 43, 24],
   [32, 40, 17, 4, 42, 0, 44, 2],
   [32, 40, 17, 41, 4, 25, 43, 24, 33, 44, 2, 0],
   [25, 24, 40, 17, 42, 33, 44, 2],
   [33, 2, 43, 24, 42, 0, 41, 4],
   [9, 8, 46, 11, 47, 38, 48, 21],
   [9, 45, 8, 11, 47, 29, 49, 15],
   [9, 45, 8, 46, 11, 38, 48, 21, 19, 49, 15, 29],
   [38, 21, 45, 8, 47, 19, 49, 15],
   [19, 15, 48, 21, 47, 29, 46, 11]]

/-! ## Auxiliary definitions used in the statements -/

/-- The entries of `edgemap` that pass the test `v1 < 8 && v2 < 8` of the encoder:
the cube's own edges. -/
def cubeEdges : List (Nat × Nat) :=
  edgemap.filter fun e => decide (e.1 / 100 < 8 ∧ e.1 % 100 < 8)

/-- The x coordinate of corner `v` (bit 0). -/
def cornerX (v : Nat) : Nat := v % 2

/-- The y coordinate of corner `v` (bit 1). -/
def cornerY (v : Nat) : Nat := v / 2 % 2

/-- The z coordinate of corner `v` (bit 2). -/
def cornerZ (v : Nat) : Nat := v / 4 % 2

/-- The edge ids of all vertex pairs of all tetrahedra, in the order the labelling
loop visits them. -/
def visitedEdges : List Nat :=
  tets.flatMap fun t => (List.range 6).map (tetEdge t)

/-- The shape of a stored 50 x 50 matrix: 50 rows of 50 entries. -/
def Mat.Square (A : Mat) : Prop := A.length = 50 ∧ ∀ r ∈ A, r.length = 50

/-- A label is kept when its mark is not -1. -/
def keptIn (marks : List Int) (u : Nat) : Prop := marks.getD u 0 ≠ -1

instance (marks : List Int) (u : Nat) : Decidable (keptIn marks u) := by
  unfold keptIn; infer_instance

/-- The inner loop of the matrix construction for a kept label `u`, over the
neighbours `l`. -/
def initRow (marks : List Int) (u : Nat) (l : List Nat) (A : Mat) : Mat :=
  l.foldl (fun A v => if marks.getD v 0 = -1 then A else (A.set u v 1).set v u 1) A

/-- One pass of the outer loop of the matrix construction. -/
def initStep (g : List (List Nat)) (marks : List Int) (A : Mat) (u : Nat) : Mat :=
  if marks.getD u 0 = -1 then A else initRow marks u (g.getD u []) (A.set u u 1)

/-- Every entry of the matrix is 0 or 1. -/
def Mat.Bin (A : Mat) : Prop := ∀ p < 50, ∀ q < 50, A.entry p q = 0 ∨ A.entry p q = 1

/-- Two labels are neighbours when one is in the adjacency set of the other. -/
def adjIn (g : List (List Nat)) (p q : Nat) : Prop := q ∈ g.getD p [] ∨ p ∈ g.getD q []

instance (g : List (List Nat)) (p q : Nat) : Decidable (adjIn g p q) := by
  unfold adjIn; infer_instance

/-- The entry `(p, q)` is set to 1 while the matrix construction processes some
label `u < t`. -/
def setBefore (g : List (List Nat)) (marks : List Int) (t p q : Nat) : Prop :=
  ∃ u < t, keptIn marks u ∧ ((p = u ∧ q = u) ∨
    ∃ v ∈ g.getD u [], keptIn marks v ∧ ((p = u ∧ q = v) ∨ (p = v ∧ q = u)))

/-! ## Relations read off a matrix -/

/-- The relation "entry `(p, q)` of `A` is 1" on the labels 0..49. -/
def oneAt (A : Mat) (p q : Nat) : Prop := p < 50 ∧ q < 50 ∧ A.entry p q = 1

instance (A : Mat) (p q : Nat) : Decidable (oneAt A p q) := by
  unfold oneAt; infer_instance

/-- The relation obtained from `R` by composing it with itself `t` times over:
`relPow R 0 = R` and `relPow R (t + 1)` is `relPow R t` composed with itself. -/
def relPow (R : Nat → Nat → Prop) : Nat → Nat → Nat → Prop
  | 0, p, q => R p q
  | t + 1, p, q => ∃ k, relPow R t p k ∧ relPow R t k q

/-- Chains of `m + 1` steps of `R` from `p` to `q`. -/
def chainLen (R : Nat → Nat → Prop) : Nat → Nat → Nat → Prop
  | 0, p, q => R p q
  | m + 1, p, q => ∃ k, chainLen R m p k ∧ R k q

/-- The graph on the 50 labels whose edges are the pairs of distinct labels in
relation `R`, for a symmetric `R`. -/
def graphOf (R : Nat → Nat → Prop) (hsymm : ∀ p q, R p q → R q p) : SimpleGraph (Fin 50) where
  Adj a b := a ≠ b ∧ R a.val b.val
  symm := fun _ _ h => ⟨Ne.symm h.1, hsymm _ _ h.2⟩
  loopless := fun _ h => h.1 rfl

/-! ## The numbering in closed form -/

/-- The labels that start a component: kept labels `u` whose row `rows u` (bit `q`
of `rows p` stands for the entry `(p, q)`) has no bit below `u`. -/
def rootsOf (kept : Nat → Bool) (rows : Nat → Nat) : List Nat :=
  (List.range 50).filter fun u => kept u && (rows u % 2 ^ u == 0)

/-- The number of component starts `r` that are not above the lowest bit of `rows v`. -/
def idOf (roots : List Nat) (rows : Nat → Nat) (v : Nat) : Nat :=
  (roots.filter fun r => rows v % 2 ^ r == 0).length

/-- The marks in closed form once the labels `u < t` have been scanned. -/
def numberedUpTo (kept : Nat → Bool) (rows : Nat → Nat) (t : Nat) : List Int :=
  (List.range 50).map fun v =>
    if kept v then
      if rows v % 2 ^ t == 0 then 0 else (idOf (rootsOf kept rows) rows v : Int)
    else -1

/-- The state `(marks, color)` after the numbering loop, in closed form. -/
def numbered (kept : Nat → Bool) (rows : Nat → Nat) : List Int × Int :=
  ((List.range 50).map fun v =>
      if kept v then (idOf (rootsOf kept rows) rows v : Int) else -1,
    ((rootsOf kept rows).length : Int) + 1)

/-- The rows `rows` describe an equivalence relation on the kept labels: bit `q` of
`rows p` (for `p, q < 50`) says that `p` and `q` are in the same class. -/
structure ClassRows (kept : Nat → Bool) (rows : Nat → Nat) : Prop where
  field : ∀ p < 50, ∀ q < 50, (rows p).testBit q = true → kept p = true ∧ kept q = true
  refl : ∀ p < 50, kept p = true → (rows p).testBit p = true
  symm : ∀ p < 50, ∀ q < 50, (rows p).testBit q = true → (rows q).testBit p = true
  trans : ∀ p < 50, ∀ q < 50, ∀ r < 50, (rows p).testBit q = true →
    (rows q).testBit r = true → (rows p).testBit r = true

/-- The number of component starts below `t`. -/
def rootsBelow (kept : Nat → Bool) (rows : Nat → Nat) (t : Nat) : Nat :=
  ((List.range t).filter fun u => kept u && (rows u % 2 ^ u == 0)).length

/-- The body of the numbering loop for the label `u`, on the state `(marks, color)`. -/
def labelStep (A : Mat) (n : Nat) (s : Option (List Int × Int)) (u : Nat) :
    Option (List Int × Int) :=
  match s with
  | none => none
  | some (marks, color) =>
    if marks.getD u 0 = -1 then some (marks, color)
    else if marks.getD u 0 ≠ 0 then some (marks, color)
    else
      match labelRow A n u color marks with
      | none => none
      | some marks => some (marks, color + 1)

/-- The row `p` of a matrix as a bit mask: bit `q` is set when entry `(p, q)` is 1. -/
def rowBits (C : Mat) (p : Nat) : Nat :=
  (List.range 50).foldl (fun a q => if C.entry p q = 1 then a ||| (1 <<< q) else a) 0

/-- The kept labels of `marks` as a Boolean predicate. -/
def keptB (marks : List Int) (v : Nat) : Bool := decide (keptIn marks v)

/-- The relation "both labels are kept, and they are equal or neighbours in the
adjacency graph `g`" on the labels 0..49: one step in the kept subgraph. -/
def linked (g : List (List Nat)) (marks : List Int) (p q : Nat) : Prop :=
  p < 50 ∧ q < 50 ∧ keptIn marks p ∧ keptIn marks q ∧ (p = q ∨ adjIn g p q)

/-- The labels `p` and `q` are kept and joined by a path of kept labels in the
adjacency graph: they lie in the same connected component of the kept subgraph. -/
def connected (g : List (List Nat)) (marks : List Int) (p q : Nat) : Prop :=
  Relation.TransGen (linked g marks) p q

/-- The matrix `A` on which the squaring loop stops for the marks `marks` (the
sixth iterate of the squaring, see `closure_of_marks`). -/
def closureOf (marks : List Int) : Mat := squareStep^[6] (initMatrix graph marks)

/-- One step of a path of kept labels: `a` and `b` are kept labels and neighbours
in the adjacency graph. -/
def keptStep (marks : List Int) (a b : Nat) : Prop :=
  a < 50 ∧ b < 50 ∧ keptIn marks a ∧ keptIn marks b ∧ adjIn graph a b

/-- The label `j` is reachable from `i` by a path of kept labels (of any length,
zero included) in the adjacency graph. -/
def reach (marks : List Int) (i j : Nat) : Prop :=
  Relation.ReflTransGen (keptStep marks) i j

/-- The test `vals[p] > theta` as a proposition. -/
def exceeds (cases p : Nat) : Prop := (vals cases).getD p 0 > theta

instance (cases p : Nat) : Decidable (exceeds cases p) := by
  unfold exceeds; infer_instance

/-- The endpoint `u = iedgemap[e] % 100` of label `e`. -/
def endU (e : Nat) : Nat := iedgemap.getD e 0 % 100

/-- The endpoint `v = iedgemap[e] / 100` of label `e`. -/
def endV (e : Nat) : Nat := iedgemap.getD e 0 / 100

/-! ## The closure on bit masks

The 50 x 50 matrix of zeros and ones packed into one natural number: bit
`50 * p + q` stands for the entry `(p, q)`. -/

/-- Evaluate the number `n` before handing it to `k`. -/
def force {α : Type} (n : Nat) (k : Nat → α) : α :=
  match n with
  | 0 => k 0
  | m + 1 => k (m + 1)

/-- The mask with the bits `0, 50, 100, ...` of the first `n` rows. -/
def colMaskN : Nat → Nat
  | 0 => 0
  | n + 1 => 1 + 2 ^ 50 * colMaskN n

/-- The mask `colMaskN 50`, written out. -/
def colMask : Nat :=
  333802339951107229763584856101147363152208538489615311974978277296294188115957095446192008223244487764090387743832818979236673339424076980397557021836406073963946176983262260489572348146271371231945113484756159861217769336982798476167065666989133397798338857211675055012707039449954697561136904864686677429188543431846177657297047649365590634225372073512678006622301741757959154581535753029075026912532510242301081935825989275095453868104939159422203917882768548247447409599675109803337169542214052001415155004549143728327767829555340869401325259635276899740600559612913207228932905383358428079512581948958278286376933691205430598077306149836178767554796566618544646509701424747950113467180964311134733786262132888307307840858478161690625

/-- The adjacency graph with the diagonal, packed: bit `50 * p + q` is set when
`p = q` or `p` and `q` are neighbours. -/
def adjDiag : Nat :=
  352338952084307576637000529161461686137545720032645123350730838083915370092433223223497528938131719561892093010370108240877748151973637255213760262033188409842057715999524050980686873021618397917357223517575888904353369753433067809691390839192884753856531892177657769469321332492918539113663213225754074853970908499807503806359704195128514605179070226485581782798526395803530170723621672043342076468750103551017105794653495427368351100545963235625248758897333173694132343027697085583903956586925900500644104531492873019106856217446932428469798411377820177008436680944780386706568227274821299150765189832091247170543163692225935506674078551148362886811875586310457816801842294903858888819285828740072761128630800585167169080511541270122043788270032126015

/-- The packed matrix is a stand-in for the stored matrix. -/
def Rep (C : Mat) (M : Nat) : Prop :=
  ∀ p < 50, ∀ q < 50, (C.entry p q = 1 ↔ M.testBit (50 * p + q) = true)

/-- The packed masked adjacency matrix for the kept labels `kept` (bit `u` set
when label `u` is kept). -/
def initN (kept : Nat) : Nat :=
  (List.range 50).foldl (fun a u =>
    a ||| (((if kept.testBit u then (adjDiag >>> (50 * u)) &&& kept else 0) % 2 ^ 50)
      <<< (50 * u))) 0

/-- The packed boolean square: for every `k`, the column `k` of `M` (one bit per
row) times the row `k` of `M` puts row `k` into every row that has a one in
column `k`. -/
def sqN (M : Nat) : Nat :=
  (List.range 50).foldl (fun a k =>
    a ||| (((M >>> k) &&& colMask) * ((M >>> (50 * k)) % 2 ^ 50))) 0

/-- At most `fuel` packed squarings, stopping at the first fixed point. -/
def closeN : Nat → Nat → Nat
  | 0, M => M
  | fuel + 1, M => force (sqN M) fun B => if B = M then M else closeN fuel B

/-! ## The per-case evaluation on bit masks -/

/-- The number of positions of `l` at which `x` has a bit set. -/
def bitCount (x : Nat) (l : List Nat) : Nat := (l.filter fun k => x.testBit k).length

/-- The points whose value exceeds the threshold, as a bit mask: a corner when its
bit of `cases` is set, a face centre when at least 3 of its 4 corners are set, the
body centre when at least 6 of the 8 corners are set. -/
def aboveMask (cases : Nat) : Nat :=
  (cases &&& 255) |||
  ((List.range 6).foldl (fun a f =>
    if 3 ≤ bitCount cases (cubefaces.getD f []) then a ||| (1 <<< (8 + f)) else a) 0) |||
  (if 6 ≤ bitCount cases (List.range 8) then 1 <<< 14 else 0)

/-- The endpoints `iedgemap[e] % 100` of the 50 labels, 4 bits per label. -/
def endsU : Nat := 1393071855798052484387953480388327207063075191504483572944514

/-- The endpoints `iedgemap[e] / 100` of the 50 labels, 4 bits per label. -/
def endsV : Nat := 551315484839157839180653156689231607313097175426540874236448

/-- The label `e` is kept when exactly one endpoint is in the mask `ab`. -/
def keptFast (ab e : Nat) : Bool :=
  xor (ab.testBit ((endsU >>> (4 * e)) % 16)) (ab.testBit ((endsV >>> (4 * e)) % 16))

/-- The kept labels of a case as a bit mask. -/
def keptMask (cases : Nat) : Nat :=
  force (aboveMask cases) fun ab =>
    (List.range 50).foldl (fun a e => if keptFast ab e then a ||| (1 <<< e) else a) 0

/-- Evaluate the numbers of the list `l` before handing it to `k`. -/
def forceList {α : Type} : List Nat → (List Nat → α) → α
  | [], k => k []
  | a :: l, k => force a fun a => forceList l fun l => k (a :: l)

/-- The closed form `numbered` for a given list of component starts. -/
def numberedWith (roots : List Nat) (kept : Nat → Bool) (rows : Nat → Nat) : List Int × Int :=
  ((List.range 50).map fun v => if kept v then (idOf roots rows v : Int) else -1,
    (roots.length : Int) + 1)

/-- The state `(marks, color)` of a case after the numbering loop, computed on bit
masks. -/
def fastEval (cases : Nat) : List Int × Int :=
  force (keptMask cases) fun kept =>
    force (closeN 6 (initN kept)) fun M =>
      forceList (rootsOf (fun v => kept.testBit v) (fun p => M >>> (50 * p))) fun roots =>
        numberedWith roots (fun v => kept.testBit v) (fun p => M >>> (50 * p))

/-- The check that the mask `aboveMask` agrees with the threshold tests of a case. -/
def aboveOk (cases : Nat) : Bool :=
  (List.range 15).all fun p => above cases p == (aboveMask cases).testBit p

/-- The state `(marks, color)` after the numbering loop for each of the 256 cases,
packed: 3 bits per label holding `marks[v] + 1`, and `color` from bit 150 on. -/
def caseCodes : List Nat :=
  [1427247692705959881058285969449495136382746624, 2854495406679567853136386637167037078476694530,
   2854495388070375931949844899670157542215909376, 2854495409338023706057009540880853973751309314,
   2854506274447743629436417601797525375057133714, 2854506295715391720456232300065572180768334992,
   4281753971141387765244613012403771415615504530, 2854496916682653323440624248709157617370932368,
   2854496746541398854725914177224298430868750336, 4281745141079746373108685964104494452014326786,
   2854496749199855024559036022268013871672328192, 2854506444588856121283923657386495023555552258,
   2854507635577220186744559383664030539753980050, 2854495558211650643460098911480214673768850576,
   2854495576820842604251050499562480996710875282, 2854495555553194513240907207851351499275248784,
   2855192283699373844399834402826163074409431040, 2855192304967021935419649101094209605242725378,
   4282439980393017980208029813432409114967801856, 2855192307625477771042356914852104954234020866,
   4282799314584884633919597267137779713905787026, 2855203194002845802739494763992744705391140992,
   5710047012607756854644429158129609389189365906, 2855193814970107388425971622680408595710419072,
   4282442018099552364372133729763620447947063296, 4282442039367200455391948428031666978780357634,
   4282442022087236619121816497329193609152430080, 2855203342876310186269271031357746004038263810,
   4282800675714361191227739049004284878602633362, 2855192456499104725743361375407387198391656576,
   4282788616957983608734230164902735335559528594, 2855192453840648578226254581822602477614735488,
   3211307308588409735166508519941780315884748800, 4816960984150262693769577478180717279538324482,
   3211307311246865904999781480712945386311909376, 3211307332514513656858479800645813801142199298,
   4816971851918438470069608442811205576118763666, 4816971873186086561089423141079252381829964944,
   4816971855906122724819517883967953181759504530, 3211308839859143274242094508474117444761822352,
   4638557042988588255138807846879237689422381056, 6244211399115180760046547924280828732127585282,
   3211308672376344997608971425060481058543239168, 3211318367765346072085392738901134193721353218,
   4816973213047915027377750224677710740815610002, 4816961135682345484093289752493894874830480528,
   3211307499997332577300985902354948183581786258, 3211307478729684464042376289365990669441049744,
   3212004206875863816830800964226262980079124480, 3212004228143511925215021672529035661804577794,
   3212004209534319964424070084456902438024118272, 3212004230801967738521563319110681561283961858,
   4818017199349619592566047109237929572410327186, 3212015117179335792534867335427570761952993408,
   4818017203337303813955950789583888759327817874, 3212005738146597355905178026938985202760360064,
   4639253941276042336803100291163720353616756736, 4639253962543690445187320999466493035342210050,
   3212005570663799057033260028804438110255448064, 3212015266052800153748476257366001953863115778,
   4818018560479096149874188891104434737107173522, 3212004379675594715538733946842213254953508992,
   3212004398284786636725274506098905235293995154, 3217579393176236778090233806610790532264755200,
   2854582498071696896177726152052688541438181376, 4281873768375193435286403926347079617868473346,
   4281830194765341031985921562658934581996552192, 4281873771033649288207026830060896513143088130,
   2854593387107520763497571814951223643728773266, 2854593408375168854517386513219270451583328384,
   4281841083801164899305767225557469684287144082, 2854584029342430457501778461862855888185925760,
   4281832232471875416150025478990145914975813632, 5709124183340111501563374372447191070457734146,
   4281832236459559670899708246555719076181180416, 4281884806284481703433940946566537562947331074,
   2854594747910440384982119877156966089095118994, 2854582670544870841697659404973150225253343360,
   2854582689154062802488610993055416546052014226, 2854582667886414711478467701344287050759741568,
   2855279396359150978460988615979861342545248256, 2855279417626799069480803314247907871226929170,
   4282527093052795114269184026586107383103619072, 2855279420285254905103511128005803220218224658,
   2855290285394974845780834278878396442684228738, 2855290306662622936800648977146442973517521024,
   4282537982088618981589029689484642483242599554, 2855280927629884522487125835834106863836799104,
   4282529130759329498433287942917318716082880512, 4282529152026977589453102641185365244764561426,
   4282529134747013753182970710482891877288247296, 2855290455536087320330425244511444270022467602,
   2855291646197894467265382341084138888050574466, 2855279568832324923980921868900322747187536000,
   2855279587441516884771873456982589345007469698, 2860854582331668934633955367260535838612652032,
   4817048075542391736810916993066368742499811328, 6422745307434133262444563057882154840489731074,
   4817048079530075991560826434223116348140552192, 4638685694210139239008497089825856340533978114,
   4817058964578215604130762655964903844790403218, 4817058985845863695150577354232950652644958336,
   4817058968565899858880672097121651450431144082, 3211395952518920408303248721627815715576815744,
   6244298490507309803087887439166480195089072128, 7849996402963790875026204623144920372130620418,
   4817050121224294630474611350744419856487546880, 4638696729460971654235410028081176733113132034,
   4817060325381135225615310718170646290156748946, 4817048248015565682330850245986830426314973312,
   3211394612330552775538546395847883732922925202, 3216969607220704820450077074731725735961034752,
   2904672062482459040476019436035523483548516352, 2904672083750107148860240144338296163122356242,
   2904672065140915188069288556266162941493510144, 2904672086408562962166781790919942062601740306,
   2904682951518282907795865098934058583687496834, 2904682972785931016180085807236831265412948096,
   2904682954176739055389134219164698041632490626, 2899098237313025500364421527929842702844166144,
   4331921796882637560448318762972980857086148608, 4331921818150285668832539471275753536659988498,
   2904673426270394280678478500613698613724839936, 2899107765219228298207700868818870379185963154,
   2904684312321202529280413161139801029053842562, 2899096878514167849959731131808251132298395648,
   4348645335051215611209500187341794072948909058, 2899096875855711680126456992715831511491805184,
   2899096875855711680126456992715831511491805184, 4348645335051215611209500187341794072948909058,
   4348645316442023690022958449844914536688123904, 4348645337709671464130123091055610968223523842,
   4348656202819391387509531151972282369529348242, 4348656224087039478529345850240329175240549520,
   5798204644734931482322669089486949029450875026, 4348646845054301081513737798883914611843146896,
   2899098236985190772735798935893234490242236416, 4348647376745434250123513102107898541074555906,
   2899098239643646942568919598074960847579381760, 2899107935032648039293807233193441999462605826,
   2899109126348684573106238703867046417278697618, 2899097048983115029821778231683230551293568144,
   2899097067592306990612728636903507790769160338, 2899097046324658899602585345192378293333533840,
   4349342212071021602472947953000920068881645568, 4349342233338669693492762651268966599714939906,
   5798890653986561697286085890515586728803172352, 4349342235997125529115470465026861948706235394,
   5799249988178428350997653344220957327741157522, 4349353122374493560812608314167501699863355520,
   7248798431423196530727427762121207622387892370, 4349343743341755146499085172855165590182633600,
   4349344253765240241386960867767024537007292416, 4349344275032888332406775566035071067840586754,
   4349344257752924496136641861039614073013010432, 2899804833320102104279154607164692979945317378,
   4327402166485825577589418369207300756127350930, 2899793947270569112105040695610403075916374144,
   4327390107729447995095908302243762129617813650, 2905368960769913122758072974143081342485135360,
   3255908799032201653176393573182160802307637248, 4883863219815950570784405058041288009172657154,
   3255908801690657823009667712274560631904927744, 3255908822958305574868366032207429046735217666,
   4883874087584126347084436022671776305753096338, 4883874108851774438104250720939823111464297616,
   4883874091571810601834347231310376050149032082, 3255910330302935192251980740035732690354840720,
   3255910160161680745785734333498683005312434176, 4883865261510169209698416198516071313679852546,
   3255910162820136915618856178541270347185913856, 3255919858209137990095277492381923482364027906,
   3255921049525174546156174101472494932348895378, 3255908972159605002871713629288679066363765904,
   3255908990768796963662665217369817290375692434, 3261483985658949008574195859360171143918584848,
   2860157684044214852351900650830617321135931392, 2860157705311862960736121359133390002861384706,
   2860157686702670999945170949382491538251055104, 2860157707970318774042664184036270661510898690,
   4290247415102146145847696639144461083995537554, 2860168594347686828055967022031925103009800320,
   4290247419089830367237602086972272409668223122, 2854583858874781312240303884080625558221225984,
   2860159045173693944961241411147139524140728320, 2860159066441342053345462119449912205866181634,
   2860159047832150092554359415649201253532041216, 2854593386780984110083581746960884873792914562,
   2860169934537187745331681179120951451177189522, 4281830194765341031985921562658934581996552192,
   2854582519339344987197540850320735349292736530, 2854582498071696896177726152052688541438181376,
   2899183988432412064451053963813041838896971776, 4348776003916266187696395643987609564056658946,
   4326431685126056200259249374419287879455342592, 4348776006574722040617018547701426459331273730,
   2899194877131314684639839903464177176449908882, 2899194898398962775659654601732223984304464000,
   4326442573824958820448035314070423217008279698, 2899185519366224378644046550375809420907061376,
   2899185349225111886796561745436012683668750336, 4348778045105315921214657316422065831214326786,
   2899185351883568056629682407617739041005895680, 2899195047272569153354570042736220192889119746,
   2899196238260770959538377738512353214542643346, 2899184160895201416253917266328537350700867712,
   2899184179504393377044867671548814588033106066, 2904759174394545444282235887272473465026772992,
   3216882495225541684281380798029930997505064960, 3216882516493189775301195496297977526186745874,
   4644130191919185820089576208636177038063435776, 3216882519151645610923903310055872875178041362,
   3216893383924444304470166737681066332906390658, 3216893405192092395489981435949112863739682944,
   4644141080618088440278362148287312373464761474, 3211308669717888827775849580017893716669759488,
   3216883856018241506626888579652901842276843520, 3216883877285889597646703277920948370958524434,
   3216883858676697676460009241834628199613988864, 4816971851918438470069608442811205576118763666,
   3216894745053900579368704572729242370999125122, 3211307311246865882760987748924955180601966592,
   3211307329856057843551938154064167901662815234, 3211307308588409735166508519941780315884748800,
   2860767470336505798465257912236380441616580608, 4291151226772406788717701566622617468136072194,
   2860767472994961968298532051328780271213871104, 2860767494262609720157230371261648686044161026,
   2860778359035408418654043851887515779169517714, 2860778380303056509673858550155562587024072832,
   2860778361693864588487317990979915608766808210, 4282442018099552364372133729763620447947063296,
   2860768831129205620810764510998470510642724864, 4291153267961456522235961464765752571675288578,
   2860768833787661790643886356041057852516204544, 2855203172735197711719680065724698174557848706,
   2860779720164864693552580504074811041516617874, 2855192286357829996944863680198325830974177280,
   2855192304967021957735815268270456853588156434, 2855192283699373844399834402826163074409431040,
   2860070572049051716183204374128822582679961600, 2860070593316699824567425082431595262253801490,
   2860070574707507863776474672680696799795085312, 2854495579817355479626456362925134607838347410,
   2860081460747954336371990313779957918081287298, 2854506465856504212294065770847321455952134144,
   2854506447247312251503115361015358198049154050, 2854496746541398854725914177224298430868750336,
   2860071932841751538528710972890912651706105856, 2854496937950301414450767540420287114806558866,
   2854496919341109453659664836610568965369438336, 2854506274447743629436417601797525375057133714,
   2854507805718312378885734077649191231136211970, 2854495388070375931949844899670157542215909376,
   2854495406679567853136386637167037078476694530, 1427247692705959881058285969449495136382746624]

/-- The marks packed in `code`. -/
def unpackMarks (code : Nat) : List Int :=
  (List.range 50).map fun v => (((code >>> (3 * v)) % 8 : Nat) : Int) - 1

/-- The state `(marks, color)` after the numbering loop of a case, from the table. -/
def caseTable (cases : Nat) : List Int × Int :=
  (unpackMarks (caseCodes.getD cases 0), ((caseCodes.getD cases 0 >>> 150 : Nat) : Int))

/-- The 256 entries of the generated table `edgeGroup`. -/
def edgeGroupTable : List Nat :=
  [0xffffff, 0xfcfcfc, 0xf3f3fc, 0xf0f0ff, 0xcffcf3, 0xccfff0, 0xc7f4f1, 0xc0f3f3,
   0x3ff3f3, 0x7cf4f4, 0x33fff0, 0x30fcf3, 0x0ff0ff, 0x0cf3fc, 0x03fcfc, 0x00ffff,
   0xfccfcf, 0xffcccc, 0xf4c7cd, 0xf3c0cf, 0xcddcd3, 0xcfcfc0, 0xc9d8d2, 0xc3c3c3,
   0x7cc7c7, 0x7fc4c4, 0x74cfc5, 0x33ccc3, 0x0dd0df, 0x0fc3cc, 0x01dcdc, 0x03cfcf,
   0xf33fcf, 0xf47cdc, 0xff33cc, 0xfc30cf, 0xc77cd3, 0xc47fd0, 0xcf74d1, 0xcc33c3,
   0x7337c7, 0xb478d8, 0x3f3fc0, 0x3c3cc3, 0x0770df, 0x0473dc, 0x0f3ccc, 0x0c3fcf,
   0xf00fff, 0xf30cfc, 0xfc03fc, 0xff00ff, 0xc55cf3, 0xc30ff0, 0xcd54f1, 0xcf03f3,
   0x7007f7, 0x7304f4, 0x3c0ff0, 0x3f0cf3, 0x0550ff, 0x0303fc, 0x0c0cfc, 0x0f0fff,
   0xcfcf3f, 0xdcdc7c, 0xc7c73d, 0xd0d07f, 0xffcc33, 0xfccf30, 0xf7c431, 0xf0c333,
   0x4fc737, 0x9cd878, 0x47cf35, 0x10dc73, 0x3fc03f, 0x3cc33c, 0x33cc3c, 0x30cf3f,
   0xccff0f, 0xcffc0c, 0xc4f70d, 0xc3f00f, 0xfcfc03, 0xffff00, 0xf4f401, 0xf3f303,
   0x4cf707, 0x4ff404, 0x44ff05, 0x03fc03, 0x3cf00f, 0x3ff30c, 0x30fc0c, 0x33ff0f,
   0xc74f1f, 0xd89c6c, 0xcf471d, 0xdc104f, 0xf74c13, 0xf44f10, 0xff4411, 0xfc0303,
   0x874b1b, 0xd89c6c, 0x4f4f15, 0x1c1c43, 0x37401f, 0x34431c, 0x3f0c0c, 0x3c0f0f,
   0xc03f3f, 0xc33c3c, 0xcc333c, 0xcf303f, 0xf03c33, 0xf33f30, 0xfc3030, 0xff3333,
   0x403737, 0x433434, 0x0c3f30, 0x0f3c33, 0x30303f, 0x33333c, 0x7c7c7c, 0x3f3f3f,
   0x3f3f3f, 0x7c7c7c, 0x73737c, 0x70707f, 0x4f7c73, 0x4c7f70, 0x87b4b1, 0x407373,
   0xff3333, 0xfc7474, 0xf33f30, 0xf03c33, 0xcf303f, 0xcc333c, 0xc33c3c, 0xc03f3f,
   0x7c4f4f, 0x7f4c4c, 0xb4878d, 0x73404f, 0x8d9c93, 0x4f4f40, 0xc9d8d2, 0x434343,
   0xfc4747, 0xff4444, 0xf44f45, 0xf30c03, 0xcd101f, 0xcf030c, 0xc11c1c, 0xc30f0f,
   0x33ff0f, 0x74fc5c, 0x3ff30c, 0x3cf00f, 0x47fc53, 0x44ff50, 0x4ff451, 0x0cf303,
   0xf3f303, 0xf4f454, 0xffff00, 0xfcfc03, 0xc3f00f, 0xc0f30c, 0xcffc0c, 0xccff0f,
   0x30cf3f, 0x33cc3c, 0x3cc33c, 0x3fc03f, 0x45dc73, 0x03cf30, 0x4dd471, 0x0fc333,
   0xf0c333, 0xf3c030, 0xfccf30, 0xffcc33, 0xc0c03f, 0xc7c73d, 0xcccc3c, 0xcfcf3f,
   0x0f0fff, 0x5c5cfc, 0x0707fd, 0x5050ff, 0x3f0cf3, 0x3c0ff0, 0x3704f1, 0x3003f3,
   0xcf03f3, 0xdc54f4, 0xc30ff0, 0xc00cf3, 0xff00ff, 0xfc03fc, 0xf30cfc, 0xf00fff,
   0x0c3fcf, 0x0f3ccc, 0x0437cd, 0x0330cf, 0x3c3cc3, 0x3f3fc0, 0x3434c1, 0x3333c3,
   0xcc33c3, 0xcf30c0, 0xc03fc0, 0xc77cd3, 0xfc30cf, 0xff33cc, 0xf03ccc, 0xf33fcf,
   0x03cfcf, 0x54dcdc, 0x0fc3cc, 0x0cc0cf, 0x33ccc3, 0x30cfc0, 0x3fc0c0, 0x7cc7c7,
   0xc3c3c3, 0xd4d4d4, 0xcfcfc0, 0xccccc3, 0xf3c0cf, 0xf0c3cc, 0xffcccc, 0xfccfcf,
   0x00ffff, 0x03fcfc, 0x0cf3fc, 0x0ff0ff, 0x30fcf3, 0x33fff0, 0x3cf0f0, 0x3ff3f3,
   0xc0f3f3, 0xc3f0f0, 0xccfff0, 0xcffcf3, 0xf0f0ff, 0xf3f3fc, 0xfcfcfc, 0xffffff]

/-! ## The encoder, evaluated -/

/-- The 2-bit value of a mark: `mkid < 0 ? 3 : mkid - 1`. -/
def twoBit (m : Int) : Int := if m < 0 then 3 else m - 1

/-- The contribution of one entry of `edgemap` to the code: `none` when an `assert`
fails, 0 when the entry is skipped. -/
def entryBits (marks : List Int) (e : Nat × Nat) : Option Nat :=
  if e.1 / 100 < 8 ∧ e.1 % 100 < 8 then
    match cubeedge (e.1 / 100) (e.1 % 100) with
    | none => none
    | some ceid =>
      if marks.getD e.2 0 = 0 then none
      else if twoBit (marks.getD e.2 0) < 4 ∧ twoBit (marks.getD e.2 0) ≥ 0 then
        some ((twoBit (marks.getD e.2 0)).toNat <<< (2 * ceid))
      else none
  else some 0

/-- The entry of `edgemap` whose small edge index is `i`, for `i = 0, ..., 11`. -/
def cubeEdgeByIndex : List (Nat × Nat) :=
  [(1, 32), (203, 33), (405, 29), (607, 38), (2, 0), (103, 25), (406, 9), (507, 19),
   (4, 12), (105, 13), (206, 6), (307, 22)]

/-- The check of the 12 fields of the table entry of a case against the marks of
the 12 cube edges. -/
def fieldsOk (cases : Nat) : Bool :=
  (List.range 12).all fun i =>
    let m := (caseTable cases).1.getD (cubeEdgeByIndex.getD i (0, 0)).2 0
    m != 0 && decide (0 ≤ twoBit m) && decide (twoBit m < 4) &&
      ((((edgeGroupTable.getD cases 0 >>> (2 * i)) % 4 : Nat) : Int) == twoBit m)

/-- The check of the table entry of a case: the encoder run on the marks of the
case, in the insertion order of the map, returns the entry, which is below 2^24
and has the 12 fields of `fieldsOk`. -/
def encodeOk (cases : Nat) : Bool :=
  (encode edgemapTable (caseTable cases).1 == some (edgeGroupTable.getD cases 0)) &&
    decide (edgeGroupTable.getD cases 0 < 2 ^ 24) && fieldsOk cases

/-- The check that at most 4 components reach the cube edges of a case, the fourth
one only in the cases 105 and 150. -/
def cubeIdsOk (cases : Nat) : Bool :=
  cubeEdgeByIndex.all fun e =>
    let m := (caseTable cases).1.getD e.2 0
    m == -1 || (decide (1 ≤ m) && decide (m ≤ 4) && (m != 4 || cases == 105 || cases == 150))

/-- The check of one case: the mask `aboveMask`, the state in `caseTable`, the
table entry and the ids on the cube edges. -/
def caseOk (cases : Nat) : Bool :=
  (aboveOk cases && (fastEval cases == caseTable cases)) &&
    (encodeOk cases && cubeIdsOk cases)

/-- The cases `8 * c, ..., 8 * c + 7`. -/
def caseChunk (c : Nat) : List Nat := (List.range 8).map fun i => 8 * c + i

/-! ## The points -/

/-- Modelled from the spec: the type `point` of `geom.h`, a header that is not
among the sources; the spec has "a 3D coordinate (x, y, z), real-valued".  The
coordinates the program stores are 0, 1/2 and 1, so `ℚ` holds them exactly. -/
structure Point where
  x : ℚ
  y : ℚ
  z : ℚ
deriving DecidableEq

/-- The update `sum += p` of a point, coordinate by coordinate. -/
def Point.add (s p : Point) : Point := ⟨s.x + p.x, s.y + p.y, s.z + p.z⟩

/-- The product `p * c` of a point and a number, coordinate by coordinate. -/
def Point.scale (p : Point) (c : ℚ) : Point := ⟨p.x * c, p.y * c, p.z * c⟩

/-- The entry `pts[k]` (the origin when `k` is out of range). -/
def ptAt (ps : List Point) (k : Nat) : Point := ps.getD k ⟨0, 0, 0⟩

/-- The 8 corners pushed by the first loop nest of `main`: `z` outermost, `x`
innermost, so that corner `x + 2y + 4z` is the point `(x, y, z)`. -/
def cornerPts : List Point :=
  (List.range 2).flatMap fun z => (List.range 2).flatMap fun y =>
    (List.range 2).map fun x => ⟨x, y, z⟩

/-- The centre pushed for face `f`: the sum of `pts[cubefaces[f][v]]` for the 4
values of `v`, times 0.25. -/
def faceCentre (ps : List Point) (f : Nat) : Point :=
  ((List.range 4).foldl (fun (sum : Point) v => sum.add (ptAt ps (face f v)))
    (⟨0, 0, 0⟩ : Point)).scale (1 / 4)

/-- The vector `pts` built in `main`: the 8 corners, the 6 face centres, and the
body centre `(.5, .5, .5)`. -/
def pts : List Point :=
  (List.range 6).foldl (fun ps f => ps ++ [faceCentre ps f]) cornerPts ++ [⟨1 / 2, 1 / 2, 1 / 2⟩]

/-- Two corners are the ends of a cube edge: their indices differ in exactly one
of the three coordinate bits. -/
def adjacentCorners (a b : Nat) : Prop :=
  (cornerX a ≠ cornerX b ∧ cornerY a = cornerY b ∧ cornerZ a = cornerZ b) ∨
  (cornerX a = cornerX b ∧ cornerY a ≠ cornerY b ∧ cornerZ a = cornerZ b) ∨
  (cornerX a = cornerX b ∧ cornerY a = cornerY b ∧ cornerZ a ≠ cornerZ b)

instance (a b : Nat) : Decidable (adjacentCorners a b) := by
  unfold adjacentCorners; infer_instance

/-- The tetrahedra whose two corner vertices are `u` and `v`, in either order. -/
def tetsOn (u v : Nat) : List Tet := tets.filter fun t => edgeid t.a t.b == edgeid u v

/-! ## The number of patches, checked against the table -/

/-- The check of the number of patches of a case (`color - 1`, with `color` read
from the table) against the marks of its cube edges: the count is between 0 and
4, it is 0 in the cases 0 and 255 only, and every id from 1 to the count is the
mark of some cube edge. -/
def patchesOk (cases : Nat) : Bool :=
  force (caseCodes.getD cases 0) fun code =>
    force (code >>> 150) fun color =>
      Nat.ble 1 color && Nat.ble color 5 &&
      (Nat.beq color 1 == (Nat.beq cases 0 || Nat.beq cases 255)) &&
      (List.range (color - 1)).all fun j =>
        cubeEdgeByIndex.any fun e => Nat.beq ((code >>> (3 * e.2)) % 8) (j + 2)

/-! ## The program for another order of the tetrahedra -/

/-- The labelling loop of `main` run over the tetrahedra `ts`, in the order of the
list. -/
def buildEdgesFrom (ts : List Tet) : EdgeTables :=
  ts.foldl (fun s t => (List.range 6).foldl (fun s k => addEdge s (tetEdge t k)) s) ⟨[], []⟩

/-- The graph loop of `main` run over the tetrahedra `ts`, started from `em.size()`
empty sets. -/
def buildGraphFrom (ts : List Tet) (em : List (Nat × Nat)) : List (List Nat) :=
  ts.foldl (addTet em) (List.replicate em.length [])

/-- The mark of label `e` set by the marks loop when `iedgemap` is `ie`. -/
def markOfIn (ie : List Nat) (cases e : Nat) : Int :=
  let eid := ie.getD e 0
  let u := eid % 100
  let v := eid / 100
  if xor (above cases u) (above cases v) then 0 else -1

/-- The vector `marks` after the marks loop of a case, for the tables `tabs`. -/
def initialMarksIn (tabs : EdgeTables) (cases : Nat) : List Int :=
  (List.range tabs.edgemap.length).map (markOfIn tabs.iedgemap cases)

/-- The state `(marks, color)` of a case after the numbering loop when `main`
enumerates the tetrahedra `ts`: the labelling loop, the graph loop, and then the
marks, the closure and the numbering of the case. -/
def evaluateFrom (ts : List Tet) (fuel cases : Nat) : Option (List Int × Int) :=
  let tabs := buildEdgesFrom ts
  let graph := buildGraphFrom ts tabs.edgemap
  let marks := initialMarksIn tabs cases
  if graph.length = 50 then
    match closureLoop fuel (initMatrix graph marks) with
    | none => none
    | some A => labelLoop A graph.length marks
  else none

/-- The value written to the table for a case when `main` enumerates the
tetrahedra `ts` and the encoder iterates over the map in the order `order`. -/
def tableEntryFrom (ts : List Tet) (fuel : Nat) (order : List (Nat × Nat)) (cases : Nat) :
    Option Nat :=
  (evaluateFrom ts fuel cases).bind fun s => encode order s.1

/-- The packed masked adjacency matrix for the packed adjacency `adj` (bit
`50 * p + q` set when `p = q` or `p` and `q` are neighbours) and the kept labels
`kept`. -/
def initNOn (adj kept : Nat) : Nat :=
  (List.range 50).foldl (fun a u =>
    a ||| (((if kept.testBit u then (adj >>> (50 * u)) &&& kept else 0) % 2 ^ 50)
      <<< (50 * u))) 0

/-- The state `(marks, color)` after the numbering loop, computed on bit masks from
the packed adjacency `adj` and the kept labels `kept`. -/
def fastEvalOn (adj kept : Nat) : List Int × Int :=
  force (closeN 6 (initNOn adj kept)) fun M =>
    forceList (rootsOf (fun v => kept.testBit v) (fun p => M >>> (50 * p))) fun roots =>
      numberedWith roots (fun v => kept.testBit v) (fun p => M >>> (50 * p))

/-! ## The tables for the first two tetrahedra exchanged -/

/-- The tetrahedra of `main` with the first two exchanged. -/
def tetsSwapped : List Tet :=
  match tets with
  | a :: b :: l => b :: a :: l
  | l => l

/-- The map `edgemap` the labelling loop leaves when it runs over `tetsSwapped`. -/
def edgemapSwapped : List (Nat × Nat) :=
  [(206, 0), (608, 1), (614, 2), (208, 3), (214, 4), (814, 5), (2, 6), (8, 7), (14, 8), (406, 9),
   (408, 10), (414, 11), (4, 12), (105, 13), (509, 14), (514, 15), (109, 16), (114, 17),
   (914, 18), (507, 19), (709, 20), (714, 21), (307, 22), (309, 23), (314, 24), (103, 25),
   (410, 26), (10, 27), (1014, 28), (405, 29), (510, 30), (110, 31), (1, 32), (203, 33),
   (311, 34), (211, 35), (1114, 36), (711, 37), (607, 38), (611, 39), (112, 40), (12, 41),
   (1214, 42), (312, 43), (212, 44), (613, 45), (413, 46), (1314, 47), (713, 48), (513, 49)]

/-- The adjacency sets the graph loop leaves when it runs over `tetsSwapped`. -/
def graphSwapped : List (List Nat) :=
  [[1, 2, 3, 4, 5, 35, 39, 36],
   [0, 2, 3, 4, 5, 9, 10, 11],
   [0, 1, 3, 4, 5, 9, 10, 11, 38, 39, 37, 21, 36, 35, 45, 46, 47, 48],
   [0, 1, 2, 4, 5, 6, 7, 8],
   [0, 1, 2, 3, 5, 6, 7, 8, 33, 34, 24, 35, 36, 39, 44, 43, 42, 41],
   [0, 1, 2, 3, 4, 6, 7, 8, 9, 10, 11, 12],
   [3, 4, 7, 8, 5, 41, 44, 42],
   [6, 3, 4, 8, 5, 12, 10, 11],
   [6, 3, 4, 7, 5, 12, 10, 11, 26, 27, 28, 32, 31, 17, 40, 41, 42, 44],
   [10, 11, 1, 2, 5, 45, 46, 47],
   [9, 11, 1, 2, 5, 12, 7, 8],
   [9, 10, 1, 2, 5, 12, 7, 8, 26, 27, 28, 29, 30, 15, 45, 46, 47, 49],
   [7, 8, 10, 11, 5, 26, 27, 28],
   [14, 15, 16, 17, 18, 31, 30, 28],
   [13, 15, 16, 17, 18, 19, 20, 21],
   [13, 14, 16, 17, 18, 19, 20, 21, 29, 30, 26, 11, 28, 31, 49, 48, 47, 46],
   [13, 14, 15, 17, 18, 25, 23, 24],
   [13, 14, 15, 16, 18, 25, 23, 24, 31, 30, 28, 32, 27, 8, 40, 41, 42, 43],
   [13, 14, 15, 16, 17, 19, 20, 21, 22, 23, 24, 25],
   [20, 21, 14, 15, 18, 49, 48, 47],
   [19, 21, 14, 15, 18, 22, 23, 24],
   [19, 20, 14, 15, 18, 22, 23, 24, 37, 34, 36, 38, 39, 2, 48, 45, 47, 49],
   [23, 24, 20, 21, 18, 37, 34, 36],
   [22, 24, 20, 21, 18, 25, 16, 17],
   [22, 23, 20, 21, 18, 25, 16, 17, 33, 34, 35, 4, 36, 37, 43, 40, 42, 44],
   [16, 17, 23, 24, 18, 43, 40, 42],
   [12, 11, 27, 8, 28, 29, 30, 15],
   [12, 26, 11, 8, 28, 32, 31, 17],
   [12, 26, 11, 27, 8, 29, 30, 15, 13, 31, 17, 32],
   [30, 15, 26, 11, 28, 46, 49, 47],
   [29, 15, 26, 11, 28, 13, 31, 17],
   [13, 17, 30, 15, 28, 32, 27, 8],
   [27, 8, 31, 17, 28, 40, 41, 42],
   [34, 24, 35, 4, 36, 44, 43, 42],
   [33, 24, 35, 4, 36, 22, 37, 21],
   [33, 34, 24, 4, 36, 0, 39, 2],
   [33, 34, 24, 35, 4, 22, 37, 21, 38, 39, 2, 0],
   [22, 21, 34, 24, 36, 38, 39, 2],
   [39, 2, 37, 21, 36, 48, 45, 47],
   [38, 2, 37, 21, 36, 0, 35, 4],
   [32, 17, 41, 8, 42, 25, 43, 24],
   [32, 40, 17, 8, 42, 6, 44, 4],
   [32, 40, 17, 41, 8, 25, 43, 24, 33, 44, 4, 6],
   [25, 24, 40, 17, 42, 33, 44, 4],
   [33, 4, 43, 24, 42, 6, 41, 8],
   [9, 2, 46, 11, 47, 38, 48, 21],
   [9, 45, 2, 11, 47, 29, 49, 15],
   [9, 45, 2, 46, 11, 38, 48, 21, 19, 49, 15, 29],
   [38, 21, 45, 2, 47, 19, 49, 15],
   [19, 15, 48, 21, 47, 29, 46, 11]]

/-- The adjacency sets `graphSwapped` with the diagonal, packed: bit `50 * p + q` is
set when `p = q` or `p` and `q` are neighbours. -/
def adjDiagSwapped : Nat :=
  352338952084307576637000529086749725370471163876648825638011328228592593800229181093261957800031685194046239004851170833204574270099696941024130123822240967994670360472309748348840225543345713414113325980458982745761783627253868917871354754073795780365006604197792338522495629899364518785011437112178875480653279852817675688605250455938672426864831506514063981392017615547302498678440561679267259032455884116490330812757160974267306792921570710748843059216516170769983194702025216786555942700036881427323367505169611423864334257215596628651774381241979349392148531238420801736719824415604409712347374202182933929457869856215508141327852716511275488899153349036676287251642750020971165911228299288374291679969235882298728846018467093802842011429993709631

/-- The kept labels of case 65 under the labelling `edgemapSwapped`, as a bit mask. -/
def keptSwapped : Nat := 38212458255303

/-- The marks of case 65 after the numbering loop under the labelling
`edgemapSwapped`. -/
def marksSwapped : List Int :=
  [1, 1, 1, -1, -1, -1, 2, 2, 2, 1, -1, -1, 2, -1, -1, -1, -1, -1, -1, -1, -1, -1, -1, -1, -1,
   -1, -1, 2, -1, -1, -1, -1, 2, -1, -1, -1, -1, -1, 1, 1, -1, 2, -1, -1, -1, 1, -1, -1, -1, -1]

/-- The exchange of the field values 0 and 1 (the ids 1 and 2). -/
def swapIds (x : Nat) : Nat := if x = 0 then 1 else if x = 1 then 0 else x

/-! ## The adjacency sets, checked against the tetrahedra -/

/-- The labels of the list `l` as a bit mask. -/
def setBits (l : List Nat) : Nat := l.foldl (fun a v => a ||| 1 <<< v) 0

/-- The labels of the 6 vertex pairs of a tetrahedron, read from the map `em`. -/
def tetLabels (em : List (Nat × Nat)) (t : Tet) : List Nat :=
  (List.range 6).map fun k => edgeLabel em (tetEdge t k)

/-- The labels of the 6 vertex pairs of each of the 24 tetrahedra. -/
def tetLabelTable : List (List Nat) :=
  [[0, 1, 2, 3, 4, 5],
   [6, 7, 8, 1, 2, 5],
   [9, 10, 11, 7, 8, 5],
   [12, 3, 4, 10, 11, 5],
   [13, 14, 15, 16, 17, 18],
   [19, 20, 21, 14, 15, 18],
   [22, 23, 24, 20, 21, 18],
   [25, 16, 17, 23, 24, 18],
   [12, 26, 11, 27, 4, 28],
   [29, 30, 15, 26, 11, 28],
   [13, 31, 17, 30, 15, 28],
   [32, 27, 4, 31, 17, 28],
   [33, 34, 24, 35, 2, 36],
   [22, 37, 21, 34, 24, 36],
   [38, 39, 8, 37, 21, 36],
   [6, 35, 2, 39, 8, 36],
   [32, 40, 17, 41, 4, 42],
   [25, 43, 24, 40, 17, 42],
   [33, 44, 2, 43, 24, 42],
   [0, 41, 4, 44, 2, 42],
   [9, 45, 8, 46, 11, 47],
   [38, 48, 21, 45, 8, 47],
   [19, 49, 15, 48, 21, 47],
   [29, 46, 11, 49, 15, 47]]

/-- The labels that are in some row of `tab` together with the label `u`, as a bit
mask. -/
def sharedWith (tab : List (List Nat)) (u : Nat) : Nat :=
  tab.foldl (fun a ls => force (setBits ls) fun m => if m.testBit u then a ||| m else a) 0

/-- The check of the adjacency sets `g` against the rows `tab` of labels: no label
is in its own set, and the set of `u` with `u` itself added holds the labels that
share a row with `u`. -/
def graphRowsOk (g : List (List Nat)) (tab : List (List Nat)) : Bool :=
  (List.range 50).all fun u =>
    force (setBits (g.getD u [])) fun m =>
      !(m.testBit u) && Nat.beq (sharedWith tab u) (m ||| 1 <<< u)

/-- The check of a packed adjacency against the adjacency sets: row by row, and
the symmetry of the sets. -/
def adjRowsOk (g : List (List Nat)) (adj : Nat) : Bool :=
  (List.range 50).all fun p =>
    Nat.beq ((adj >>> (50 * p)) % 2 ^ 50) (setBits (g.getD p []) ||| 1 <<< p) &&
      (g.getD p []).all fun q => (setBits (g.getD q [])).testBit p

/-! # Theorems -/

/-! ## The fixed tables -/

set_option maxRecDepth 4000 in
theorem edgemap_eq : edgemap = edgemapTable := by decide!

set_option maxRecDepth 4000 in
theorem iedgemap_eq : iedgemap = edgemapTable.map Prod.fst := by decide!

set_option maxRecDepth 6000 in
theorem graph_eq : graph = graphTable := by
  rw [graph, edgemap_eq]
  decide!

theorem graph_length : graph.length = 50 := by
  rw [graph_eq]; decide

theorem cubeEdges_eq : cubeEdges =
    [(2, 0), (206, 6), (406, 9), (4, 12), (105, 13), (507, 19), (307, 22), (103, 25),
     (405, 29), (1, 32), (203, 33), (607, 38)] := by
  rw [cubeEdges, edgemap_eq]; decide

/-! ## C9: the edge set -/

/-- C9: the labelling loop over the 24 tetrahedra discovers exactly 50 distinct
edge ids, `iedgemap` lists them in discovery order, `edgemap` gives them the dense
labels 0..49 in that order, and the graph has 50 adjacency sets, so that
`assert(graph.size() == 50)` holds whatever the case is. -/
theorem edge_set_has_fifty_labels :
    tets.length = 24 ∧
    iedgemap = visitedEdges.eraseDups ∧
    iedgemap.length = 50 ∧ iedgemap.Nodup ∧
    edgemap = iedgemap.zip (List.range 50) ∧
    edgemap.length = 50 ∧
    graph.length = 50 := by
  refine ⟨by decide, ?_, ?_, ?_, ?_, ?_, graph_length⟩
  · rw [iedgemap_eq]; decide!
  · rw [iedgemap_eq]; decide
  · rw [iedgemap_eq]; decide!
  · rw [iedgemap_eq, edgemap_eq]; decide!
  · rw [edgemap_eq]; decide

/-! ## C8: the small edge index -/

/-- C8: every entry of `edgemap` with two corner endpoints joins corners that
differ in exactly one coordinate bit, `cubeedge` returns on it (no `assert`
fails) with `y + 2z`, `4 + x + 2z` or `8 + x + 2y` according to the bit that
differs, it returns the same index for both orders of the endpoints, there are
exactly 12 such entries and each index 0..11 is the image of exactly one. -/
theorem cubeedge_on_cube_edges :
    (∀ e ∈ edgemap, e.1 / 100 < 8 → e.1 % 100 < 8 →
      (cornerX (e.1 / 100) ≠ cornerX (e.1 % 100) ∧ cornerY (e.1 / 100) = cornerY (e.1 % 100) ∧
        cornerZ (e.1 / 100) = cornerZ (e.1 % 100) ∧
        cubeedge (e.1 / 100) (e.1 % 100)
          = some (cornerY (e.1 / 100) + 2 * cornerZ (e.1 / 100))) ∨
      (cornerY (e.1 / 100) ≠ cornerY (e.1 % 100) ∧ cornerX (e.1 / 100) = cornerX (e.1 % 100) ∧
        cornerZ (e.1 / 100) = cornerZ (e.1 % 100) ∧
        cubeedge (e.1 / 100) (e.1 % 100)
          = some (4 + cornerX (e.1 / 100) + 2 * cornerZ (e.1 / 100))) ∨
      (cornerZ (e.1 / 100) ≠ cornerZ (e.1 % 100) ∧ cornerX (e.1 / 100) = cornerX (e.1 % 100) ∧
        cornerY (e.1 / 100) = cornerY (e.1 % 100) ∧
        cubeedge (e.1 / 100) (e.1 % 100)
          = some (8 + cornerX (e.1 / 100) + 2 * cornerY (e.1 / 100)))) ∧
    (∀ e ∈ edgemap, e.1 / 100 < 8 → e.1 % 100 < 8 →
      cubeedge (e.1 % 100) (e.1 / 100) = cubeedge (e.1 / 100) (e.1 % 100)) ∧
    cubeEdges.length = 12 ∧
    (∀ i < 12, (cubeEdges.filter fun e =>
      decide (cubeedge (e.1 / 100) (e.1 % 100) = some i)).length = 1) := by
  refine ⟨?_, ?_, ?_, ?_⟩
  · rw [edgemap_eq]; decide!
  · rw [edgemap_eq]; decide!
  · rw [cubeEdges_eq]; decide
  · rw [cubeEdges_eq]; decide!

theorem cubeedge_on_cube_edges_witness :
    ((cornerX (2 / 100) ≠ cornerX (2 % 100) ∧ cornerY (2 / 100) = cornerY (2 % 100) ∧
        cornerZ (2 / 100) = cornerZ (2 % 100) ∧
        cubeedge (2 / 100) (2 % 100) = some (cornerY (2 / 100) + 2 * cornerZ (2 / 100))) ∨
      (cornerY (2 / 100) ≠ cornerY (2 % 100) ∧ cornerX (2 / 100) = cornerX (2 % 100) ∧
        cornerZ (2 / 100) = cornerZ (2 % 100) ∧
        cubeedge (2 / 100) (2 % 100) = some (4 + cornerX (2 / 100) + 2 * cornerZ (2 / 100))) ∨
      (cornerZ (2 / 100) ≠ cornerZ (2 % 100) ∧ cornerX (2 / 100) = cornerX (2 % 100) ∧
        cornerY (2 / 100) = cornerY (2 % 100) ∧
        cubeedge (2 / 100) (2 % 100) = some (8 + cornerX (2 / 100) + 2 * cornerY (2 / 100)))) ∧
    cubeedge 0 2 = some 4 :=
  ⟨cubeedge_on_cube_edges.1 (2, 0) (by rw [edgemap_eq]; decide) (by decide) (by decide),
   by decide⟩

/-! ## Dense matrices: entries and shape -/

theorem getD_map_range {α : Type} (f : Nat → α) (d : α) {n i : Nat} (hi : i < n) :
    ((List.range n).map f).getD i d = f i := by
  simp [List.getD_eq_getElem?_getD, List.getElem?_map, List.getElem?_range hi]

theorem Mat.entry_tab (f : Nat → Nat → Int) {i j : Nat} (hi : i < 50) (hj : j < 50) :
    (Mat.tab f).entry i j = f i j := by
  unfold Mat.entry Mat.tab
  rw [getD_map_range _ _ hi, getD_map_range _ _ hj]

theorem Mat.square_tab (f : Nat → Nat → Int) : (Mat.tab f).Square := by
  constructor
  · simp [Mat.tab]
  · intro r hr
    simp only [Mat.tab, List.mem_map] at hr
    obtain ⟨i, _, rfl⟩ := hr
    simp

theorem Mat.square_zero : Mat.zero.Square := Mat.square_tab _

theorem Mat.getD_length {A : Mat} (hA : A.Square) {i : Nat} (hi : i < 50) :
    (A.getD i []).length = 50 := by
  have hlen : i < A.length := by rw [hA.1]; exact hi
  rw [List.getD_eq_getElem _ _ hlen]
  exact hA.2 _ (List.getElem_mem _)

theorem Mat.ext {A B : Mat} (hA : A.Square) (hB : B.Square)
    (h : ∀ i < 50, ∀ j < 50, A.entry i j = B.entry i j) : A = B := by
  apply List.ext_getElem (by rw [hA.1, hB.1])
  intro i h1 h2
  have hi : i < 50 := by rw [hA.1] at h1; exact h1
  have ha : (A[i]).length = 50 := hA.2 _ (List.getElem_mem _)
  have hb : (B[i]).length = 50 := hB.2 _ (List.getElem_mem _)
  apply List.ext_getElem (by rw [ha, hb])
  intro j h3 h4
  have hj : j < 50 := by rw [ha] at h3; exact h3
  have := h i hi j hj
  simpa [Mat.entry, List.getD_eq_getElem?_getD, List.getElem?_eq_getElem, h1, h2, h3, h4]
    using this

theorem Mat.square_set {A : Mat} (hA : A.Square) (i j : Nat) (x : Int) :
    (A.set i j x).Square := by
  constructor
  · simp [Mat.set, hA.1]
  · intro r hr
    simp only [Mat.set] at hr
    rcases List.mem_or_eq_of_mem_set hr with h | h
    · exact hA.2 r h
    · subst h
      rw [List.length_set]
      by_cases hi : i < A.length
      · rw [List.getD_eq_getElem _ _ hi]
        exact hA.2 _ (List.getElem_mem _)
      · rw [List.set_eq_of_length_le (by omega)] at hr
        rw [List.getD_eq_default _ _ (by omega)] at hr
        exact absurd (hA.2 _ hr) (by simp)

theorem getD_set {α : Type} (l : List α) {i : Nat} (hi : i < l.length) (j : Nat) (x d : α) :
    (l.set i x).getD j d = if j = i then x else l.getD j d := by
  simp only [List.getD_eq_getElem?_getD, List.getElem?_set]
  by_cases h : j = i
  · subst h; simp [hi]
  · simp [h, Ne.symm h]

theorem Mat.entry_set {A : Mat} (hA : A.Square) {i j : Nat} (hi : i < 50) (hj : j < 50)
    (x : Int) (p q : Nat) :
    (A.set i j x).entry p q = if p = i ∧ q = j then x else A.entry p q := by
  have hlen : i < A.length := by rw [hA.1]; exact hi
  have hrow : j < (A.getD i []).length := by rw [Mat.getD_length hA hi]; exact hj
  unfold Mat.entry Mat.set
  rw [getD_set A hlen]
  by_cases hp : p = i
  · subst hp
    rw [if_pos rfl, getD_set _ hrow]
    by_cases hq : q = j <;> simp [hq]
  · simp [hp]

theorem Mat.entry_positive (A : Mat) (i j : Nat) :
    A.positive.entry i j = if A.entry i j > 0 then 1 else 0 := by
  have key : ∀ o : Option Int,
      (o.map fun v => if v > 0 then (1 : Int) else 0).getD 0 = if o.getD 0 > 0 then 1 else 0 := by
    intro o; cases o <;> simp
  unfold Mat.entry Mat.positive
  simp only [List.getD_eq_getElem?_getD, List.getElem?_map]
  cases h1 : A[i]? with
  | none => simp
  | some r =>
    simp only [Option.map_some', Option.getD_some, List.getElem?_map]
    exact key _

theorem Mat.square_positive {A : Mat} (hA : A.Square) : A.positive.Square := by
  constructor
  · simp [Mat.positive, hA.1]
  · intro r hr
    simp only [Mat.positive, List.mem_map] at hr
    obtain ⟨r', hr', rfl⟩ := hr
    simp [hA.2 r' hr']

theorem square_squareStep (A : Mat) : (squareStep A).Square :=
  Mat.square_positive (Mat.square_tab _)

theorem squareStep_entry (A : Mat) {i j : Nat} (hi : i < 50) (hj : j < 50) :
    (squareStep A).entry i j
      = if ((List.range 50).map fun k => A.entry i k * A.entry k j).sum > 0 then 1 else 0 := by
  unfold squareStep
  rw [Mat.entry_positive, Mat.mul, Mat.entry_tab _ hi hj]

/-! ## The masked adjacency matrix -/

theorem initMatrix_eq (g : List (List Nat)) (marks : List Int) :
    initMatrix g marks = (List.range g.length).foldl (initStep g marks) Mat.zero := rfl

theorem Mat.entry_zero {p q : Nat} (hp : p < 50) (hq : q < 50) : Mat.zero.entry p q = 0 := by
  rw [Mat.zero, Mat.entry_tab _ hp hq]

theorem initRow_spec (marks : List Int) {u : Nat} (hu : u < 50) :
    ∀ (l : List Nat) (A : Mat), A.Square → (∀ v ∈ l, v < 50) →
      (initRow marks u l A).Square ∧
      ∀ p q, ((∃ v ∈ l, keptIn marks v ∧ ((p = u ∧ q = v) ∨ (p = v ∧ q = u))) →
          (initRow marks u l A).entry p q = 1) ∧
        ((¬ ∃ v ∈ l, keptIn marks v ∧ ((p = u ∧ q = v) ∨ (p = v ∧ q = u))) →
          (initRow marks u l A).entry p q = A.entry p q) := by
  intro l
  induction l with
  | nil =>
    intro A hA _
    refine ⟨hA, fun p q => ⟨?_, fun _ => rfl⟩⟩
    rintro ⟨v, hv, _⟩
    exact absurd hv (List.not_mem_nil v)
  | cons w l ih =>
    intro A hA hl
    have hw : w < 50 := hl w (List.mem_cons_self _ _)
    have hl' : ∀ v ∈ l, v < 50 := fun v hv => hl v (List.mem_cons_of_mem _ hv)
    unfold initRow
    rw [List.foldl_cons]
    by_cases hk : marks.getD w 0 = -1
    · rw [if_pos hk]
      obtain ⟨hs, he⟩ := ih A hA hl'
      refine ⟨hs, fun p q => ⟨?_, ?_⟩⟩
      · rintro ⟨v, hv, hkv, hpq⟩
        rcases List.mem_cons.1 hv with rfl | hv'
        · exact absurd hk hkv
        · exact (he p q).1 ⟨v, hv', hkv, hpq⟩
      · intro hn
        apply (he p q).2
        rintro ⟨v, hv, hkv, hpq⟩
        exact hn ⟨v, List.mem_cons_of_mem _ hv, hkv, hpq⟩
    · rw [if_neg hk]
      have hA1 : (A.set u w 1).Square := Mat.square_set hA _ _ _
      have hA2 : ((A.set u w 1).set w u 1).Square := Mat.square_set hA1 _ _ _
      obtain ⟨hs, he⟩ := ih _ hA2 hl'
      refine ⟨hs, fun p q => ⟨?_, ?_⟩⟩
      · rintro ⟨v, hv, hkv, hpq⟩
        by_cases hex : ∃ v ∈ l, keptIn marks v ∧ ((p = u ∧ q = v) ∨ (p = v ∧ q = u))
        · exact (he p q).1 hex
        · have := (he p q).2 hex
          unfold initRow at this
          rw [this]
          rcases List.mem_cons.1 hv with rfl | hv'
          · rw [Mat.entry_set hA1 hw hu, Mat.entry_set hA hu hw]
            rcases hpq with ⟨h1, h2⟩ | ⟨h1, h2⟩
            · subst h1; subst h2
              by_cases h : p = q ∧ q = p
              · rw [if_pos h]
              · rw [if_neg h, if_pos ⟨rfl, rfl⟩]
            · subst h1; subst h2; simp
          · exact absurd ⟨v, hv', hkv, hpq⟩ hex
      · intro hn
        have hex : ¬ ∃ v ∈ l, keptIn marks v ∧ ((p = u ∧ q = v) ∨ (p = v ∧ q = u)) := by
          rintro ⟨v, hv, hkv, hpq⟩
          exact hn ⟨v, List.mem_cons_of_mem _ hv, hkv, hpq⟩
        have := (he p q).2 hex
        unfold initRow at this
        rw [this, Mat.entry_set hA1 hw hu, Mat.entry_set hA hu hw]
        have h1 : ¬ (p = w ∧ q = u) := fun h =>
          hn ⟨w, List.mem_cons_self _ _, hk, Or.inr h⟩
        have h2 : ¬ (p = u ∧ q = w) := fun h =>
          hn ⟨w, List.mem_cons_self _ _, hk, Or.inl h⟩
        rw [if_neg h1, if_neg h2]

/-- The relation "the construction sets entry `(p, q)` while it processes `u`". -/
theorem initStep_spec (g : List (List Nat)) (marks : List Int) {u : Nat} (hu : u < 50)
    (hg : ∀ v ∈ g.getD u [], v < 50) (A : Mat) (hA : A.Square) :
    (initStep g marks A u).Square ∧
    ∀ p q,
      ((keptIn marks u ∧ ((p = u ∧ q = u) ∨
          ∃ v ∈ g.getD u [], keptIn marks v ∧ ((p = u ∧ q = v) ∨ (p = v ∧ q = u)))) →
        (initStep g marks A u).entry p q = 1) ∧
      ((¬ (keptIn marks u ∧ ((p = u ∧ q = u) ∨
          ∃ v ∈ g.getD u [], keptIn marks v ∧ ((p = u ∧ q = v) ∨ (p = v ∧ q = u))))) →
        (initStep g marks A u).entry p q = A.entry p q) := by
  unfold initStep
  by_cases hk : marks.getD u 0 = -1
  · rw [if_pos hk]
    refine ⟨hA, fun p q => ⟨?_, fun _ => rfl⟩⟩
    rintro ⟨h, _⟩
    exact absurd hk h
  · rw [if_neg hk]
    have hA1 : (A.set u u 1).Square := Mat.square_set hA _ _ _
    obtain ⟨hs, he⟩ := initRow_spec marks hu (g.getD u []) _ hA1 hg
    refine ⟨hs, fun p q => ⟨?_, ?_⟩⟩
    · rintro ⟨_, h⟩
      by_cases hex : ∃ v ∈ g.getD u [], keptIn marks v ∧ ((p = u ∧ q = v) ∨ (p = v ∧ q = u))
      · exact (he p q).1 hex
      · rw [(he p q).2 hex, Mat.entry_set hA hu hu]
        rcases h with h | h
        · rw [if_pos h]
        · exact absurd h hex
    · intro hn
      have hex : ¬ ∃ v ∈ g.getD u [], keptIn marks v ∧ ((p = u ∧ q = v) ∨ (p = v ∧ q = u)) :=
        fun h => hn ⟨hk, Or.inr h⟩
      rw [(he p q).2 hex, Mat.entry_set hA hu hu]
      have : ¬ (p = u ∧ q = u) := fun h => hn ⟨hk, Or.inl h⟩
      rw [if_neg this]

theorem initMatrix_prefix (g : List (List Nat)) (marks : List Int)
    (hg : ∀ u < 50, ∀ v ∈ g.getD u [], v < 50) :
    ∀ t ≤ 50, ((List.range t).foldl (initStep g marks) Mat.zero).Square ∧
      ∀ p < 50, ∀ q < 50,
        (setBefore g marks t p q →
          ((List.range t).foldl (initStep g marks) Mat.zero).entry p q = 1) ∧
        (¬ setBefore g marks t p q →
          ((List.range t).foldl (initStep g marks) Mat.zero).entry p q = 0) := by
  intro t
  induction t with
  | zero =>
    intro _
    refine ⟨Mat.square_zero, fun p hp q hq => ⟨?_, fun _ => Mat.entry_zero hp hq⟩⟩
    rintro ⟨u, hu, _⟩
    exact absurd hu (Nat.not_lt_zero u)
  | succ t ih =>
    intro ht
    have htl : t < 50 := ht
    obtain ⟨hs, he⟩ := ih (Nat.le_of_lt htl)
    rw [List.range_succ, List.foldl_append, List.foldl_cons, List.foldl_nil]
    obtain ⟨hs', he'⟩ := initStep_spec g marks htl (hg t htl) _ hs
    refine ⟨hs', fun p hp q hq => ⟨?_, ?_⟩⟩
    · rintro ⟨u, hu, hk, h⟩
      by_cases hnow : keptIn marks t ∧ ((p = t ∧ q = t) ∨
          ∃ v ∈ g.getD t [], keptIn marks v ∧ ((p = t ∧ q = v) ∨ (p = v ∧ q = t)))
      · exact (he' p q).1 hnow
      · rw [(he' p q).2 hnow]
        apply (he p hp q hq).1
        rcases Nat.lt_succ_iff_lt_or_eq.1 hu with hlt | heq
        · exact ⟨u, hlt, hk, h⟩
        · subst heq
          exact absurd ⟨hk, h⟩ hnow
    · intro hn
      have hnow : ¬ (keptIn marks t ∧ ((p = t ∧ q = t) ∨
          ∃ v ∈ g.getD t [], keptIn marks v ∧ ((p = t ∧ q = v) ∨ (p = v ∧ q = t)))) :=
        fun h => hn ⟨t, Nat.lt_succ_self t, h.1, h.2⟩
      rw [(he' p q).2 hnow]
      apply (he p hp q hq).2
      rintro ⟨u, hu, hk, h⟩
      exact hn ⟨u, Nat.lt_succ_of_lt hu, hk, h⟩

theorem setBefore_iff (g : List (List Nat)) (marks : List Int) {p q : Nat}
    (hp : p < 50) (hq : q < 50) :
    setBefore g marks 50 p q ↔ keptIn marks p ∧ keptIn marks q ∧ (p = q ∨ adjIn g p q) := by
  constructor
  · rintro ⟨u, _, hk, h⟩
    rcases h with ⟨rfl, rfl⟩ | ⟨v, hv, hkv, h⟩
    · exact ⟨hk, hk, Or.inl rfl⟩
    · rcases h with ⟨rfl, rfl⟩ | ⟨rfl, rfl⟩
      · exact ⟨hk, hkv, Or.inr (Or.inl hv)⟩
      · exact ⟨hkv, hk, Or.inr (Or.inr hv)⟩
  · rintro ⟨hkp, hkq, h⟩
    rcases h with rfl | h | h
    · exact ⟨p, hp, hkp, Or.inl ⟨rfl, rfl⟩⟩
    · exact ⟨p, hp, hkp, Or.inr ⟨q, h, hkq, Or.inl ⟨rfl, rfl⟩⟩⟩
    · exact ⟨q, hq, hkq, Or.inr ⟨p, h, hkp, Or.inr ⟨rfl, rfl⟩⟩⟩

/-- What the matrix construction leaves: a stored 50 x 50 matrix of zeros and ones
whose entry `(p, q)` is 1 exactly when `p` and `q` are kept and equal or
neighbours. -/
theorem initMatrix_spec (g : List (List Nat)) (marks : List Int) (hlen : g.length = 50)
    (hg : ∀ u < 50, ∀ v ∈ g.getD u [], v < 50) :
    (initMatrix g marks).Square ∧ (initMatrix g marks).Bin ∧
    ∀ p < 50, ∀ q < 50, ((initMatrix g marks).entry p q = 1 ↔
      keptIn marks p ∧ keptIn marks q ∧ (p = q ∨ adjIn g p q)) := by
  rw [initMatrix_eq, hlen]
  obtain ⟨hs, he⟩ := initMatrix_prefix g marks hg 50 (Nat.le_refl _)
  refine ⟨hs, ?_, ?_⟩
  · intro p hp q hq
    by_cases h : setBefore g marks 50 p q
    · exact Or.inr ((he p hp q hq).1 h)
    · exact Or.inl ((he p hp q hq).2 h)
  · intro p hp q hq
    rw [← setBefore_iff g marks hp hq]
    constructor
    · intro h1
      by_contra h
      rw [(he p hp q hq).2 h] at h1
      exact absurd h1 (by decide)
    · exact (he p hp q hq).1

theorem graph_entries_lt : ∀ u < 50, ∀ v ∈ graph.getD u [], v < 50 := by
  rw [graph_eq]; decide!

/-! ## Boolean squaring -/

theorem sum_pos_iff (f g : Nat → Int) (n : Nat)
    (hf : ∀ k < n, f k = 0 ∨ f k = 1) (hg : ∀ k < n, g k = 0 ∨ g k = 1) :
    0 ≤ ((List.range n).map fun k => f k * g k).sum ∧
    (((List.range n).map fun k => f k * g k).sum > 0 ↔ ∃ k < n, f k = 1 ∧ g k = 1) := by
  induction n with
  | zero => simp
  | succ n ih =>
    obtain ⟨h0, h1⟩ := ih (fun k hk => hf k (Nat.lt_succ_of_lt hk))
      (fun k hk => hg k (Nat.lt_succ_of_lt hk))
    rw [List.range_succ, List.map_append, List.sum_append]
    simp only [List.map_cons, List.map_nil, List.sum_cons, List.sum_nil, add_zero]
    have hfn := hf n (Nat.lt_succ_self n)
    have hgn := hg n (Nat.lt_succ_self n)
    have hprod : (f n * g n = 0 ∧ ¬ (f n = 1 ∧ g n = 1)) ∨ (f n * g n = 1 ∧ f n = 1 ∧ g n = 1) := by
      rcases hfn with h | h <;> rcases hgn with h' | h' <;> simp [h, h']
    constructor
    · rcases hprod with ⟨h, _⟩ | ⟨h, _⟩ <;> omega
    · constructor
      · intro hpos
        rcases hprod with ⟨h, _⟩ | ⟨_, h⟩
        · obtain ⟨k, hk, hk'⟩ := h1.1 (by omega)
          exact ⟨k, Nat.lt_succ_of_lt hk, hk'⟩
        · exact ⟨n, Nat.lt_succ_self n, h⟩
      · rintro ⟨k, hk, hk'⟩
        rcases Nat.lt_succ_iff_lt_or_eq.1 hk with hlt | heq
        · have := h1.2 ⟨k, hlt, hk'⟩
          rcases hprod with ⟨h, _⟩ | ⟨h, _⟩ <;> omega
        · subst heq
          rcases hprod with ⟨_, h⟩ | ⟨h, _⟩
          · exact absurd hk' h
          · omega

theorem bin_squareStep (A : Mat) : (squareStep A).Bin := by
  intro p hp q hq
  rw [squareStep_entry A hp hq]
  split
  · exact Or.inr rfl
  · exact Or.inl rfl

theorem oneAt_squareStep {A : Mat} (hA : A.Bin) (p q : Nat) :
    oneAt (squareStep A) p q ↔ ∃ k, oneAt A p k ∧ oneAt A k q := by
  unfold oneAt
  constructor
  · rintro ⟨hp, hq, h⟩
    rw [squareStep_entry A hp hq] at h
    have hpos : ((List.range 50).map fun k => A.entry p k * A.entry k q).sum > 0 := by
      by_contra hn
      rw [if_neg hn] at h
      exact absurd h (by decide)
    obtain ⟨k, hk, h1, h2⟩ :=
      (sum_pos_iff (fun k => A.entry p k) (fun k => A.entry k q) 50
        (fun k hk => hA p hp k hk) (fun k hk => hA k hk q hq)).2.1 hpos
    exact ⟨k, ⟨hp, hk, h1⟩, ⟨hk, hq, h2⟩⟩
  · rintro ⟨k, ⟨hp, hk, h1⟩, ⟨_, hq, h2⟩⟩
    refine ⟨hp, hq, ?_⟩
    rw [squareStep_entry A hp hq]
    have hpos := (sum_pos_iff (fun k => A.entry p k) (fun k => A.entry k q) 50
        (fun k hk => hA p hp k hk) (fun k hk => hA k hk q hq)).2.2 ⟨k, hk, h1, h2⟩
    rw [if_pos hpos]

theorem bin_iterate {A : Mat} (hA : A.Bin) (t : Nat) : (squareStep^[t] A).Bin := by
  cases t with
  | zero => exact hA
  | succ t =>
    rw [Function.iterate_succ_apply']
    exact bin_squareStep _

theorem square_iterate {A : Mat} (hA : A.Square) (t : Nat) : (squareStep^[t] A).Square := by
  cases t with
  | zero => exact hA
  | succ t =>
    rw [Function.iterate_succ_apply']
    exact square_squareStep _

theorem oneAt_iterate {A : Mat} (hA : A.Bin) (t : Nat) (p q : Nat) :
    oneAt (squareStep^[t] A) p q ↔ relPow (oneAt A) t p q := by
  induction t generalizing p q with
  | zero => rfl
  | succ t ih =>
    rw [Function.iterate_succ_apply', oneAt_squareStep (bin_iterate hA t)]
    simp only [relPow, ih]

/-! ## Chains -/

theorem chainLen_prepend {R : Nat → Nat → Prop} {p k : Nat} (h : R p k) :
    ∀ (m : Nat) (q : Nat), chainLen R m k q → chainLen R (m + 1) p q := by
  intro m
  induction m with
  | zero => intro q hq; exact ⟨k, h, hq⟩
  | succ m ih =>
    rintro q ⟨j, hj, hjq⟩
    exact ⟨j, ih j hj, hjq⟩

theorem chainLen_last {R : Nat → Nat → Prop} (hrefl : ∀ p q, R p q → R p p ∧ R q q) :
    ∀ (m : Nat) (p q : Nat), chainLen R m p q → R q q := by
  intro m p q h
  cases m with
  | zero => exact (hrefl p q h).2
  | succ m =>
    obtain ⟨k, _, hk⟩ := h
    exact (hrefl k q hk).2

theorem chainLen_mono {R : Nat → Nat → Prop} (hrefl : ∀ p q, R p q → R p p ∧ R q q)
    {m n : Nat} (hmn : m ≤ n) {p q : Nat} (h : chainLen R m p q) : chainLen R n p q := by
  induction n with
  | zero =>
    have : m = 0 := Nat.le_zero.1 hmn
    subst this; exact h
  | succ n ih =>
    rcases Nat.lt_succ_iff_lt_or_eq.1 (Nat.lt_succ_of_le hmn) with hlt | heq
    · have hn := ih (Nat.lt_succ_iff.1 hlt)
      exact ⟨q, hn, chainLen_last hrefl n p q hn⟩
    · subst heq; exact h

theorem chainLen_split {R : Nat → Nat → Prop} (a : Nat) :
    ∀ (b : Nat) (p q : Nat), chainLen R (a + b + 1) p q →
      ∃ k, chainLen R a p k ∧ chainLen R b k q := by
  intro b
  induction b with
  | zero =>
    rintro p q ⟨k, hk, hkq⟩
    exact ⟨k, hk, hkq⟩
  | succ b ih =>
    rintro p q ⟨j, hj, hjq⟩
    obtain ⟨k, hk, hkj⟩ := ih p j hj
    exact ⟨k, hk, ⟨j, hkj, hjq⟩⟩

theorem relPow_of_chainLen {R : Nat → Nat → Prop} :
    ∀ (t : Nat) (p q : Nat), chainLen R (2 ^ t - 1) p q → relPow R t p q := by
  intro t
  induction t with
  | zero => intro p q h; exact h
  | succ t ih =>
    intro p q h
    have hpos : 0 < 2 ^ t := Nat.two_pow_pos t
    have he : 2 ^ (t + 1) - 1 = (2 ^ t - 1) + (2 ^ t - 1) + 1 := by
      rw [Nat.pow_succ]; omega
    rw [he] at h
    obtain ⟨k, h1, h2⟩ := chainLen_split _ _ p q h
    exact ⟨k, ih p k h1, ih k q h2⟩

theorem transGen_of_relPow {R : Nat → Nat → Prop} :
    ∀ (t : Nat) (p q : Nat), relPow R t p q → Relation.TransGen R p q := by
  intro t
  induction t with
  | zero => intro p q h; exact Relation.TransGen.single h
  | succ t ih =>
    rintro p q ⟨k, h1, h2⟩
    exact Relation.TransGen.trans (ih p k h1) (ih k q h2)

/-! ## Short chains: a reachable label is reachable in fewer than 50 steps -/

theorem chainLen_of_walk {R : Nat → Nat → Prop} (hsymm : ∀ p q, R p q → R q p)
    (hrefl : ∀ p q, R p q → R p p ∧ R q q) {a b : Fin 50}
    (w : (graphOf R hsymm).Walk a b) (ha : R a.val a.val) :
    chainLen R w.length a.val b.val := by
  induction w with
  | nil => exact ha
  | cons h w ih =>
    rw [SimpleGraph.Walk.length_cons]
    exact chainLen_prepend h.2 _ _ (ih (hrefl _ _ h.2).2)

theorem reachable_of_transGen {R : Nat → Nat → Prop} (hsymm : ∀ p q, R p q → R q p)
    (hlt : ∀ p q, R p q → p < 50 ∧ q < 50) {p q : Nat} (h : Relation.TransGen R p q) :
    ∃ (hp : p < 50) (hq : q < 50), (graphOf R hsymm).Reachable ⟨p, hp⟩ ⟨q, hq⟩ := by
  have step : ∀ (b c : Nat) (hb : b < 50) (hc : c < 50), R b c →
      (graphOf R hsymm).Reachable ⟨b, hb⟩ ⟨c, hc⟩ := by
    intro b c hb hc hbc
    by_cases he : b = c
    · subst he; exact SimpleGraph.Reachable.refl _
    · apply SimpleGraph.Adj.reachable
      exact ⟨fun h => he (congrArg Fin.val h), hbc⟩
  induction h with
  | @single b h => exact ⟨(hlt _ _ h).1, (hlt _ _ h).2, step _ _ _ _ h⟩
  | @tail b c _ hbc ih =>
    obtain ⟨hp, hb, hr⟩ := ih
    exact ⟨hp, (hlt _ _ hbc).2, hr.trans (step _ _ _ _ hbc)⟩

theorem transGen_head {R : Nat → Nat → Prop} {p q : Nat} (h : Relation.TransGen R p q) :
    ∃ k, R p k := by
  induction h with
  | single h => exact ⟨_, h⟩
  | tail _ _ ih => exact ih

theorem chainLen_of_transGen {R : Nat → Nat → Prop} (hsymm : ∀ p q, R p q → R q p)
    (hrefl : ∀ p q, R p q → R p p ∧ R q q) (hlt : ∀ p q, R p q → p < 50 ∧ q < 50)
    {p q : Nat} (h : Relation.TransGen R p q) : chainLen R 49 p q := by
  obtain ⟨hp, hq, hr⟩ := reachable_of_transGen hsymm hlt h
  obtain ⟨k, hk⟩ := transGen_head h
  obtain ⟨w⟩ := hr
  have hpath := (w.toPath).property
  have hlen : (w.toPath).1.length < 50 := by
    have := SimpleGraph.Walk.IsPath.length_lt hpath
    simpa using this
  exact chainLen_mono hrefl (Nat.le_of_lt_succ hlen)
    (chainLen_of_walk hsymm hrefl (w.toPath).1 (hrefl p k hk).1)

/-- From the sixth squaring on, the ones of the matrix are the transitive closure
of the ones of the initial matrix. -/
theorem oneAt_iterate_closure {A : Mat} (hA : A.Bin)
    (hsymm : ∀ p q, oneAt A p q → oneAt A q p)
    (hrefl : ∀ p q, oneAt A p q → oneAt A p p ∧ oneAt A q q)
    {t : Nat} (ht : 6 ≤ t) (p q : Nat) :
    oneAt (squareStep^[t] A) p q ↔ Relation.TransGen (oneAt A) p q := by
  rw [oneAt_iterate hA]
  constructor
  · exact transGen_of_relPow t p q
  · intro h
    apply relPow_of_chainLen
    have hlt : ∀ p q, oneAt A p q → p < 50 ∧ q < 50 := fun p q h => ⟨h.1, h.2.1⟩
    have h49 := chainLen_of_transGen hsymm hrefl hlt h
    refine chainLen_mono hrefl ?_ h49
    have : 2 ^ 6 ≤ 2 ^ t := Nat.pow_le_pow_right (by decide) ht
    omega

theorem entry_eq_of_oneAt_iff {A B : Mat} (hA : A.Bin) (hB : B.Bin)
    (h : ∀ p q, oneAt A p q ↔ oneAt B p q) :
    ∀ p < 50, ∀ q < 50, A.entry p q = B.entry p q := by
  intro p hp q hq
  have := h p q
  unfold oneAt at this
  rcases hA p hp q hq with ha | ha <;> rcases hB p hp q hq with hb | hb
  · rw [ha, hb]
  · exact absurd (this.2 ⟨hp, hq, hb⟩).2.2 (by rw [ha]; decide)
  · exact absurd (this.1 ⟨hp, hq, ha⟩).2.2 (by rw [hb]; decide)
  · rw [ha, hb]

theorem iterate_stable {A : Mat} (hA : A.Bin) (hS : A.Square)
    (hsymm : ∀ p q, oneAt A p q → oneAt A q p)
    (hrefl : ∀ p q, oneAt A p q → oneAt A p p ∧ oneAt A q q) :
    squareStep^[6 + 1] A = squareStep^[6] A := by
  apply Mat.ext (square_iterate hS _) (square_iterate hS _)
  apply entry_eq_of_oneAt_iff (bin_iterate hA _) (bin_iterate hA _)
  intro p q
  rw [oneAt_iterate_closure hA hsymm hrefl (by decide), oneAt_iterate_closure hA hsymm hrefl
    (Nat.le_refl 6)]

/-! ## The loop -/

theorem iterate_fixed {B : Mat} (h : squareStep B = B) (t : Nat) : squareStep^[t] B = B := by
  induction t with
  | zero => rfl
  | succ t ih => rw [Function.iterate_succ_apply', ih, h]

theorem closureLoop_of_fixed :
    ∀ (T fuel : Nat) (B : Mat), T < fuel → squareStep^[T + 1] B = squareStep^[T] B →
      ∃ t ≤ T, closureLoop fuel B = some (squareStep^[t] B) ∧
        squareStep^[t] B = squareStep^[T] B := by
  intro T
  induction T with
  | zero =>
    intro fuel B hf h
    obtain ⟨f, rfl⟩ : ∃ f, fuel = f + 1 := ⟨fuel - 1, by omega⟩
    refine ⟨0, Nat.le_refl 0, ?_, rfl⟩
    have h' : squareStep B = B := h
    simp only [closureLoop, Function.iterate_zero, id_eq]
    rw [if_neg (by simpa using h')]
  | succ T ih =>
    intro fuel B hf h
    obtain ⟨f, rfl⟩ : ∃ f, fuel = f + 1 := ⟨fuel - 1, by omega⟩
    by_cases hfix : squareStep B = B
    · refine ⟨0, Nat.zero_le _, ?_, ?_⟩
      · simp only [closureLoop, Function.iterate_zero, id_eq]
        rw [if_neg (by simpa using hfix)]
      · exact (iterate_fixed hfix _).symm
    · have h' : squareStep^[T + 1] (squareStep B) = squareStep^[T] (squareStep B) := by
        rw [← Function.iterate_succ_apply, ← Function.iterate_succ_apply]; exact h
      obtain ⟨t, ht, h1, h2⟩ := ih f (squareStep B) (by omega) h'
      refine ⟨t + 1, by omega, ?_, ?_⟩
      · simp only [closureLoop]
        rw [if_pos hfix, h1, Function.iterate_succ_apply]
      · rw [Function.iterate_succ_apply, h2, Function.iterate_succ_apply]

/-- The squaring loop returns: with 7 or more rounds of fuel it stops on the
matrix whose ones are the transitive closure of the ones of the matrix it was
started with, for every symmetric matrix of zeros and ones whose ones carry a one
on the diagonal at both ends. -/
theorem closureLoop_spec {A : Mat} (hA : A.Bin) (hS : A.Square)
    (hsymm : ∀ p q, oneAt A p q → oneAt A q p)
    (hrefl : ∀ p q, oneAt A p q → oneAt A p p ∧ oneAt A q q)
    {fuel : Nat} (hf : 7 ≤ fuel) :
    ∃ C, closureLoop fuel A = some C ∧ C.Square ∧ C.Bin ∧ squareStep C = C ∧
      ∀ p q, oneAt C p q ↔ Relation.TransGen (oneAt A) p q := by
  obtain ⟨t, _, h1, h2⟩ := closureLoop_of_fixed 6 fuel A (by omega)
    (iterate_stable hA hS hsymm hrefl)
  refine ⟨_, h1, square_iterate hS _, bin_iterate hA _, ?_, ?_⟩
  · have hst := iterate_stable hA hS hsymm hrefl
    rw [Function.iterate_succ_apply'] at hst
    rw [h2]; exact hst
  · intro p q
    rw [h2]
    exact oneAt_iterate_closure hA hsymm hrefl (Nat.le_refl 6) p q

/-! ## Lists of 50 entries -/

theorem list_ext_getD {l₁ l₂ : List Int} (h1 : l₁.length = 50) (h2 : l₂.length = 50)
    (h : ∀ v < 50, l₁.getD v 0 = l₂.getD v 0) : l₁ = l₂ := by
  apply List.ext_getElem (by rw [h1, h2])
  intro i hi1 hi2
  have := h i (by rw [h1] at hi1; exact hi1)
  rwa [List.getD_eq_getElem _ _ hi1, List.getD_eq_getElem _ _ hi2] at this

theorem mod_two_pow_eq_zero_iff (x r : Nat) :
    x % 2 ^ r = 0 ↔ ∀ w < r, x.testBit w = false := by
  constructor
  · intro h w hw
    have := Nat.testBit_mod_two_pow x r w
    rw [h, Nat.zero_testBit] at this
    simpa [hw] using this.symm
  · intro h
    apply Nat.eq_of_testBit_eq
    intro i
    rw [Nat.testBit_mod_two_pow, Nat.zero_testBit]
    by_cases hi : i < r
    · simp [h i hi]
    · simp [hi]

/-! ## The inner loop of the numbering -/

theorem labelRow_prefix (C : Mat) (u : Nat) (color : Int) (marks : List Int)
    (hlen : marks.length = 50)
    (hzero : ∀ v < 50, C.entry u v = 1 → marks.getD v 0 = 0) :
    ∀ s ≤ 50, ∃ m, (List.range s).foldl (fun s v =>
        match s with
        | none => none
        | some marks =>
          if C.entry u v = 1 then
            if marks.getD v 0 = 0 then some (marks.set v color) else none
          else some marks) (some marks) = some m ∧ m.length = 50 ∧
      ∀ v < 50, m.getD v 0 = if v < s ∧ C.entry u v = 1 then color else marks.getD v 0 := by
  intro s
  induction s with
  | zero =>
    intro _
    exact ⟨marks, rfl, hlen, fun v _ => by simp⟩
  | succ s ih =>
    intro hs
    obtain ⟨m, hm, hml, hmv⟩ := ih (Nat.le_of_succ_le hs)
    have hs' : s < 50 := hs
    rw [List.range_succ, List.foldl_append, hm]
    simp only [List.foldl_cons, List.foldl_nil]
    by_cases he : C.entry u s = 1
    · have hz : m.getD s 0 = 0 := by
        rw [hmv s hs', if_neg (by omega)]
        exact hzero s hs' he
      rw [if_pos he, if_pos hz]
      refine ⟨_, rfl, by rw [List.length_set]; exact hml, ?_⟩
      intro v hv
      rw [getD_set m (by rw [hml]; exact hs')]
      by_cases hvs : v = s
      · subst hvs
        rw [if_pos rfl, if_pos ⟨Nat.lt_succ_self v, he⟩]
      · rw [if_neg hvs, hmv v hv]
        by_cases hc : v < s ∧ C.entry u v = 1
        · rw [if_pos hc, if_pos ⟨Nat.lt_succ_of_lt hc.1, hc.2⟩]
        · rw [if_neg hc, if_neg]
          rintro ⟨h1, h2⟩
          exact hc ⟨by omega, h2⟩
    · rw [if_neg he]
      refine ⟨m, rfl, hml, ?_⟩
      intro v hv
      rw [hmv v hv]
      by_cases hc : v < s ∧ C.entry u v = 1
      · rw [if_pos hc, if_pos ⟨Nat.lt_succ_of_lt hc.1, hc.2⟩]
      · rw [if_neg hc, if_neg]
        rintro ⟨h1, h2⟩
        rcases Nat.lt_succ_iff_lt_or_eq.1 h1 with h | h
        · exact hc ⟨h, h2⟩
        · subst h; exact he h2

/-- The inner loop on a row whose ones all carry the mark 0: no `assert` fails and
exactly the labels with a one in the row get the new colour. -/
theorem labelRow_spec (C : Mat) (u : Nat) (color : Int) (marks : List Int)
    (hlen : marks.length = 50)
    (hzero : ∀ v < 50, C.entry u v = 1 → marks.getD v 0 = 0) :
    ∃ m, labelRow C 50 u color marks = some m ∧ m.length = 50 ∧
      ∀ v < 50, m.getD v 0 = if C.entry u v = 1 then color else marks.getD v 0 := by
  obtain ⟨m, hm, hml, hmv⟩ := labelRow_prefix C u color marks hlen hzero 50 (Nat.le_refl _)
  refine ⟨m, hm, hml, ?_⟩
  intro v hv
  rw [hmv v hv]
  by_cases he : C.entry u v = 1
  · rw [if_pos ⟨hv, he⟩, if_pos he]
  · rw [if_neg (fun h => he h.2), if_neg he]

/-! ## The numbering loop -/

theorem labelLoop_eq (A : Mat) (n : Nat) (marks : List Int) :
    labelLoop A n marks = (List.range n).foldl (labelStep A n) (some (marks, 1)) := rfl

theorem mod_two_pow_succ_eq_zero_iff (x t : Nat) :
    x % 2 ^ (t + 1) = 0 ↔ x % 2 ^ t = 0 ∧ x.testBit t = false := by
  rw [mod_two_pow_eq_zero_iff, mod_two_pow_eq_zero_iff]
  constructor
  · intro h
    exact ⟨fun w hw => h w (Nat.lt_succ_of_lt hw), h t (Nat.lt_succ_self t)⟩
  · rintro ⟨h1, h2⟩ w hw
    rcases Nat.lt_succ_iff_lt_or_eq.1 hw with h | h
    · exact h1 w h
    · subst h; exact h2

theorem numberedUpTo_length (kept : Nat → Bool) (rows : Nat → Nat) (t : Nat) :
    (numberedUpTo kept rows t).length = 50 := by
  simp [numberedUpTo]

theorem numberedUpTo_getD (kept : Nat → Bool) (rows : Nat → Nat) (t : Nat) {v : Nat}
    (hv : v < 50) :
    (numberedUpTo kept rows t).getD v 0 =
      if kept v then
        if rows v % 2 ^ t == 0 then 0 else (idOf (rootsOf kept rows) rows v : Int)
      else -1 := by
  unfold numberedUpTo
  rw [getD_map_range _ _ hv]

theorem mem_rootsOf {kept : Nat → Bool} {rows : Nat → Nat} {r : Nat} :
    r ∈ rootsOf kept rows ↔ r < 50 ∧ kept r = true ∧ rows r % 2 ^ r = 0 := by
  simp [rootsOf, List.mem_filter]

theorem filter_range_bound (P : Nat → Bool) {m n : Nat} (hmn : m ≤ n) :
    ((List.range n).filter fun r => P r && decide (r < m)) = (List.range m).filter P := by
  induction n with
  | zero =>
    have : m = 0 := Nat.le_zero.1 hmn
    subst this; rfl
  | succ n ih =>
    rcases Nat.lt_succ_iff_lt_or_eq.1 (Nat.lt_succ_of_le hmn) with hlt | heq
    · rw [List.range_succ, List.filter_append, ih (Nat.lt_succ_iff.1 hlt)]
      have : (P n && decide (n < m)) = false := by
        have : ¬ n < m := by omega
        simp [this]
      simp [List.filter_cons, this]
    · subst heq
      apply List.filter_congr
      intro r hr
      have : r < n + 1 := List.mem_range.1 hr
      simp [this]

/-- The id of a label in the class of a component start `t` is the number of
component starts up to `t`. -/
theorem idOf_class {kept : Nat → Bool} {rows : Nat → Nat} (h : ClassRows kept rows)
    {t v : Nat} (ht : t < 50) (hv : v < 50) (hroot : rows t % 2 ^ t = 0)
    (htv : (rows t).testBit v = true) :
    idOf (rootsOf kept rows) rows v = rootsBelow kept rows (t + 1) := by
  unfold idOf rootsBelow
  have hcongr : (rootsOf kept rows).filter (fun r => rows v % 2 ^ r == 0)
      = (rootsOf kept rows).filter (fun r => decide (r < t + 1)) := by
    apply List.filter_congr
    intro r hr
    obtain ⟨hr50, _, _⟩ := mem_rootsOf.1 hr
    have hiff : rows v % 2 ^ r = 0 ↔ r < t + 1 := by
      constructor
      · intro h0
        by_contra hlt
        have := (mod_two_pow_eq_zero_iff _ _).1 h0 t (by omega)
        rw [h.symm t ht v hv htv] at this
        exact absurd this (by decide)
      · intro hle
        rw [mod_two_pow_eq_zero_iff]
        intro w hw
        by_contra hb
        have hb' : (rows v).testBit w = true := by simpa using hb
        have := h.trans t ht v hv w (by omega) htv hb'
        have h0 := (mod_two_pow_eq_zero_iff _ _).1 hroot w (by omega)
        rw [this] at h0
        exact absurd h0 (by decide)
    by_cases hc : r < t + 1
    · simp [hc, hiff.2 hc]
    · have : ¬ rows v % 2 ^ r = 0 := fun h0 => hc (hiff.1 h0)
      simp [hc, this]
  rw [hcongr, rootsOf, List.filter_filter]
  have := filter_range_bound (fun u => kept u && (rows u % 2 ^ u == 0)) (m := t + 1) (n := 50)
    (by omega)
  rw [← this]
  congr 1
  apply List.filter_congr
  intro r _
  rw [Bool.and_comm]

theorem rootsBelow_succ (kept : Nat → Bool) (rows : Nat → Nat) (t : Nat) :
    rootsBelow kept rows (t + 1) =
      rootsBelow kept rows t + (if kept t = true ∧ rows t % 2 ^ t = 0 then 1 else 0) := by
  unfold rootsBelow
  rw [List.range_succ, List.filter_append, List.length_append]
  by_cases hc : kept t = true ∧ rows t % 2 ^ t = 0
  · rw [if_pos hc]; simp [List.filter_cons, hc.1, hc.2]
  · rw [if_neg hc]
    have : (kept t && (rows t % 2 ^ t == 0)) = false := by
      rcases Bool.eq_false_or_eq_true (kept t) with hk | hk
      · have : ¬ rows t % 2 ^ t = 0 := fun h0 => hc ⟨hk, h0⟩
        simp [hk, this]
      · simp [hk]
    simp [List.filter_cons, this]

theorem idOf_pos {kept : Nat → Bool} {rows : Nat → Nat} (h : ClassRows kept rows)
    {v : Nat} (hv : v < 50) (hk : kept v = true) : 1 ≤ idOf (rootsOf kept rows) rows v := by
  have hex : ∃ w, (rows v).testBit w = true := ⟨v, h.refl v hv hk⟩
  have hmin : ∀ {m : Nat}, m < Nat.find hex → ¬ (rows v).testBit m = true :=
    fun hm => Nat.find_min hex hm
  have hr := Nat.find_spec hex
  have hle : Nat.find hex ≤ v := Nat.find_min' hex (h.refl v hv hk)
  have hr50 : Nat.find hex < 50 := by omega
  have hroot : rows (Nat.find hex) % 2 ^ (Nat.find hex) = 0 := by
    rw [mod_two_pow_eq_zero_iff]
    intro w hw
    by_contra hb
    have hb' : (rows (Nat.find hex)).testBit w = true := by simpa using hb
    exact hmin hw (h.trans v hv _ hr50 w (by omega) hr hb')
  have hv0 : rows v % 2 ^ (Nat.find hex) = 0 := by
    rw [mod_two_pow_eq_zero_iff]
    intro w hw
    by_contra hb
    exact hmin hw (by simpa using hb)
  unfold idOf
  apply List.length_pos_of_mem (a := Nat.find hex)
  rw [List.mem_filter]
  exact ⟨mem_rootsOf.2 ⟨hr50, (h.field v hv _ hr50 hr).2, hroot⟩, by simp [hv0]⟩

theorem labelStep_numbered (C : Mat) {kept : Nat → Bool} {rows : Nat → Nat}
    (h : ClassRows kept rows)
    (hrows : ∀ p < 50, ∀ q < 50, (C.entry p q = 1 ↔ (rows p).testBit q = true))
    {t : Nat} (ht : t < 50) :
    labelStep C 50 (some (numberedUpTo kept rows t, (rootsBelow kept rows t : Int) + 1)) t
      = some (numberedUpTo kept rows (t + 1), (rootsBelow kept rows (t + 1) : Int) + 1) := by
  unfold labelStep
  simp only
  rw [numberedUpTo_getD kept rows t ht]
  rcases Bool.eq_false_or_eq_true (kept t) with hk | hk
  · -- kept
    by_cases hroot : rows t % 2 ^ t = 0
    · -- a component start
      have hb : (rows t % 2 ^ t == 0) = true := by simp [hroot]
      rw [if_pos hk, if_pos hb, if_neg (by decide), if_neg (by simp)]
      have hzero : ∀ v < 50, C.entry t v = 1 → (numberedUpTo kept rows t).getD v 0 = 0 := by
        intro v hv he
        have htv := (hrows t ht v hv).1 he
        have hkv := (h.field t ht v hv htv).2
        have hv0 : rows v % 2 ^ t = 0 := by
          rw [mod_two_pow_eq_zero_iff]
          intro w hw
          by_contra hb
          have hb' : (rows v).testBit w = true := by simpa using hb
          have := h.trans t ht v hv w (by omega) htv hb'
          have h0 := (mod_two_pow_eq_zero_iff _ _).1 hroot w hw
          rw [this] at h0
          exact absurd h0 (by decide)
        rw [numberedUpTo_getD kept rows t hv, if_pos hkv, if_pos (by simp [hv0])]
      obtain ⟨m, hm, hml, hmv⟩ := labelRow_spec C t ((rootsBelow kept rows t : Int) + 1) _
        (numberedUpTo_length kept rows t) hzero
      rw [hm]
      simp only
      have hcnt : rootsBelow kept rows (t + 1) = rootsBelow kept rows t + 1 := by
        rw [rootsBelow_succ, if_pos ⟨hk, hroot⟩]
      have hm' : m = numberedUpTo kept rows (t + 1) := by
        apply list_ext_getD hml (numberedUpTo_length kept rows _)
        intro v hv
        rw [hmv v hv, numberedUpTo_getD kept rows (t + 1) hv]
        by_cases he : C.entry t v = 1
        · have htv := (hrows t ht v hv).1 he
          have hkv := (h.field t ht v hv htv).2
          have hvt := h.symm t ht v hv htv
          have hne : ¬ rows v % 2 ^ (t + 1) = 0 := by
            rw [mod_two_pow_succ_eq_zero_iff]
            rintro ⟨_, h2⟩
            rw [hvt] at h2
            exact absurd h2 (by decide)
          rw [if_pos he, if_pos hkv, if_neg (by simp [hne]), idOf_class h ht hv hroot htv, hcnt]
          push_cast; ring
        · rw [if_neg he, numberedUpTo_getD kept rows t hv]
          have hvt : (rows v).testBit t = false := by
            by_contra hb
            have hb' : (rows v).testBit t = true := by simpa using hb
            exact he ((hrows t ht v hv).2 (h.symm v hv t ht hb'))
          have hiff : rows v % 2 ^ (t + 1) = 0 ↔ rows v % 2 ^ t = 0 := by
            rw [mod_two_pow_succ_eq_zero_iff]
            exact ⟨fun h => h.1, fun h => ⟨h, hvt⟩⟩
          by_cases h0 : rows v % 2 ^ t = 0
          · simp [h0, hiff.2 h0]
          · have h1 : ¬ rows v % 2 ^ (t + 1) = 0 := fun h => h0 (hiff.1 h)
            simp [h0, h1]
      rw [hm', hcnt]
      push_cast
      rfl
    · -- seen before
      have hb : (rows t % 2 ^ t == 0) = false := by simp [hroot]
      have hpos := idOf_pos h ht hk
      rw [if_pos hk, hb]
      simp only [Bool.false_eq_true, if_false]
      rw [if_neg (by omega), if_pos (by omega)]
      obtain ⟨w, hw, hwb⟩ : ∃ w < t, (rows t).testBit w = true := by
        by_contra hn
        apply hroot
        rw [mod_two_pow_eq_zero_iff]
        intro w hw
        by_contra hb
        exact hn ⟨w, hw, by simpa using hb⟩
      have hcnt : rootsBelow kept rows (t + 1) = rootsBelow kept rows t := by
        rw [rootsBelow_succ, if_neg (fun hc => hroot hc.2), Nat.add_zero]
      have hm' : numberedUpTo kept rows t = numberedUpTo kept rows (t + 1) := by
        apply list_ext_getD (numberedUpTo_length kept rows _) (numberedUpTo_length kept rows _)
        intro v hv
        rw [numberedUpTo_getD kept rows t hv, numberedUpTo_getD kept rows (t + 1) hv]
        have hiff : rows v % 2 ^ (t + 1) = 0 ↔ rows v % 2 ^ t = 0 := by
          rw [mod_two_pow_succ_eq_zero_iff]
          refine ⟨fun h => h.1, fun h0 => ⟨h0, ?_⟩⟩
          by_contra hb
          have hb' : (rows v).testBit t = true := by simpa using hb
          have := h.trans v hv t ht w (by omega) hb' hwb
          have h1 := (mod_two_pow_eq_zero_iff _ _).1 h0 w hw
          rw [this] at h1
          exact absurd h1 (by decide)
        by_cases h0 : rows v % 2 ^ t = 0
        · simp [h0, hiff.2 h0]
        · have h1 : ¬ rows v % 2 ^ (t + 1) = 0 := fun h => h0 (hiff.1 h)
          simp [h0, h1]
      rw [← hm', hcnt]
  · -- masked
    rw [hk]
    simp only [Bool.false_eq_true, if_false, if_true]
    have hcnt : rootsBelow kept rows (t + 1) = rootsBelow kept rows t := by
      rw [rootsBelow_succ, if_neg (fun hc => by rw [hk] at hc; exact absurd hc.1 (by decide)),
        Nat.add_zero]
    have hm' : numberedUpTo kept rows t = numberedUpTo kept rows (t + 1) := by
      apply list_ext_getD (numberedUpTo_length kept rows _) (numberedUpTo_length kept rows _)
      intro v hv
      rw [numberedUpTo_getD kept rows _ hv, numberedUpTo_getD kept rows _ hv]
      have hiff : rows v % 2 ^ (t + 1) = 0 ↔ rows v % 2 ^ t = 0 := by
        rw [mod_two_pow_succ_eq_zero_iff]
        refine ⟨fun h => h.1, fun h0 => ⟨h0, ?_⟩⟩
        by_contra hb
        have hb' : (rows v).testBit t = true := by simpa using hb
        have := (h.field v hv t ht hb').2
        rw [hk] at this
        exact absurd this (by decide)
      by_cases h0 : rows v % 2 ^ t = 0
      · simp [h0, hiff.2 h0]
      · have h1 : ¬ rows v % 2 ^ (t + 1) = 0 := fun h => h0 (hiff.1 h)
        simp [h0, h1]
    rw [← hm', hcnt]

theorem labelLoop_prefix (C : Mat) {kept : Nat → Bool} {rows : Nat → Nat}
    (h : ClassRows kept rows)
    (hrows : ∀ p < 50, ∀ q < 50, (C.entry p q = 1 ↔ (rows p).testBit q = true)) :
    ∀ t ≤ 50, (List.range t).foldl (labelStep C 50) (some (numberedUpTo kept rows 0, 1))
      = some (numberedUpTo kept rows t, (rootsBelow kept rows t : Int) + 1) := by
  intro t
  induction t with
  | zero => intro _; rfl
  | succ t ih =>
    intro ht
    rw [List.range_succ, List.foldl_append, ih (Nat.le_of_succ_le ht), List.foldl_cons,
      List.foldl_nil, labelStep_numbered C h hrows ht]

theorem numberedUpTo_fifty {kept : Nat → Bool} {rows : Nat → Nat} (h : ClassRows kept rows) :
    (numberedUpTo kept rows 50, (rootsBelow kept rows 50 : Int) + 1) = numbered kept rows := by
  unfold numbered
  congr 1
  unfold numberedUpTo
  apply List.map_congr_left
  intro v hv
  have hv50 : v < 50 := List.mem_range.1 hv
  rcases Bool.eq_false_or_eq_true (kept v) with hk | hk
  · have hne : ¬ rows v % 2 ^ 50 = 0 := by
      intro h0
      have := (mod_two_pow_eq_zero_iff _ _).1 h0 v hv50
      rw [h.refl v hv50 hk] at this
      exact absurd this (by decide)
    have hb : (rows v % 2 ^ 50 == 0) = false := by
      rw [beq_eq_false_iff_ne]; exact hne
    rw [if_pos hk, if_pos hk, hb]
    rfl
  · simp [hk]

/-- The numbering loop on a matrix whose ones are the classes of an equivalence
relation on the kept labels, started from the marks 0 (kept) and -1 (masked): no
`assert` fails and the final state is the closed form `numbered`. -/
theorem labelLoop_spec (C : Mat) {kept : Nat → Bool} {rows : Nat → Nat}
    (h : ClassRows kept rows)
    (hrows : ∀ p < 50, ∀ q < 50, (C.entry p q = 1 ↔ (rows p).testBit q = true))
    (marks : List Int) (hmarks : marks = numberedUpTo kept rows 0) :
    labelLoop C 50 marks = some (numbered kept rows) := by
  rw [labelLoop_eq, hmarks, labelLoop_prefix C h hrows 50 (Nat.le_refl _), numberedUpTo_fifty h]

/-! ## The closure of the masked adjacency matrix -/

theorem closureLoop_eq_iterate {A : Mat} (hA : A.Bin) (hS : A.Square)
    (hsymm : ∀ p q, oneAt A p q → oneAt A q p)
    (hrefl : ∀ p q, oneAt A p q → oneAt A p p ∧ oneAt A q q)
    {fuel : Nat} (hf : 7 ≤ fuel) :
    closureLoop fuel A = some (squareStep^[6] A) := by
  obtain ⟨t, _, h1, h2⟩ := closureLoop_of_fixed 6 fuel A (by omega)
    (iterate_stable hA hS hsymm hrefl)
  rw [h1, h2]

theorem oneAt_initMatrix (marks : List Int) (p q : Nat) :
    oneAt (initMatrix graph marks) p q ↔ linked graph marks p q := by
  obtain ⟨_, _, he⟩ := initMatrix_spec graph marks graph_length graph_entries_lt
  unfold oneAt linked
  constructor
  · rintro ⟨hp, hq, h⟩
    exact ⟨hp, hq, (he p hp q hq).1 h⟩
  · rintro ⟨hp, hq, h⟩
    exact ⟨hp, hq, (he p hp q hq).2 h⟩

theorem linked_symm (g : List (List Nat)) (marks : List Int) (p q : Nat)
    (h : linked g marks p q) : linked g marks q p := by
  obtain ⟨hp, hq, hkp, hkq, h⟩ := h
  refine ⟨hq, hp, hkq, hkp, ?_⟩
  rcases h with h | h
  · exact Or.inl h.symm
  · exact Or.inr (Or.symm h)

theorem linked_refl (g : List (List Nat)) (marks : List Int) (p q : Nat)
    (h : linked g marks p q) : linked g marks p p ∧ linked g marks q q := by
  obtain ⟨hp, hq, hkp, hkq, _⟩ := h
  exact ⟨⟨hp, hp, hkp, hkp, Or.inl rfl⟩, ⟨hq, hq, hkq, hkq, Or.inl rfl⟩⟩

theorem connected_symm (g : List (List Nat)) (marks : List Int) {p q : Nat}
    (h : connected g marks p q) : connected g marks q p := by
  unfold connected at h ⊢
  induction h with
  | single h => exact Relation.TransGen.single (linked_symm _ _ _ _ h)
  | tail _ hbc ih => exact Relation.TransGen.head (linked_symm _ _ _ _ hbc) ih

theorem connected_kept (g : List (List Nat)) (marks : List Int) {p q : Nat}
    (h : connected g marks p q) : p < 50 ∧ q < 50 ∧ keptIn marks p ∧ keptIn marks q := by
  have key : ∀ {a b : Nat}, connected g marks a b → a < 50 ∧ keptIn marks a := by
    intro a b hab
    obtain ⟨k, hk⟩ := transGen_head hab
    exact ⟨hk.1, hk.2.2.1⟩
  have h1 := key h
  have h2 := key (connected_symm g marks h)
  exact ⟨h1.1, h2.1, h1.2, h2.2⟩

/-- The matrix on which the squaring loop stops, for any marks: with 7 or more
rounds of fuel the loop returns the sixth iterate, a stored 0/1 matrix that
squaring leaves unchanged and whose ones are the pairs of connected labels. -/
theorem closure_of_marks (marks : List Int) {fuel : Nat} (hf : 7 ≤ fuel) :
    closureLoop fuel (initMatrix graph marks) = some (squareStep^[6] (initMatrix graph marks)) ∧
    (squareStep^[6] (initMatrix graph marks)).Square ∧
    (squareStep^[6] (initMatrix graph marks)).Bin ∧
    squareStep (squareStep^[6] (initMatrix graph marks))
      = squareStep^[6] (initMatrix graph marks) ∧
    ∀ p q, oneAt (squareStep^[6] (initMatrix graph marks)) p q ↔ connected graph marks p q := by
  obtain ⟨hS, hB, _⟩ := initMatrix_spec graph marks graph_length graph_entries_lt
  have hsymm : ∀ p q, oneAt (initMatrix graph marks) p q → oneAt (initMatrix graph marks) q p := by
    intro p q h
    rw [oneAt_initMatrix] at h ⊢
    exact linked_symm _ _ _ _ h
  have hrefl : ∀ p q, oneAt (initMatrix graph marks) p q →
      oneAt (initMatrix graph marks) p p ∧ oneAt (initMatrix graph marks) q q := by
    intro p q h
    rw [oneAt_initMatrix] at h
    rw [oneAt_initMatrix, oneAt_initMatrix]
    exact linked_refl _ _ _ _ h
  refine ⟨closureLoop_eq_iterate hB hS hsymm hrefl hf, square_iterate hS _, bin_iterate hB _,
    ?_, ?_⟩
  · have hst := iterate_stable hB hS hsymm hrefl
    rw [Function.iterate_succ_apply'] at hst
    exact hst
  · intro p q
    rw [oneAt_iterate_closure hB hsymm hrefl (Nat.le_refl 6)]
    unfold connected
    have : oneAt (initMatrix graph marks) = linked graph marks := by
      funext a b
      exact propext (oneAt_initMatrix marks a b)
    rw [this]

/-! ## Rows as bit masks -/

theorem testBit_rowBits_prefix (C : Mat) (p : Nat) :
    ∀ (n q : Nat), ((List.range n).foldl
        (fun a q => if C.entry p q = 1 then a ||| (1 <<< q) else a) 0).testBit q = true ↔
      q < n ∧ C.entry p q = 1 := by
  intro n
  induction n with
  | zero => intro q; simp
  | succ n ih =>
    intro q
    rw [List.range_succ, List.foldl_append, List.foldl_cons, List.foldl_nil]
    by_cases he : C.entry p n = 1
    · rw [if_pos he, Nat.testBit_lor, Bool.or_eq_true, ih q, Nat.one_shiftLeft,
        Nat.testBit_two_pow]
      constructor
      · rintro (⟨h1, h2⟩ | h)
        · exact ⟨Nat.lt_succ_of_lt h1, h2⟩
        · have : n = q := by simpa using h
          subst this
          exact ⟨Nat.lt_succ_self _, he⟩
      · rintro ⟨h1, h2⟩
        rcases Nat.lt_succ_iff_lt_or_eq.1 h1 with h | h
        · exact Or.inl ⟨h, h2⟩
        · right; simp [h]
    · rw [if_neg he, ih q]
      constructor
      · rintro ⟨h1, h2⟩
        exact ⟨Nat.lt_succ_of_lt h1, h2⟩
      · rintro ⟨h1, h2⟩
        rcases Nat.lt_succ_iff_lt_or_eq.1 h1 with h | h
        · exact ⟨h, h2⟩
        · subst h; exact absurd h2 he

theorem testBit_rowBits (C : Mat) (p q : Nat) :
    (rowBits C p).testBit q = true ↔ q < 50 ∧ C.entry p q = 1 :=
  testBit_rowBits_prefix C p 50 q

/-- The rows of the closure are the classes of an equivalence relation on the kept
labels. -/
theorem classRows_closure (marks : List Int) :
    ClassRows (keptB marks) (rowBits (squareStep^[6] (initMatrix graph marks))) := by
  obtain ⟨_, _, _, _, hone⟩ := closure_of_marks marks (Nat.le_refl 7)
  have hiff : ∀ p < 50, ∀ q,
      (rowBits (squareStep^[6] (initMatrix graph marks)) p).testBit q = true ↔
        connected graph marks p q := by
    intro p hp q
    rw [testBit_rowBits, ← hone]
    unfold oneAt
    constructor
    · rintro ⟨hq, h⟩; exact ⟨hp, hq, h⟩
    · rintro ⟨_, hq, h⟩; exact ⟨hq, h⟩
  constructor
  · intro p hp q _ h
    have := connected_kept _ _ ((hiff p hp q).1 h)
    exact ⟨by simpa [keptB] using this.2.2.1, by simpa [keptB] using this.2.2.2⟩
  · intro p hp hk
    rw [hiff p hp p]
    have hk' : keptIn marks p := by simpa [keptB] using hk
    exact Relation.TransGen.single ⟨hp, hp, hk', hk', Or.inl rfl⟩
  · intro p hp q hq h
    rw [hiff q hq p]
    exact connected_symm _ _ ((hiff p hp q).1 h)
  · intro p hp q hq r _ h1 h2
    rw [hiff p hp r]
    exact Relation.TransGen.trans ((hiff p hp q).1 h1) ((hiff q hq r).1 h2)

/-! ## The evaluation of a case -/

theorem edgemap_length : edgemap.length = 50 := by
  rw [edgemap_eq]; decide

theorem initialMarks_length (cases : Nat) : (initialMarks cases).length = 50 := by
  simp [initialMarks, edgemap_length]

theorem initialMarks_getD (cases : Nat) {v : Nat} (hv : v < 50) :
    (initialMarks cases).getD v 0 = markOf cases v := by
  unfold initialMarks
  rw [edgemap_length, getD_map_range _ _ hv]

theorem markOf_cases (cases v : Nat) : markOf cases v = 0 ∨ markOf cases v = -1 := by
  unfold markOf
  simp only
  split
  · exact Or.inl rfl
  · exact Or.inr rfl

theorem marks_eq_numberedUpTo (marks : List Int) (hlen : marks.length = 50)
    (h01 : ∀ v < 50, marks.getD v 0 = 0 ∨ marks.getD v 0 = -1) (rows : Nat → Nat) :
    marks = numberedUpTo (keptB marks) rows 0 := by
  apply list_ext_getD hlen (numberedUpTo_length _ _ _)
  intro v hv
  rw [numberedUpTo_getD _ _ _ hv]
  simp only [pow_zero, Nat.mod_one, beq_self_eq_true, if_true]
  rcases h01 v hv with h | h
  · have : keptB marks v = true :=
      decide_eq_true (show keptIn marks v by unfold keptIn; rw [h]; decide)
    rw [if_pos this, h]
  · have : keptB marks v = false :=
      decide_eq_false (show ¬ keptIn marks v by unfold keptIn; rw [h]; decide)
    rw [this, h]
    rfl

/-- The numbering after the closure, for any marks made of 0 and -1: with 7 or
more rounds of fuel the squaring loop returns, no `assert` of the numbering
fails, and the final state is the closed form `numbered` on the rows of the
closure. -/
theorem label_of_marks (marks : List Int) (hlen : marks.length = 50)
    (h01 : ∀ v < 50, marks.getD v 0 = 0 ∨ marks.getD v 0 = -1) {fuel : Nat} (hf : 7 ≤ fuel) :
    closureLoop fuel (initMatrix graph marks) = some (closureOf marks) ∧
    labelLoop (closureOf marks) 50 marks
      = some (numbered (keptB marks) (rowBits (closureOf marks))) := by
  refine ⟨(closure_of_marks marks hf).1, ?_⟩
  apply labelLoop_spec _ (classRows_closure marks)
  · intro p _ q hq
    rw [testBit_rowBits]
    exact ⟨fun h => ⟨hq, h⟩, fun h => h.2⟩
  · exact marks_eq_numberedUpTo marks hlen h01 _

theorem evaluate_spec (cases : Nat) {fuel : Nat} (hf : 7 ≤ fuel) :
    evaluate fuel cases = some (numbered (keptB (initialMarks cases))
      (rowBits (closureOf (initialMarks cases)))) := by
  obtain ⟨h1, h2⟩ := label_of_marks (initialMarks cases) (initialMarks_length cases)
    (fun v hv => by rw [initialMarks_getD cases hv]; exact markOf_cases cases v) hf
  unfold evaluate
  simp only
  rw [if_pos graph_length, h1]
  simp only
  rw [graph_length, h2]

/-! ## Properties of the closed form of the numbering -/

/-- Every kept label has a component start: the least label of its class. -/
theorem exists_root {kept : Nat → Bool} {rows : Nat → Nat} (h : ClassRows kept rows)
    {v : Nat} (hv : v < 50) (hk : kept v = true) :
    ∃ t, t ≤ v ∧ kept t = true ∧ rows t % 2 ^ t = 0 ∧ (rows t).testBit v = true ∧
      (rows v).testBit t = true ∧ ∀ w, (rows v).testBit w = true → t ≤ w := by
  have hex : ∃ w, (rows v).testBit w = true := ⟨v, h.refl v hv hk⟩
  have hr := Nat.find_spec hex
  have hle : Nat.find hex ≤ v := Nat.find_min' hex (h.refl v hv hk)
  have hr50 : Nat.find hex < 50 := by omega
  refine ⟨Nat.find hex, hle, (h.field v hv _ hr50 hr).2, ?_, h.symm v hv _ hr50 hr, hr,
    fun w hw => Nat.find_min' hex hw⟩
  rw [mod_two_pow_eq_zero_iff]
  intro w hw
  by_contra hb
  have hb' : (rows (Nat.find hex)).testBit w = true := by simpa using hb
  exact Nat.find_min hex hw (h.trans v hv _ hr50 w (by omega) hr hb')

theorem rootsBelow_mono (kept : Nat → Bool) (rows : Nat → Nat) {s t : Nat} (hst : s ≤ t) :
    rootsBelow kept rows s ≤ rootsBelow kept rows t := by
  induction t with
  | zero =>
    have : s = 0 := Nat.le_zero.1 hst
    subst this; exact Nat.le_refl _
  | succ t ih =>
    rcases Nat.lt_succ_iff_lt_or_eq.1 (Nat.lt_succ_of_le hst) with hlt | heq
    · have := ih (Nat.lt_succ_iff.1 hlt)
      rw [rootsBelow_succ]
      omega
    · subst heq; exact Nat.le_refl _

theorem rootsBelow_lt_of_root (kept : Nat → Bool) (rows : Nat → Nat) {s t : Nat}
    (hst : s < t) (hk : kept t = true) (hroot : rows t % 2 ^ t = 0) :
    rootsBelow kept rows (s + 1) < rootsBelow kept rows (t + 1) := by
  have h1 : rootsBelow kept rows (s + 1) ≤ rootsBelow kept rows t :=
    rootsBelow_mono kept rows (Nat.succ_le_of_lt hst)
  rw [rootsBelow_succ kept rows t, if_pos ⟨hk, hroot⟩]
  omega

theorem rootsBelow_fifty (kept : Nat → Bool) (rows : Nat → Nat) :
    rootsBelow kept rows 50 = (rootsOf kept rows).length := rfl

/-- The id of a kept label is the number of component starts up to the least label
of its class. -/
theorem idOf_eq_rootsBelow {kept : Nat → Bool} {rows : Nat → Nat} (h : ClassRows kept rows)
    {v t : Nat} (hv : v < 50) (ht : t ≤ v) (hroot : rows t % 2 ^ t = 0)
    (htv : (rows t).testBit v = true) :
    idOf (rootsOf kept rows) rows v = rootsBelow kept rows (t + 1) :=
  idOf_class h (by omega) hv hroot htv

theorem idOf_le_length (kept : Nat → Bool) (rows : Nat → Nat) (v : Nat) :
    idOf (rootsOf kept rows) rows v ≤ (rootsOf kept rows).length :=
  List.length_filter_le _ _

theorem idOf_eq_iff {kept : Nat → Bool} {rows : Nat → Nat} (h : ClassRows kept rows)
    {u v : Nat} (hu : u < 50) (hv : v < 50) (hku : kept u = true) (hkv : kept v = true) :
    idOf (rootsOf kept rows) rows u = idOf (rootsOf kept rows) rows v ↔
      (rows u).testBit v = true := by
  obtain ⟨s, hsu, hks, hsroot, hsu', hus, hsmin⟩ := exists_root h hu hku
  obtain ⟨t, htv, hkt, htroot, htv', hvt, htmin⟩ := exists_root h hv hkv
  have hs50 : s < 50 := by omega
  have ht50 : t < 50 := by omega
  rw [idOf_eq_rootsBelow h hu hsu hsroot hsu', idOf_eq_rootsBelow h hv htv htroot htv']
  constructor
  · intro heq
    have hst : s = t := by
      rcases Nat.lt_trichotomy s t with hlt | heq' | hgt
      · have := rootsBelow_lt_of_root kept rows hlt hkt htroot; omega
      · exact heq'
      · have := rootsBelow_lt_of_root kept rows hgt hks hsroot; omega
    subst hst
    exact h.trans u hu s hs50 v hv hus htv'
  · intro huv
    have h1 : s ≤ t := hsmin t (h.trans u hu v hv t ht50 huv hvt)
    have h2 : t ≤ s := htmin s (h.trans v hv u hu s hs50 (h.symm u hu v hv huv) hus)
    have : s = t := Nat.le_antisymm h1 h2
    rw [this]

theorem idOf_lt_iff {kept : Nat → Bool} {rows : Nat → Nat} (h : ClassRows kept rows)
    {u v : Nat} (hu : u < 50) (hv : v < 50) (hku : kept u = true) (hkv : kept v = true) :
    idOf (rootsOf kept rows) rows u < idOf (rootsOf kept rows) rows v ↔
      ∃ w, (rows u).testBit w = true ∧ ∀ w', (rows v).testBit w' = true → w < w' := by
  obtain ⟨s, hsu, hks, hsroot, hsu', hus, hsmin⟩ := exists_root h hu hku
  obtain ⟨t, htv, hkt, htroot, htv', hvt, htmin⟩ := exists_root h hv hkv
  rw [idOf_eq_rootsBelow h hu hsu hsroot hsu', idOf_eq_rootsBelow h hv htv htroot htv']
  constructor
  · intro hlt
    have hst : s < t := by
      by_contra hn
      have := rootsBelow_mono kept rows (s := t + 1) (t := s + 1) (by omega)
      omega
    exact ⟨s, hus, fun w' hw' => Nat.lt_of_lt_of_le hst (htmin w' hw')⟩
  · rintro ⟨w, hw, hall⟩
    have hst : s < t := Nat.lt_of_le_of_lt (hsmin w hw) (hall t hvt)
    exact rootsBelow_lt_of_root kept rows hst hkt htroot

theorem idOf_surj {kept : Nat → Bool} {rows : Nat → Nat} (h : ClassRows kept rows)
    {j : Nat} (hj1 : 1 ≤ j) (hj2 : j ≤ (rootsOf kept rows).length) :
    ∃ v < 50, kept v = true ∧ idOf (rootsOf kept rows) rows v = j := by
  have hex : ∃ t, j ≤ rootsBelow kept rows (t + 1) ∧ t < 50 :=
    ⟨49, by rw [rootsBelow_fifty]; exact hj2, by decide⟩
  obtain ⟨hjt, ht50⟩ := Nat.find_spec hex
  have hprev : rootsBelow kept rows (Nat.find hex) < j := by
    by_contra hn
    rcases Nat.eq_zero_or_pos (Nat.find hex) with h0 | hpos
    · rw [h0] at hn
      have : rootsBelow kept rows 0 = 0 := rfl
      omega
    · have := Nat.find_min hex (m := Nat.find hex - 1) (by omega)
      apply this
      refine ⟨?_, by omega⟩
      have he : Nat.find hex - 1 + 1 = Nat.find hex := by omega
      rw [he]; omega
  have hsucc := rootsBelow_succ kept rows (Nat.find hex)
  by_cases hc : kept (Nat.find hex) = true ∧ rows (Nat.find hex) % 2 ^ (Nat.find hex) = 0
  · rw [if_pos hc] at hsucc
    refine ⟨Nat.find hex, ht50, hc.1, ?_⟩
    rw [idOf_eq_rootsBelow h ht50 (Nat.le_refl _) hc.2 (h.refl _ ht50 hc.1)]
    omega
  · rw [if_neg hc] at hsucc
    omega

theorem rootsOf_nodup (kept : Nat → Bool) (rows : Nat → Nat) : (rootsOf kept rows).Nodup :=
  List.Nodup.filter _ (List.nodup_range 50)

theorem numbered_fst_length (kept : Nat → Bool) (rows : Nat → Nat) :
    (numbered kept rows).1.length = 50 := by
  simp [numbered]

theorem numbered_getD (kept : Nat → Bool) (rows : Nat → Nat) {v : Nat} (hv : v < 50) :
    (numbered kept rows).1.getD v 0 =
      if kept v then (idOf (rootsOf kept rows) rows v : Int) else -1 := by
  unfold numbered
  simp only
  rw [getD_map_range _ _ hv]

/-! ## Connected components of the kept subgraph -/

theorem reach_kept (marks : List Int) {p q : Nat} (h : reach marks p q)
    (hp : p < 50) (hk : keptIn marks p) : q < 50 ∧ keptIn marks q := by
  unfold reach at h
  induction h with
  | refl => exact ⟨hp, hk⟩
  | tail _ hbc _ => exact ⟨hbc.2.1, hbc.2.2.2.1⟩

theorem connected_iff_reach (marks : List Int) (p q : Nat) :
    connected graph marks p q ↔ p < 50 ∧ keptIn marks p ∧ reach marks p q := by
  constructor
  · intro h
    have hk := connected_kept graph marks h
    refine ⟨hk.1, hk.2.2.1, ?_⟩
    unfold connected at h
    unfold reach
    induction h with
    | single h =>
      rcases h.2.2.2.2 with heq | hadj
      · rw [heq]
      · exact Relation.ReflTransGen.single ⟨h.1, h.2.1, h.2.2.1, h.2.2.2.1, hadj⟩
    | tail hab hbc ih =>
      have ih' := ih (connected_kept graph marks hab)
      rcases hbc.2.2.2.2 with heq | hadj
      · rw [← heq]; exact ih'
      · exact Relation.ReflTransGen.tail ih' ⟨hbc.1, hbc.2.1, hbc.2.2.1, hbc.2.2.2.1, hadj⟩
  · rintro ⟨hp, hk, h⟩
    unfold reach at h
    unfold connected
    induction h with
    | refl => exact Relation.TransGen.single ⟨hp, hp, hk, hk, Or.inl rfl⟩
    | tail _ hbc ih =>
      exact Relation.TransGen.tail ih ⟨hbc.1, hbc.2.1, hbc.2.2.1, hbc.2.2.2.1, Or.inr hbc.2.2.2.2⟩

theorem testBit_closure_rows (marks : List Int) {p : Nat} (hp : p < 50) (q : Nat) :
    (rowBits (closureOf marks) p).testBit q = true ↔ keptIn marks p ∧ reach marks p q := by
  obtain ⟨_, _, _, _, hone⟩ := closure_of_marks marks (Nat.le_refl 7)
  rw [testBit_rowBits, closureOf]
  have h1 : (q < 50 ∧ (squareStep^[6] (initMatrix graph marks)).entry p q = 1) ↔
      oneAt (squareStep^[6] (initMatrix graph marks)) p q := by
    unfold oneAt
    exact ⟨fun h => ⟨hp, h.1, h.2⟩, fun h => ⟨h.2.1, h.2.2⟩⟩
  rw [h1, hone, connected_iff_reach]
  exact ⟨fun h => ⟨h.2.1, h.2.2⟩, fun h => ⟨hp, h.1, h.2⟩⟩

theorem entry_closure (marks : List Int) {p q : Nat} (hp : p < 50) (hq : q < 50) :
    (closureOf marks).entry p q = 1 ↔ keptIn marks p ∧ reach marks p q := by
  rw [← testBit_closure_rows marks hp q, testBit_rowBits]
  exact ⟨fun h => ⟨hq, h⟩, fun h => h.2⟩

/-! ## C5: the closure is reachability in the kept subgraph -/

/-- C5: for any marks (any masking of the 50 labels) the squaring loop returns, and
the matrix `A` it stops on is a fixed point of the squaring, a matrix of zeros and
ones with `A(i, j) = 1` exactly when `i` and `j` are kept and `j` is reachable
from `i` by a path of kept labels; `A(i, i) = 1` for every kept `i`, and the row
and the column of a masked label are zero.  Row `i` is thus the connected
component of `i` in the kept subgraph. -/
theorem closure_is_reachability (marks : List Int) (fuel : Nat) (hf : 7 ≤ fuel) :
    ∃ A, closureLoop fuel (initMatrix graph marks) = some A ∧ squareStep A = A ∧
      (∀ i < 50, ∀ j < 50,
        (A.entry i j = 1 ↔ keptIn marks i ∧ keptIn marks j ∧ reach marks i j)) ∧
      (∀ i < 50, ∀ j < 50, A.entry i j = 0 ∨ A.entry i j = 1) ∧
      (∀ i < 50, keptIn marks i → A.entry i i = 1) ∧
      (∀ i < 50, ¬ keptIn marks i → ∀ j < 50, A.entry i j = 0 ∧ A.entry j i = 0) := by
  obtain ⟨hloop, _, hbin, hfix, _⟩ := closure_of_marks marks hf
  have hentry : ∀ i < 50, ∀ j < 50, ((closureOf marks).entry i j = 1 ↔
      keptIn marks i ∧ keptIn marks j ∧ reach marks i j) := by
    intro i hi j hj
    rw [entry_closure marks hi hj]
    exact ⟨fun h => ⟨h.1, (reach_kept marks h.2 hi h.1).2, h.2⟩, fun h => ⟨h.1, h.2.2⟩⟩
  refine ⟨closureOf marks, hloop, hfix, hentry, hbin, ?_, ?_⟩
  · intro i hi hk
    exact (hentry i hi i hi).2 ⟨hk, hk, Relation.ReflTransGen.refl⟩
  · intro i hi hk j hj
    constructor
    · rcases hbin i hi j hj with h | h
      · exact h
      · exact absurd ((hentry i hi j hj).1 h).1 hk
    · rcases hbin j hj i hi with h | h
      · exact h
      · exact absurd ((hentry j hj i hi).1 h).2.1 hk

theorem closure_is_reachability_witness :
    ∃ A, closureLoop 7 (initMatrix graph (initialMarks 1)) = some A ∧ squareStep A = A ∧
      (∀ i < 50, ∀ j < 50, (A.entry i j = 1 ↔
        keptIn (initialMarks 1) i ∧ keptIn (initialMarks 1) j ∧ reach (initialMarks 1) i j)) ∧
      (∀ i < 50, ∀ j < 50, A.entry i j = 0 ∨ A.entry i j = 1) ∧
      (∀ i < 50, keptIn (initialMarks 1) i → A.entry i i = 1) ∧
      (∀ i < 50, ¬ keptIn (initialMarks 1) i → ∀ j < 50, A.entry i j = 0 ∧ A.entry j i = 0) :=
  closure_is_reachability (initialMarks 1) 7 (by decide)

/-! ## C6 and C7: the numbering -/

theorem keptB_eq_true (marks : List Int) (v : Nat) : keptB marks v = true ↔ keptIn marks v := by
  unfold keptB; exact decide_eq_true_iff

theorem evaluate_marks (cases : Nat) {fuel : Nat} (hf : 7 ≤ fuel) :
    ∃ marks color, evaluate fuel cases = some (marks, color) ∧ marks.length = 50 ∧
      color = ((rootsOf (keptB (initialMarks cases))
        (rowBits (closureOf (initialMarks cases)))).length : Int) + 1 ∧
      ∀ v < 50, marks.getD v 0 =
        if keptIn (initialMarks cases) v then
          (idOf (rootsOf (keptB (initialMarks cases))
            (rowBits (closureOf (initialMarks cases))))
            (rowBits (closureOf (initialMarks cases))) v : Int)
        else -1 := by
  refine ⟨(numbered (keptB (initialMarks cases))
      (rowBits (closureOf (initialMarks cases)))).1,
    (numbered (keptB (initialMarks cases)) (rowBits (closureOf (initialMarks cases)))).2,
    evaluate_spec cases hf, numbered_fst_length _ _, rfl, ?_⟩
  intro v hv
  rw [numbered_getD _ _ hv]
  by_cases hk : keptIn (initialMarks cases) v
  · rw [if_pos hk, if_pos ((keptB_eq_true _ _).2 hk)]
  · rw [if_neg hk, if_neg (fun h => hk ((keptB_eq_true _ _).1 h))]

/-- C6: for every case the evaluation returns (no `assert` fails), every kept label
ends with a positive component id, two kept labels end with the same id exactly
when one is reachable from the other by a path of kept labels, and every masked
label still has the mark -1. -/
theorem numbering_matches_components (cases fuel : Nat) (hf : 7 ≤ fuel) :
    ∃ marks color, evaluate fuel cases = some (marks, color) ∧ marks.length = 50 ∧
      (∀ v < 50, keptIn (initialMarks cases) v → 0 < marks.getD v 0) ∧
      (∀ u < 50, ∀ v < 50, keptIn (initialMarks cases) u → keptIn (initialMarks cases) v →
        (marks.getD u 0 = marks.getD v 0 ↔ reach (initialMarks cases) u v)) ∧
      (∀ v < 50, ¬ keptIn (initialMarks cases) v → marks.getD v 0 = -1) := by
  obtain ⟨marks, color, hev, hlen, _, hget⟩ := evaluate_marks cases hf
  have hcr : ClassRows (keptB (initialMarks cases))
      (rowBits (closureOf (initialMarks cases))) := classRows_closure (initialMarks cases)
  refine ⟨marks, color, hev, hlen, ?_, ?_, ?_⟩
  · intro v hv hk
    rw [hget v hv, if_pos hk]
    have := idOf_pos hcr hv ((keptB_eq_true _ _).2 hk)
    exact_mod_cast this
  · intro u hu v hv hku hkv
    rw [hget u hu, hget v hv, if_pos hku, if_pos hkv, Nat.cast_inj,
      idOf_eq_iff hcr hu hv ((keptB_eq_true _ _).2 hku) ((keptB_eq_true _ _).2 hkv),
      testBit_closure_rows _ hu]
    exact ⟨fun h => h.2, fun h => ⟨hku, h⟩⟩
  · intro v hv hk
    rw [hget v hv, if_neg hk]

theorem numbering_matches_components_witness :
    ∃ marks color, evaluate 7 1 = some (marks, color) ∧ marks.length = 50 ∧
      (∀ v < 50, keptIn (initialMarks 1) v → 0 < marks.getD v 0) ∧
      (∀ u < 50, ∀ v < 50, keptIn (initialMarks 1) u → keptIn (initialMarks 1) v →
        (marks.getD u 0 = marks.getD v 0 ↔ reach (initialMarks 1) u v)) ∧
      (∀ v < 50, ¬ keptIn (initialMarks 1) v → marks.getD v 0 = -1) :=
  numbering_matches_components 1 7 (by decide)

/-- C7: for every case, with `k = color - 1` the number printed as the number of
patches: the ids of the kept labels lie in 1..k and every id in 1..k is used; two
kept labels share an id exactly when they are in the same component; `k` is the
number of components, counted by their smallest labels; the component of the
smallest kept label has id 1; and the ids follow the smallest labels of the
components: the id of `u` is less than the id of `v` exactly when the component
of `u` has a label below every label of the component of `v`. -/
theorem numbering_is_lowest_label_first (cases fuel : Nat) (hf : 7 ≤ fuel) :
    ∃ marks color, evaluate fuel cases = some (marks, color) ∧
      (∀ v < 50, keptIn (initialMarks cases) v →
        1 ≤ marks.getD v 0 ∧ marks.getD v 0 ≤ color - 1) ∧
      (∀ j : Int, 1 ≤ j → j ≤ color - 1 →
        ∃ v < 50, keptIn (initialMarks cases) v ∧ marks.getD v 0 = j) ∧
      (∀ u < 50, ∀ v < 50, keptIn (initialMarks cases) u → keptIn (initialMarks cases) v →
        (marks.getD u 0 = marks.getD v 0 ↔ reach (initialMarks cases) u v)) ∧
      (∃ mins : List Nat, mins.Nodup ∧ color - 1 = mins.length ∧
        ∀ v, v ∈ mins ↔ v < 50 ∧ keptIn (initialMarks cases) v ∧
          ∀ w < v, ¬ reach (initialMarks cases) v w) ∧
      (∀ v < 50, keptIn (initialMarks cases) v →
        (∀ w < v, ¬ keptIn (initialMarks cases) w) → marks.getD v 0 = 1) ∧
      (∀ u < 50, ∀ v < 50, keptIn (initialMarks cases) u → keptIn (initialMarks cases) v →
        (marks.getD u 0 < marks.getD v 0 ↔
          ∃ w, reach (initialMarks cases) u w ∧
            ∀ w', reach (initialMarks cases) v w' → w < w')) := by
  obtain ⟨marks, color, hev, _, hcol, hget⟩ := evaluate_marks cases hf
  have hcr : ClassRows (keptB (initialMarks cases))
      (rowBits (closureOf (initialMarks cases))) := classRows_closure (initialMarks cases)
  have hbit : ∀ u < 50, keptIn (initialMarks cases) u → ∀ w,
      ((rowBits (closureOf (initialMarks cases)) u).testBit w = true ↔
        reach (initialMarks cases) u w) := by
    intro u hu hk w
    rw [testBit_closure_rows _ hu]
    exact ⟨fun h => h.2, fun h => ⟨hk, h⟩⟩
  refine ⟨marks, color, hev, ?_, ?_, ?_, ?_, ?_, ?_⟩
  · intro v hv hk
    rw [hget v hv, if_pos hk, hcol]
    have h1 := idOf_pos hcr hv ((keptB_eq_true _ _).2 hk)
    have h2 := idOf_le_length (keptB (initialMarks cases))
      (rowBits (closureOf (initialMarks cases))) v
    constructor
    · exact_mod_cast h1
    · have : ((idOf (rootsOf (keptB (initialMarks cases))
          (rowBits (closureOf (initialMarks cases))))
          (rowBits (closureOf (initialMarks cases))) v : Nat) : Int)
          ≤ ((rootsOf (keptB (initialMarks cases))
            (rowBits (closureOf (initialMarks cases)))).length : Int) := by exact_mod_cast h2
      omega
  · intro j hj1 hj2
    rw [hcol] at hj2
    obtain ⟨n, rfl⟩ : ∃ n : Nat, j = n := ⟨j.toNat, by omega⟩
    obtain ⟨v, hv, hk, hid⟩ := idOf_surj hcr (j := n) (by omega) (by omega)
    refine ⟨v, hv, (keptB_eq_true _ _).1 hk, ?_⟩
    rw [hget v hv, if_pos ((keptB_eq_true _ _).1 hk), hid]
  · intro u hu v hv hku hkv
    rw [hget u hu, hget v hv, if_pos hku, if_pos hkv, Nat.cast_inj,
      idOf_eq_iff hcr hu hv ((keptB_eq_true _ _).2 hku) ((keptB_eq_true _ _).2 hkv),
      hbit u hu hku]
  · refine ⟨rootsOf (keptB (initialMarks cases)) (rowBits (closureOf (initialMarks cases))),
      rootsOf_nodup _ _, by rw [hcol]; omega, ?_⟩
    intro v
    rw [mem_rootsOf, keptB_eq_true, mod_two_pow_eq_zero_iff]
    constructor
    · rintro ⟨hv, hk, h0⟩
      refine ⟨hv, hk, fun w hw hr => ?_⟩
      have := (hbit v hv hk w).2 hr
      rw [h0 w hw] at this
      exact absurd this (by decide)
    · rintro ⟨hv, hk, hn⟩
      refine ⟨hv, hk, fun w hw => ?_⟩
      by_contra hb
      exact hn w hw ((hbit v hv hk w).1 (by simpa using hb))
  · intro v hv hk hmin
    rw [hget v hv, if_pos hk]
    have hroot : rowBits (closureOf (initialMarks cases)) v % 2 ^ v = 0 := by
      rw [mod_two_pow_eq_zero_iff]
      intro w hw
      by_contra hb
      have hb' : (rowBits (closureOf (initialMarks cases)) v).testBit w = true := by
        simpa using hb
      have := (hcr.field v hv w (by omega) hb').2
      exact hmin w hw ((keptB_eq_true _ _).1 this)
    rw [idOf_eq_rootsBelow hcr hv (Nat.le_refl v) hroot
      (hcr.refl v hv ((keptB_eq_true _ _).2 hk)), rootsBelow_succ,
      if_pos ⟨(keptB_eq_true _ _).2 hk, hroot⟩]
    have h0 : rootsBelow (keptB (initialMarks cases))
        (rowBits (closureOf (initialMarks cases))) v = 0 := by
      unfold rootsBelow
      rw [List.length_eq_zero, List.filter_eq_nil_iff]
      intro w hw
      have hw' : w < v := List.mem_range.1 hw
      have : keptB (initialMarks cases) w = false := by
        rcases Bool.eq_false_or_eq_true (keptB (initialMarks cases) w) with h | h
        · exact absurd ((keptB_eq_true _ _).1 h) (hmin w hw')
        · exact h
      simp [this]
    rw [h0]
    rfl
  · intro u hu v hv hku hkv
    rw [hget u hu, hget v hv, if_pos hku, if_pos hkv, Nat.cast_lt,
      idOf_lt_iff hcr hu hv ((keptB_eq_true _ _).2 hku) ((keptB_eq_true _ _).2 hkv)]
    constructor
    · rintro ⟨w, hw, hall⟩
      exact ⟨w, (hbit u hu hku w).1 hw, fun w' hw' => hall w' ((hbit v hv hkv w').2 hw')⟩
    · rintro ⟨w, hw, hall⟩
      exact ⟨w, (hbit u hu hku w).2 hw, fun w' hw' => hall w' ((hbit v hv hkv w').1 hw')⟩

theorem numbering_is_lowest_label_first_witness :
    ∃ marks color, evaluate 7 105 = some (marks, color) ∧
      (∀ v < 50, keptIn (initialMarks 105) v →
        1 ≤ marks.getD v 0 ∧ marks.getD v 0 ≤ color - 1) ∧
      (∀ j : Int, 1 ≤ j → j ≤ color - 1 →
        ∃ v < 50, keptIn (initialMarks 105) v ∧ marks.getD v 0 = j) ∧
      (∀ u < 50, ∀ v < 50, keptIn (initialMarks 105) u → keptIn (initialMarks 105) v →
        (marks.getD u 0 = marks.getD v 0 ↔ reach (initialMarks 105) u v)) ∧
      (∃ mins : List Nat, mins.Nodup ∧ color - 1 = mins.length ∧
        ∀ v, v ∈ mins ↔ v < 50 ∧ keptIn (initialMarks 105) v ∧
          ∀ w < v, ¬ reach (initialMarks 105) v w) ∧
      (∀ v < 50, keptIn (initialMarks 105) v →
        (∀ w < v, ¬ keptIn (initialMarks 105) w) → marks.getD v 0 = 1) ∧
      (∀ u < 50, ∀ v < 50, keptIn (initialMarks 105) u → keptIn (initialMarks 105) v →
        (marks.getD u 0 < marks.getD v 0 ↔
          ∃ w, reach (initialMarks 105) u w ∧
            ∀ w', reach (initialMarks 105) v w' → w < w')) :=
  numbering_is_lowest_label_first 105 7 (by decide)

/-! ## C1: which labels are masked -/

theorem ite_xor_decide (P Q : Prop) [Decidable P] [Decidable Q] :
    (if xor (decide P) (decide Q) = true then (0 : Int) else -1)
      = if Xor' P Q then 0 else -1 := by
  by_cases hP : P <;> by_cases hQ : Q <;> simp [Xor', hP, hQ]

theorem markOf_eq (cases e : Nat) :
    markOf cases e = if Xor' (exceeds cases (endU e)) (exceeds cases (endV e)) then 0 else -1 :=
  ite_xor_decide (exceeds cases (endU e)) (exceeds cases (endV e))

/-- C1, the claim as stated fails: in case 0 the label 0 (the edge between the
corners 0 and 2) has both endpoint values at 0, so not exactly one of them exceeds
the threshold, and yet its mark is -1. -/
theorem masked_iff_straddling_fails :
    ¬ ((initialMarks 0).getD 0 0 = -1 ↔ Xor' (exceeds 0 (endU 0)) (exceeds 0 (endV 0))) := by
  rw [initialMarks_getD 0 (by decide), markOf_eq]
  have hu : ¬ exceeds 0 (endU 0) := by
    unfold endU; rw [iedgemap_eq]; decide!
  have hv : ¬ exceeds 0 (endV 0) := by
    unfold endV; rw [iedgemap_eq]; decide!
  have hx : ¬ Xor' (exceeds 0 (endU 0)) (exceeds 0 (endV 0)) := by
    rintro (⟨h, _⟩ | ⟨h, _⟩)
    · exact hu h
    · exact hv h
  rw [if_neg hx]
  intro h
  exact hx (h.1 rfl)

/-- C1, amended: for every case and every label `e` with endpoints `u`, `v`, the
mark set by the marks loop is 0 (kept) exactly when exactly one of `vals[u]`,
`vals[v]` exceeds the threshold, and -1 (masked) exactly when both or neither do;
a masked label has a zero row and a zero column in the matrix of the kept
subgraph, a kept label has a one on the diagonal. -/
theorem kept_iff_straddling (cases e : Nat) (he : e < 50) :
    ((initialMarks cases).getD e 0 = 0 ↔
      Xor' (exceeds cases (endU e)) (exceeds cases (endV e))) ∧
    ((initialMarks cases).getD e 0 = -1 ↔
      ¬ Xor' (exceeds cases (endU e)) (exceeds cases (endV e))) ∧
    ((initialMarks cases).getD e 0 = -1 → ∀ j < 50,
      (initMatrix graph (initialMarks cases)).entry e j = 0 ∧
      (initMatrix graph (initialMarks cases)).entry j e = 0) ∧
    ((initialMarks cases).getD e 0 = 0 →
      (initMatrix graph (initialMarks cases)).entry e e = 1) := by
  obtain ⟨_, hbin, hone⟩ := initMatrix_spec graph (initialMarks cases) graph_length
    graph_entries_lt
  rw [initialMarks_getD cases he, markOf_eq]
  refine ⟨?_, ?_, ?_, ?_⟩
  · by_cases h : Xor' (exceeds cases (endU e)) (exceeds cases (endV e))
    · simp [h]
    · simp [h]
  · by_cases h : Xor' (exceeds cases (endU e)) (exceeds cases (endV e))
    · simp [h]
    · simp [h]
  · intro hm j hj
    have hk : ¬ keptIn (initialMarks cases) e := by
      unfold keptIn
      rw [initialMarks_getD cases he, markOf_eq]
      exact fun h => h hm
    constructor
    · rcases hbin e he j hj with h | h
      · exact h
      · exact absurd ((hone e he j hj).1 h).1 hk
    · rcases hbin j hj e he with h | h
      · exact h
      · exact absurd ((hone j hj e he).1 h).2.1 hk
  · intro hm
    have hk : keptIn (initialMarks cases) e := by
      unfold keptIn
      rw [initialMarks_getD cases he, markOf_eq, hm]
      decide
    exact (hone e he e he).2 ⟨hk, hk, Or.inl rfl⟩

theorem kept_iff_straddling_witness :
    (((initialMarks 1).getD 0 0 = 0 ↔ Xor' (exceeds 1 (endU 0)) (exceeds 1 (endV 0))) ∧
    ((initialMarks 1).getD 0 0 = -1 ↔ ¬ Xor' (exceeds 1 (endU 0)) (exceeds 1 (endV 0))) ∧
    ((initialMarks 1).getD 0 0 = -1 → ∀ j < 50,
      (initMatrix graph (initialMarks 1)).entry 0 j = 0 ∧
      (initMatrix graph (initialMarks 1)).entry j 0 = 0) ∧
    ((initialMarks 1).getD 0 0 = 0 →
      (initMatrix graph (initialMarks 1)).entry 0 0 = 1)) ∧ 0 < 50 :=
  ⟨kept_iff_straddling 1 0 (by decide), by decide⟩

/-! ## Packed matrices -/

theorem force_eq {α : Type} (n : Nat) (k : Nat → α) : force n k = k n := by
  cases n <;> rfl

theorem colMask_eq : colMask = colMaskN 50 := by decide!

theorem testBit_block (a b : Nat) (hb : b < 2 ^ 50) (p q : Nat) (hq : q < 50) :
    (2 ^ 50 * a + b).testBit (50 * p + q) =
      if p = 0 then b.testBit q else a.testBit (50 * (p - 1) + q) := by
  rw [Nat.testBit_mul_pow_two_add a hb]
  by_cases hp : p = 0
  · subst hp
    simp [hq]
  · have h1 : ¬ 50 * p + q < 50 := by omega
    have h2 : 50 * p + q - 50 = 50 * (p - 1) + q := by omega
    rw [if_neg h1, if_neg hp, h2]

theorem and_colMaskN_succ (X n : Nat) :
    X &&& colMaskN (n + 1) = 2 ^ 50 * ((X >>> 50) &&& colMaskN n) + X % 2 := by
  apply Nat.eq_of_testBit_eq
  intro i
  have hlt : X % 2 < 2 ^ 50 := by
    have : X % 2 < 2 := Nat.mod_lt _ (by decide)
    have : (2 : Nat) ≤ 2 ^ 50 := by decide
    omega
  rw [Nat.testBit_mul_pow_two_add _ hlt, Nat.testBit_and, colMaskN,
    Nat.add_comm 1, Nat.testBit_mul_pow_two_add _ (by decide : 1 < 2 ^ 50)]
  by_cases hi : i < 50
  · rw [if_pos hi, if_pos hi]
    rcases Nat.eq_zero_or_pos i with h0 | hpos
    · subst h0
      simp [Nat.testBit_zero]
    · have h1 : Nat.testBit 1 i = false := by
        rw [Bool.eq_false_iff]
        intro h
        have := Nat.testBit_one_eq_true_iff_self_eq_zero.1 h
        omega
      have h2 : (X % 2).testBit i = false := by
        apply Nat.testBit_lt_two_pow
        have : X % 2 < 2 := Nat.mod_lt _ (by decide)
        have : 2 ≤ 2 ^ i := by
          calc 2 = 2 ^ 1 := by norm_num
            _ ≤ 2 ^ i := Nat.pow_le_pow_right (by decide) hpos
        omega
      rw [h1, h2, Bool.and_false]
  · rw [if_neg hi, if_neg hi, Nat.testBit_and, Nat.testBit_shiftRight]
    have : 50 + (i - 50) = i := by omega
    rw [this]

/-- The product of a column (one bit per row) and a row of fewer than 50 bits. -/
theorem testBit_col_mul_row (r : Nat) (hr : r < 2 ^ 50) :
    ∀ (n X p q : Nat), q < 50 →
      ((X &&& colMaskN n) * r).testBit (50 * p + q) =
        (decide (p < n) && X.testBit (50 * p) && r.testBit q) := by
  intro n
  induction n with
  | zero =>
    intro X p q _
    simp [colMaskN]
  | succ n ih =>
    intro X p q hq
    rw [and_colMaskN_succ, Nat.add_mul, Nat.mul_assoc]
    have hlt : X % 2 * r < 2 ^ 50 := by
      rcases Nat.mod_two_eq_zero_or_one X with h | h <;> rw [h] <;> omega
    rw [testBit_block _ _ hlt p q hq]
    by_cases hp : p = 0
    · subst hp
      rw [if_pos rfl]
      rcases Nat.mod_two_eq_zero_or_one X with h | h
      · have : X.testBit 0 = false := by rw [Nat.testBit_zero, h]; rfl
        simp [h, this]
      · have : X.testBit 0 = true := by rw [Nat.testBit_zero, h]; rfl
        simp [h, this]
    · rw [if_neg hp, ih (X >>> 50) (p - 1) q hq, Nat.testBit_shiftRight]
      have h1 : 50 + 50 * (p - 1) = 50 * p := by omega
      have h2 : decide (p - 1 < n) = decide (p < n + 1) := by
        by_cases h : p < n + 1
        · have : p - 1 < n := by omega
          simp [h, this]
        · have : ¬ p - 1 < n := by omega
          simp [h, this]
      rw [h1, h2]

theorem testBit_sqN_prefix (M : Nat) {p q : Nat} (hp : p < 50) (hq : q < 50) :
    ∀ n, ((List.range n).foldl (fun a k =>
        a ||| (((M >>> k) &&& colMask) * ((M >>> (50 * k)) % 2 ^ 50))) 0).testBit (50 * p + q)
        = true ↔
      ∃ k < n, M.testBit (50 * p + k) = true ∧ M.testBit (50 * k + q) = true := by
  intro n
  induction n with
  | zero => simp
  | succ n ih =>
    rw [List.range_succ, List.foldl_append, List.foldl_cons, List.foldl_nil, Nat.testBit_or,
      Bool.or_eq_true, ih, colMask_eq,
      testBit_col_mul_row _ (Nat.mod_lt _ (Nat.two_pow_pos 50)) 50 _ p q hq,
      Nat.testBit_shiftRight, Nat.testBit_mod_two_pow, Nat.testBit_shiftRight]
    have h1 : n + 50 * p = 50 * p + n := by omega
    rw [h1]
    constructor
    · rintro (⟨k, hk, h⟩ | h)
      · exact ⟨k, Nat.lt_succ_of_lt hk, h⟩
      · simp only [hp, hq, decide_True, Bool.true_and, Bool.and_eq_true] at h
        exact ⟨n, Nat.lt_succ_self n, h⟩
    · rintro ⟨k, hk, h⟩
      rcases Nat.lt_succ_iff_lt_or_eq.1 hk with hlt | heq
      · exact Or.inl ⟨k, hlt, h⟩
      · subst heq
        right
        simp [hp, hq, h.1, h.2]

/-- The packed square has a one at `(p, q)` exactly when the packed matrix has
ones at `(p, k)` and `(k, q)` for some `k`. -/
theorem testBit_sqN (M : Nat) {p q : Nat} (hp : p < 50) (hq : q < 50) :
    (sqN M).testBit (50 * p + q) = true ↔
      ∃ k < 50, M.testBit (50 * p + k) = true ∧ M.testBit (50 * k + q) = true :=
  testBit_sqN_prefix M hp hq 50

theorem testBit_blocks (f : Nat → Nat) {q : Nat} (hq : q < 50) (p : Nat) :
    ∀ n, ((List.range n).foldl (fun a u => a ||| ((f u % 2 ^ 50) <<< (50 * u))) 0).testBit
        (50 * p + q) = (decide (p < n) && (f p).testBit q) := by
  intro n
  induction n with
  | zero => simp
  | succ n ih =>
    rw [List.range_succ, List.foldl_append, List.foldl_cons, List.foldl_nil, Nat.testBit_or, ih,
      Nat.testBit_shiftLeft, Nat.testBit_mod_two_pow]
    rcases Nat.lt_trichotomy p n with hlt | heq | hgt
    · have h1 : ¬ 50 * p + q ≥ 50 * n := by omega
      have h2 : p < n + 1 := by omega
      simp [hlt, h1, h2]
    · subst heq
      have h1 : 50 * p + q - 50 * p = q := by omega
      simp [h1, hq]
    · have h1 : ¬ p < n := by omega
      have h2 : ¬ p < n + 1 := by omega
      have h3 : ¬ 50 * p + q - 50 * n < 50 := by omega
      simp [h1, h2, h3]

theorem testBit_initN (kept : Nat) {p q : Nat} (hp : p < 50) (hq : q < 50) :
    (initN kept).testBit (50 * p + q) =
      (kept.testBit p && (adjDiag.testBit (50 * p + q) && kept.testBit q)) := by
  unfold initN
  rw [testBit_blocks (fun u => if kept.testBit u then (adjDiag >>> (50 * u)) &&& kept else 0)
    hq p 50]
  simp only [hp, decide_True, Bool.true_and]
  rcases Bool.eq_false_or_eq_true (kept.testBit p) with h | h
  · rw [if_pos h, h, Nat.testBit_and, Nat.testBit_shiftRight, Bool.true_and]
  · rw [h]
    simp

set_option maxRecDepth 100000 in
theorem adjDiag_table : ∀ p < 50, ∀ q < 50,
    adjDiag.testBit (50 * p + q) = decide (p = q ∨ adjIn graphTable p q) := by
  decide!

theorem testBit_adjDiag {p q : Nat} (hp : p < 50) (hq : q < 50) :
    adjDiag.testBit (50 * p + q) = true ↔ (p = q ∨ adjIn graph p q) := by
  rw [adjDiag_table p hp q hq, graph_eq, decide_eq_true_iff]

/-- The packed masked adjacency matrix stands for the stored one. -/
theorem rep_init (marks : List Int) (kept : Nat)
    (hk : ∀ v < 50, kept.testBit v = keptB marks v) :
    Rep (initMatrix graph marks) (initN kept) := by
  obtain ⟨_, _, hone⟩ := initMatrix_spec graph marks graph_length graph_entries_lt
  intro p hp q hq
  rw [hone p hp q hq, testBit_initN kept hp hq, hk p hp, hk q hq, Bool.and_eq_true,
    Bool.and_eq_true, keptB_eq_true, keptB_eq_true, testBit_adjDiag hp hq]
  exact ⟨fun h => ⟨h.1, h.2.2, h.2.1⟩, fun h => ⟨h.1, h.2.2, h.2.1⟩⟩

/-- Squaring the packed matrix follows the squaring of the stored one. -/
theorem rep_step {C : Mat} {M : Nat} (hC : C.Bin) (h : Rep C M) :
    Rep (squareStep C) (sqN M) := by
  intro p hp q hq
  rw [testBit_sqN M hp hq]
  have := oneAt_squareStep hC p q
  unfold oneAt at this
  constructor
  · intro he
    obtain ⟨k, ⟨_, hk, h1⟩, ⟨_, _, h2⟩⟩ := this.1 ⟨hp, hq, he⟩
    exact ⟨k, hk, (h p hp k hk).1 h1, (h k hk q hq).1 h2⟩
  · rintro ⟨k, hk, h1, h2⟩
    exact (this.2 ⟨k, ⟨hp, hk, (h p hp k hk).2 h1⟩, ⟨hk, hq, (h k hk q hq).2 h2⟩⟩).2.2

theorem rep_iterate {C : Mat} {M : Nat} (hC : C.Bin) (h : Rep C M) (t : Nat) :
    Rep (squareStep^[t] C) (sqN^[t] M) := by
  induction t with
  | zero => exact h
  | succ t ih =>
    rw [Function.iterate_succ_apply', Function.iterate_succ_apply']
    exact rep_step (bin_iterate hC t) ih

theorem closeN_eq_iterate : ∀ (fuel M : Nat), closeN fuel M = sqN^[fuel] M := by
  intro fuel
  induction fuel with
  | zero => intro M; rfl
  | succ fuel ih =>
    intro M
    rw [closeN, force_eq, Function.iterate_succ_apply]
    by_cases hfix : sqN M = M
    · rw [if_pos hfix, hfix]
      exact (Function.iterate_fixed hfix fuel).symm
    · rw [if_neg hfix, ih]

/-- The closed form of the numbering only reads the bits below 50 of the rows of
the labels below 50. -/
theorem numbered_congr {kept kept' : Nat → Bool} {rows rows' : Nat → Nat}
    (hk : ∀ v < 50, kept v = kept' v)
    (hr : ∀ v < 50, ∀ q < 50, (rows v).testBit q = (rows' v).testBit q) :
    numbered kept rows = numbered kept' rows' := by
  have hmod : ∀ v < 50, ∀ r ≤ 50, (rows v % 2 ^ r == 0) = (rows' v % 2 ^ r == 0) := by
    intro v hv r hr50
    have : rows v % 2 ^ r = 0 ↔ rows' v % 2 ^ r = 0 := by
      rw [mod_two_pow_eq_zero_iff, mod_two_pow_eq_zero_iff]
      constructor
      · intro h w hw; rw [← hr v hv w (by omega)]; exact h w hw
      · intro h w hw; rw [hr v hv w (by omega)]; exact h w hw
    by_cases h0 : rows v % 2 ^ r = 0
    · simp [h0, this.1 h0]
    · have h1 : ¬ rows' v % 2 ^ r = 0 := fun h => h0 (this.2 h)
      simp [h0, h1]
  have hroots : rootsOf kept rows = rootsOf kept' rows' := by
    unfold rootsOf
    apply List.filter_congr
    intro u hu
    have hu50 : u < 50 := List.mem_range.1 hu
    rw [hk u hu50, hmod u hu50 u (Nat.le_of_lt hu50)]
  unfold numbered
  rw [hroots]
  congr 1
  apply List.map_congr_left
  intro v hv
  have hv50 : v < 50 := List.mem_range.1 hv
  rw [hk v hv50]
  have : idOf (rootsOf kept' rows') rows v = idOf (rootsOf kept' rows') rows' v := by
    unfold idOf
    congr 1
    apply List.filter_congr
    intro r hr'
    have hr50 : r < 50 := (mem_rootsOf.1 hr').1
    exact hmod v hv50 r (Nat.le_of_lt hr50)
  rw [this]

/-! ## The 256 cases, evaluated

Each lemma below evaluates 8 cases on bit masks and compares them with the table. -/

set_option maxRecDepth 100000 in
theorem case_chunk_0 : (caseChunk 0).all caseOk = true := by decide!

set_option maxRecDepth 100000 in
theorem case_chunk_1 : (caseChunk 1).all caseOk = true := by decide!

set_option maxRecDepth 100000 in
theorem case_chunk_2 : (caseChunk 2).all caseOk = true := by decide!

set_option maxRecDepth 100000 in
theorem case_chunk_3 : (caseChunk 3).all caseOk = true := by decide!

set_option maxRecDepth 100000 in
theorem case_chunk_4 : (caseChunk 4).all caseOk = true := by decide!

set_option maxRecDepth 100000 in
theorem case_chunk_5 : (caseChunk 5).all caseOk = true := by decide!

set_option maxRecDepth 100000 in
theorem case_chunk_6 : (caseChunk 6).all caseOk = true := by decide!

set_option maxRecDepth 100000 in
theorem case_chunk_7 : (caseChunk 7).all caseOk = true := by decide!

set_option maxRecDepth 100000 in
theorem case_chunk_8 : (caseChunk 8).all caseOk = true := by decide!

set_option maxRecDepth 100000 in
theorem case_chunk_9 : (caseChunk 9).all caseOk = true := by decide!

set_option maxRecDepth 100000 in
theorem case_chunk_10 : (caseChunk 10).all caseOk = true := by decide!

set_option maxRecDepth 100000 in
theorem case_chunk_11 : (caseChunk 11).all caseOk = true := by decide!

set_option maxRecDepth 100000 in
theorem case_chunk_12 : (caseChunk 12).all caseOk = true := by decide!

set_option maxRecDepth 100000 in
theorem case_chunk_13 : (caseChunk 13).all caseOk = true := by decide!

set_option maxRecDepth 100000 in
theorem case_chunk_14 : (caseChunk 14).all caseOk = true := by decide!

set_option maxRecDepth 100000 in
theorem case_chunk_15 : (caseChunk 15).all caseOk = true := by decide!

set_option maxRecDepth 100000 in
theorem case_chunk_16 : (caseChunk 16).all caseOk = true := by decide!

set_option maxRecDepth 100000 in
theorem case_chunk_17 : (caseChunk 17).all caseOk = true := by decide!

set_option maxRecDepth 100000 in
theorem case_chunk_18 : (caseChunk 18).all caseOk = true := by decide!

set_option maxRecDepth 100000 in
theorem case_chunk_19 : (caseChunk 19).all caseOk = true := by decide!

set_option maxRecDepth 100000 in
theorem case_chunk_20 : (caseChunk 20).all caseOk = true := by decide!

set_option maxRecDepth 100000 in
theorem case_chunk_21 : (caseChunk 21).all caseOk = true := by decide!

set_option maxRecDepth 100000 in
theorem case_chunk_22 : (caseChunk 22).all caseOk = true := by decide!

set_option maxRecDepth 100000 in
theorem case_chunk_23 : (caseChunk 23).all caseOk = true := by decide!

set_option maxRecDepth 100000 in
theorem case_chunk_24 : (caseChunk 24).all caseOk = true := by decide!

set_option maxRecDepth 100000 in
theorem case_chunk_25 : (caseChunk 25).all caseOk = true := by decide!

set_option maxRecDepth 100000 in
theorem case_chunk_26 : (caseChunk 26).all caseOk = true := by decide!

set_option maxRecDepth 100000 in
theorem case_chunk_27 : (caseChunk 27).all caseOk = true := by decide!

set_option maxRecDepth 100000 in
theorem case_chunk_28 : (caseChunk 28).all caseOk = true := by decide!

set_option maxRecDepth 100000 in
theorem case_chunk_29 : (caseChunk 29).all caseOk = true := by decide!

set_option maxRecDepth 100000 in
theorem case_chunk_30 : (caseChunk 30).all caseOk = true := by decide!

set_option maxRecDepth 100000 in
theorem case_chunk_31 : (caseChunk 31).all caseOk = true := by decide!

theorem case_chunks (c : Nat) (hc : c < 32) : (caseChunk c).all caseOk = true := by
  interval_cases c
  · exact case_chunk_0
  · exact case_chunk_1
  · exact case_chunk_2
  · exact case_chunk_3
  · exact case_chunk_4
  · exact case_chunk_5
  · exact case_chunk_6
  · exact case_chunk_7
  · exact case_chunk_8
  · exact case_chunk_9
  · exact case_chunk_10
  · exact case_chunk_11
  · exact case_chunk_12
  · exact case_chunk_13
  · exact case_chunk_14
  · exact case_chunk_15
  · exact case_chunk_16
  · exact case_chunk_17
  · exact case_chunk_18
  · exact case_chunk_19
  · exact case_chunk_20
  · exact case_chunk_21
  · exact case_chunk_22
  · exact case_chunk_23
  · exact case_chunk_24
  · exact case_chunk_25
  · exact case_chunk_26
  · exact case_chunk_27
  · exact case_chunk_28
  · exact case_chunk_29
  · exact case_chunk_30
  · exact case_chunk_31

theorem caseOk_all (cases : Nat) (hc : cases < 256) : caseOk cases = true := by
  have h := case_chunks (cases / 8) (by omega)
  rw [List.all_eq_true] at h
  apply h
  unfold caseChunk
  rw [List.mem_map]
  exact ⟨cases % 8, List.mem_range.2 (Nat.mod_lt _ (by decide)), by omega⟩

theorem caseOk_parts {cases : Nat} (hc : cases < 256) :
    aboveOk cases = true ∧ fastEval cases = caseTable cases ∧ encodeOk cases = true ∧
      cubeIdsOk cases = true := by
  have h := caseOk_all cases hc
  unfold caseOk at h
  simp only [Bool.and_eq_true, beq_iff_eq] at h
  exact ⟨h.1.1, h.1.2, h.2.1, h.2.2⟩

/-! ## From the evaluation on bit masks to the program -/

theorem forceList_eq {α : Type} (l : List Nat) : ∀ (k : List Nat → α), forceList l k = k l := by
  induction l with
  | nil => intro k; rfl
  | cons a l ih =>
    intro k
    rw [forceList, force_eq, ih]

theorem above_eq {cases : Nat} (hc : cases < 256) {p : Nat} (hp : p < 15) :
    above cases p = (aboveMask cases).testBit p := by
  have h1 := (caseOk_parts hc).1
  unfold aboveOk at h1
  rw [List.all_eq_true] at h1
  exact beq_iff_eq.1 (h1 p (List.mem_range.2 hp))

set_option maxRecDepth 100000 in
theorem ends_table : ∀ e < 50,
    (endsU >>> (4 * e)) % 16 = iedgemap.getD e 0 % 100 ∧
    (endsV >>> (4 * e)) % 16 = iedgemap.getD e 0 / 100 ∧
    iedgemap.getD e 0 % 100 < 15 ∧ iedgemap.getD e 0 / 100 < 15 := by
  rw [iedgemap_eq]
  decide!

theorem ends_eq {e : Nat} (he : e < 50) :
    (endsU >>> (4 * e)) % 16 = endU e ∧ (endsV >>> (4 * e)) % 16 = endV e ∧
    endU e < 15 ∧ endV e < 15 :=
  ends_table e he

theorem keptB_initialMarks (cases : Nat) {v : Nat} (hv : v < 50) :
    keptB (initialMarks cases) v = xor (above cases (endU v)) (above cases (endV v)) := by
  have hm : (initialMarks cases).getD v 0 = markOf cases v := initialMarks_getD cases hv
  have hm2 : markOf cases v =
      if xor (above cases (endU v)) (above cases (endV v)) = true then 0 else -1 := rfl
  rw [Bool.eq_iff_iff, keptB_eq_true]
  unfold keptIn
  rw [hm, hm2]
  cases xor (above cases (endU v)) (above cases (endV v)) <;> simp

theorem testBit_setBits (P : Nat → Bool) (q : Nat) :
    ∀ n, ((List.range n).foldl (fun a v => if P v then a ||| (1 <<< v) else a) 0).testBit q
      = (decide (q < n) && P q) := by
  intro n
  induction n with
  | zero => simp
  | succ n ih =>
    rw [List.range_succ, List.foldl_append, List.foldl_cons, List.foldl_nil]
    rcases Bool.eq_false_or_eq_true (P n) with hP | hP
    · rw [if_pos hP, Nat.testBit_or, ih, Nat.one_shiftLeft, Nat.testBit_two_pow]
      rcases Nat.lt_trichotomy q n with h | h | h
      · have h1 : q < n + 1 := by omega
        have h2 : ¬ n = q := by omega
        simp [h, h1, h2]
      · subst h; simp [hP]
      · have h1 : ¬ q < n + 1 := by omega
        have h2 : ¬ n = q := by omega
        have h3 : ¬ q < n := by omega
        simp [h1, h2, h3]
    · rw [hP]
      simp only [Bool.false_eq_true, if_false]
      rw [ih]
      rcases Nat.lt_trichotomy q n with h | h | h
      · have h1 : q < n + 1 := by omega
        simp [h, h1]
      · subst h; simp [hP]
      · have h1 : ¬ q < n + 1 := by omega
        have h3 : ¬ q < n := by omega
        simp [h1, h3]

theorem testBit_keptMask {cases : Nat} (hc : cases < 256) {v : Nat} (hv : v < 50) :
    (keptMask cases).testBit v = keptB (initialMarks cases) v := by
  obtain ⟨h1, h2, h3, h4⟩ := ends_eq hv
  unfold keptMask
  rw [force_eq, testBit_setBits (keptFast (aboveMask cases)) v 50, keptB_initialMarks cases hv,
    above_eq hc h3, above_eq hc h4]
  unfold keptFast
  rw [h1, h2]
  simp [hv]

theorem fastEval_eq {cases : Nat} (hc : cases < 256) :
    numbered (keptB (initialMarks cases)) (rowBits (closureOf (initialMarks cases)))
      = fastEval cases := by
  unfold fastEval
  rw [force_eq, force_eq, forceList_eq, closeN_eq_iterate]
  show _ = numbered (fun v => (keptMask cases).testBit v)
    (fun p => sqN^[6] (initN (keptMask cases)) >>> (50 * p))
  obtain ⟨_, hbin, _⟩ := initMatrix_spec graph (initialMarks cases) graph_length
    graph_entries_lt
  have hrep : Rep (closureOf (initialMarks cases)) (sqN^[6] (initN (keptMask cases))) :=
    rep_iterate hbin (rep_init _ _ (fun v hv => testBit_keptMask hc hv)) 6
  apply numbered_congr
  · intro v hv
    exact (testBit_keptMask hc hv).symm
  · intro v hv q hq
    rw [Nat.testBit_shiftRight, Bool.eq_iff_iff, testBit_rowBits, ← hrep v hv q hq]
    exact ⟨fun h => h.2, fun h => ⟨hq, h⟩⟩

/-- The state of every case after the numbering loop: with 7 or more rounds of
fuel the evaluation returns the entry of the table. -/
theorem evaluate_table {cases : Nat} (hc : cases < 256) {fuel : Nat} (hf : 7 ≤ fuel) :
    evaluate fuel cases = some (caseTable cases) := by
  rw [evaluate_spec cases hf, fastEval_eq hc, (caseOk_parts hc).2.1]

/-! ## The encoder -/

theorem encodeStep_none (marks : List Int) (e : Nat × Nat) : encodeStep marks none e = none :=
  rfl

theorem encodeStep_some (marks : List Int) (code : Nat) (e : Nat × Nat) :
    encodeStep marks (some code) e = (entryBits marks e).map fun x => code ||| x := by
  unfold encodeStep entryBits
  simp only
  by_cases h1 : e.1 / 100 < 8 ∧ e.1 % 100 < 8
  · rw [if_pos h1, if_pos h1]
    cases cubeedge (e.1 / 100) (e.1 % 100) with
    | none => rfl
    | some ceid =>
      simp only
      by_cases h2 : marks.getD e.2 0 = 0
      · rw [if_pos h2, if_pos h2]; rfl
      · rw [if_neg h2, if_neg h2]
        by_cases h3 : twoBit (marks.getD e.2 0) < 4 ∧ twoBit (marks.getD e.2 0) ≥ 0
        · rw [if_pos h3]
          exact if_pos h3
        · rw [if_neg h3]
          exact if_neg h3
  · rw [if_neg h1, if_neg h1]
    simp

theorem encodeStep_comm (marks : List Int) (s : Option Nat) (a b : Nat × Nat) :
    encodeStep marks (encodeStep marks s a) b = encodeStep marks (encodeStep marks s b) a := by
  cases s with
  | none => rfl
  | some code =>
    rw [encodeStep_some, encodeStep_some]
    cases ha : entryBits marks a with
    | none =>
      cases hb : entryBits marks b with
      | none => rfl
      | some y =>
        simp only [Option.map_none', Option.map_some', encodeStep_none, encodeStep_some, ha]
    | some x =>
      cases hb : entryBits marks b with
      | none =>
        simp only [Option.map_none', Option.map_some', encodeStep_none, encodeStep_some, hb]
      | some y =>
        simp only [Option.map_some', encodeStep_some, ha, hb]
        rw [Nat.lor_assoc, Nat.lor_comm x y, ← Nat.lor_assoc]

/-- The code does not depend on the order in which the map is iterated. -/
theorem encode_perm (marks : List Int) {order₁ order₂ : List (Nat × Nat)}
    (h : order₁.Perm order₂) : encode order₁ marks = encode order₂ marks := by
  unfold encode
  haveI : RightCommutative (encodeStep marks) := ⟨fun s a b => encodeStep_comm marks s a b⟩
  exact List.Perm.foldl_eq h (some 0)

theorem encode_table {cases : Nat} (hc : cases < 256) :
    encode edgemapTable (caseTable cases).1 = some (edgeGroupTable.getD cases 0) := by
  have h := (caseOk_parts hc).2.2.1
  unfold encodeOk at h
  simp only [Bool.and_eq_true, beq_iff_eq] at h
  exact h.1.1

theorem tableEntry_of_evaluate {fuel : Nat} {order : List (Nat × Nat)} {cases : Nat}
    {s : List Int × Int} (h : evaluate fuel cases = some s) :
    tableEntry fuel order cases = encode order s.1 := by
  rw [tableEntry, h, Option.some_bind]

/-- The value written for a case is the entry of the table, whatever the order in
which the map is iterated. -/
theorem tableEntry_eq {cases : Nat} (hc : cases < 256) {fuel : Nat} (hf : 7 ≤ fuel)
    {order : List (Nat × Nat)} (hperm : order.Perm edgemap) :
    tableEntry fuel order cases = some (edgeGroupTable.getD cases 0) := by
  have h1 := encode_perm (caseTable cases).1 hperm
  have h2 : encode edgemap (caseTable cases).1 = encode edgemapTable (caseTable cases).1 :=
    congrArg (fun l => encode l (caseTable cases).1) edgemap_eq
  exact (tableEntry_of_evaluate (evaluate_table hc hf)).trans
    (h1.trans (h2.trans (encode_table hc)))

/-! ## The table entries and the cube edges -/

theorem patches_of_evaluate {fuel cases : Nat} {s : List Int × Int}
    (h : evaluate fuel cases = some s) : patches fuel cases = some (s.2 - 1) := by
  rw [patches, h, Option.map_some']

set_option maxRecDepth 100000 in
theorem cubeEdgeByIndex_spec : ∀ i < 12,
    cubeEdgeByIndex.getD i (0, 0) ∈ edgemap ∧
    (cubeEdgeByIndex.getD i (0, 0)).1 / 100 < 8 ∧ (cubeEdgeByIndex.getD i (0, 0)).1 % 100 < 8 ∧
    cubeedge ((cubeEdgeByIndex.getD i (0, 0)).1 / 100) ((cubeEdgeByIndex.getD i (0, 0)).1 % 100)
      = some i ∧
    ∀ e ∈ edgemap, e.1 / 100 < 8 → e.1 % 100 < 8 →
      cubeedge (e.1 / 100) (e.1 % 100) = some i → e = cubeEdgeByIndex.getD i (0, 0) := by
  rw [edgemap_eq]
  decide!

theorem cubeEdges_subset : ∀ e ∈ cubeEdges, e ∈ cubeEdgeByIndex := by
  rw [cubeEdges_eq]; decide

theorem fields_of_case {cases : Nat} (hc : cases < 256) {i : Nat} (hi : i < 12) :
    (caseTable cases).1.getD (cubeEdgeByIndex.getD i (0, 0)).2 0 ≠ 0 ∧
    0 ≤ twoBit ((caseTable cases).1.getD (cubeEdgeByIndex.getD i (0, 0)).2 0) ∧
    twoBit ((caseTable cases).1.getD (cubeEdgeByIndex.getD i (0, 0)).2 0) < 4 ∧
    (((edgeGroupTable.getD cases 0 >>> (2 * i)) % 4 : Nat) : Int)
      = twoBit ((caseTable cases).1.getD (cubeEdgeByIndex.getD i (0, 0)).2 0) := by
  have h := (caseOk_parts hc).2.2.1
  unfold encodeOk at h
  simp only [Bool.and_eq_true] at h
  have hf := h.2
  unfold fieldsOk at hf
  rw [List.all_eq_true] at hf
  have := hf i (List.mem_range.2 hi)
  simp only [Bool.and_eq_true, decide_eq_true_iff, bne_iff_ne, beq_iff_eq] at this
  exact ⟨this.1.1.1, this.1.1.2, this.1.2, this.2⟩

theorem cube_ids_of_case {cases : Nat} (hc : cases < 256) {e : Nat × Nat}
    (he : e ∈ cubeEdgeByIndex) :
    (caseTable cases).1.getD e.2 0 = -1 ∨
      (1 ≤ (caseTable cases).1.getD e.2 0 ∧ (caseTable cases).1.getD e.2 0 ≤ 4 ∧
        ((caseTable cases).1.getD e.2 0 = 4 → cases = 105 ∨ cases = 150)) := by
  have h := (caseOk_parts hc).2.2.2
  unfold cubeIdsOk at h
  rw [List.all_eq_true] at h
  have := h e he
  simp only [Bool.or_eq_true, Bool.and_eq_true, decide_eq_true_iff, bne_iff_ne, beq_iff_eq,
    ne_eq] at this
  rcases this with h1 | ⟨⟨h1, h2⟩, h3⟩
  · exact Or.inl h1
  · refine Or.inr ⟨h1, h2, fun h4 => ?_⟩
    rcases h3 with (h3 | h3) | h3
    · exact absurd h4 h3
    · exact Or.inl h3
    · exact Or.inr h3

/-! ## C2: the uniform cases -/

/-- C2, the claim as stated fails: the table entry of case 0 is not 0x000000. -/
theorem uniform_entry_is_not_zero : tableEntry 7 edgemap 0 ≠ some 0x000000 := by
  rw [tableEntry_eq (by decide) (by decide) (List.Perm.refl _)]
  decide

set_option maxRecDepth 100000 in
theorem uniform_keptMask : keptMask 0 = 0 ∧ keptMask 255 = 0 := by decide!

theorem uniform_marks {cases : Nat} (hc : cases < 256) (hk : keptMask cases = 0)
    {e : Nat} (he : e < 50) : (initialMarks cases).getD e 0 = -1 := by
  have h1 := testBit_keptMask hc he
  rw [hk, Nat.zero_testBit] at h1
  have h2 : ¬ keptIn (initialMarks cases) e := by
    intro h
    rw [← keptB_eq_true, ← h1] at h
    exact absurd h (by decide)
  unfold keptIn at h2
  exact not_not.1 h2

/-- C2, amended: the table entries of the cases 0 and 255 are both 0xFFFFFF,
whatever the order in which the map is iterated: in a uniform field no label has
endpoints on both sides of the threshold, so all 50 labels are masked, the number
of patches is 0, and each of the 12 fields holds the value 3. -/
theorem uniform_entries (fuel : Nat) (hf : 7 ≤ fuel) (order : List (Nat × Nat))
    (hperm : order.Perm edgemap) :
    tableEntry fuel order 0 = some 0xFFFFFF ∧ tableEntry fuel order 255 = some 0xFFFFFF ∧
    (∀ e < 50, (initialMarks 0).getD e 0 = -1) ∧
    (∀ e < 50, (initialMarks 255).getD e 0 = -1) ∧
    patches fuel 0 = some 0 ∧ patches fuel 255 = some 0 ∧
    (∀ i < 12, (0xFFFFFF >>> (2 * i)) % 4 = 3) := by
  refine ⟨?_, ?_, ?_, ?_, ?_, ?_, by decide⟩
  · rw [tableEntry_eq (by decide) hf hperm]; decide
  · rw [tableEntry_eq (by decide) hf hperm]; decide
  · exact fun e he => uniform_marks (by decide) uniform_keptMask.1 he
  · exact fun e he => uniform_marks (by decide) uniform_keptMask.2 he
  · rw [patches_of_evaluate (evaluate_table (by decide) hf)]; decide
  · rw [patches_of_evaluate (evaluate_table (by decide) hf)]; decide

theorem uniform_entries_witness :
    tableEntry 7 edgemap 0 = some 0xFFFFFF ∧ tableEntry 7 edgemap 255 = some 0xFFFFFF ∧
    (∀ e < 50, (initialMarks 0).getD e 0 = -1) ∧
    (∀ e < 50, (initialMarks 255).getD e 0 = -1) ∧
    patches 7 0 = some 0 ∧ patches 7 255 = some 0 ∧
    (∀ i < 12, (0xFFFFFF >>> (2 * i)) % 4 = 3) :=
  uniform_entries 7 (by decide) edgemap (List.Perm.refl _)

/-! ## C10: the case 1 -/

/-- C10, the claim as stated fails: the number of patches of case 1 is not 2. -/
theorem case_one_patches_not_two : patches 7 1 ≠ some 2 := by
  rw [patches_of_evaluate (evaluate_table (by decide) (by decide))]
  decide

set_option maxRecDepth 100000 in
theorem case_one_straddling : ∀ e ∈ cubeEdgeByIndex,
    (Xor' (exceeds 1 (e.1 % 100)) (exceeds 1 (e.1 / 100)) ↔ (e.1 / 100 = 0 ∨ e.1 % 100 = 0)) := by
  decide!

/-- C10, amended: in case 1 the cube edges whose endpoints are on both sides of the
threshold are exactly the 3 cube edges that touch corner 0, and the number of
patches found is exactly 1. -/
theorem case_one_single_patch (fuel : Nat) (hf : 7 ≤ fuel) :
    patches fuel 1 = some 1 ∧
    (∀ e ∈ cubeEdges, (Xor' (exceeds 1 (e.1 % 100)) (exceeds 1 (e.1 / 100)) ↔
      (e.1 / 100 = 0 ∨ e.1 % 100 = 0))) ∧
    (cubeEdges.filter fun e => decide (e.1 / 100 = 0 ∨ e.1 % 100 = 0)).length = 3 := by
  refine ⟨?_, fun e he => case_one_straddling e (cubeEdges_subset e he), ?_⟩
  · rw [patches_of_evaluate (evaluate_table (by decide) hf)]; decide
  · rw [cubeEdges_eq]; decide

theorem case_one_single_patch_witness :
    patches 7 1 = some 1 ∧
    (∀ e ∈ cubeEdges, (Xor' (exceeds 1 (e.1 % 100)) (exceeds 1 (e.1 / 100)) ↔
      (e.1 / 100 = 0 ∨ e.1 % 100 = 0))) ∧
    (cubeEdges.filter fun e => decide (e.1 / 100 = 0 ∨ e.1 % 100 = 0)).length = 3 :=
  case_one_single_patch 7 (by decide)

/-! ## C3: how many components reach the cube edges -/

set_option maxRecDepth 100000 in
theorem case_105_fourth : (caseTable 105).1.getD 22 0 = 4 := by decide!

/-- C3, the claim as stated fails: in case 105 the cube edge between the corners 3
and 7 (label 22) is kept and has the component id 4, so `n - 1 = 3`. -/
theorem three_component_bound_fails :
    ¬ (∀ cases < 256, ∀ e ∈ cubeEdges, ∀ s, evaluate 7 cases = some s →
        s.1.getD e.2 0 ≠ -1 → s.1.getD e.2 0 - 1 < 3) := by
  intro h
  have h1 := h 105 (by decide) (307, 22) (by rw [cubeEdges_eq]; decide) (caseTable 105)
    (evaluate_table (by decide) (by decide))
  rw [case_105_fourth] at h1
  exact absurd (h1 (by decide)) (by decide)

/-- C3, amended: for every case the evaluation returns, and every cube edge is
either masked or has a component id `n` with `1 ≤ n` and `n - 1 < 4`; `n - 1 = 3`
occurs in the cases 105 and 150 only.  In the table entry the field of a cube edge
holds 3 only when the edge is masked or, in the cases 105 and 150, when it belongs
to a fourth component. -/
theorem cube_edge_ids_below_four (cases : Nat) (hc : cases < 256) (fuel : Nat) (hf : 7 ≤ fuel) :
    ∃ marks color, evaluate fuel cases = some (marks, color) ∧
      (∀ e ∈ cubeEdges, marks.getD e.2 0 = -1 ∨
        (1 ≤ marks.getD e.2 0 ∧ marks.getD e.2 0 - 1 < 4 ∧
          (marks.getD e.2 0 - 1 = 3 → cases = 105 ∨ cases = 150))) ∧
      (∀ i < 12, (edgeGroupTable.getD cases 0 >>> (2 * i)) % 4 = 3 →
        marks.getD (cubeEdgeByIndex.getD i (0, 0)).2 0 = -1 ∨ cases = 105 ∨ cases = 150) := by
  refine ⟨(caseTable cases).1, (caseTable cases).2, evaluate_table hc hf, ?_, ?_⟩
  · intro e he
    rcases cube_ids_of_case hc (cubeEdges_subset e he) with h | ⟨h1, h2, h3⟩
    · exact Or.inl h
    · exact Or.inr ⟨h1, by omega, fun h4 => h3 (by omega)⟩
  · intro i hi h3
    obtain ⟨_, _, _, hbits⟩ := fields_of_case hc hi
    have hmem : cubeEdgeByIndex.getD i (0, 0) ∈ cubeEdgeByIndex := by
      rw [List.getD_eq_getElem _ _ (by simpa [cubeEdgeByIndex] using hi)]
      exact List.getElem_mem _
    rcases cube_ids_of_case hc hmem with h | ⟨h1, _, h4⟩
    · exact Or.inl h
    · right
      apply h4
      rw [h3] at hbits
      unfold twoBit at hbits
      rw [if_neg (by omega)] at hbits
      push_cast at hbits
      omega

theorem cube_edge_ids_below_four_witness :
    ∃ marks color, evaluate 7 105 = some (marks, color) ∧
      (∀ e ∈ cubeEdges, marks.getD e.2 0 = -1 ∨
        (1 ≤ marks.getD e.2 0 ∧ marks.getD e.2 0 - 1 < 4 ∧
          (marks.getD e.2 0 - 1 = 3 → 105 = 105 ∨ 105 = 150))) ∧
      (∀ i < 12, (edgeGroupTable.getD 105 0 >>> (2 * i)) % 4 = 3 →
        marks.getD (cubeEdgeByIndex.getD i (0, 0)).2 0 = -1 ∨ 105 = 105 ∨ 105 = 150) :=
  cube_edge_ids_below_four 105 (by decide) 7 (by decide)

/-! ## C4: the fields of a table entry -/

/-- C4: for every case and every order in which the map is iterated, the
evaluation and the encoder return (no `assert` fails), the code is the same for
every order (the entry of `edgeGroupTable`) and is below 2^24, and for every
`i < 12` there is exactly one entry of the map between two corners with small
edge index `i`; its mark is not 0, its 2-bit value (3 if masked, id - 1
otherwise) is in 0..3 and equals the bits `2i` and `2i + 1` of the code. -/
theorem table_entry_fields (cases : Nat) (hc : cases < 256) (fuel : Nat) (hf : 7 ≤ fuel)
    (order : List (Nat × Nat)) (hperm : order.Perm edgemap) :
    ∃ marks color code, evaluate fuel cases = some (marks, color) ∧
      tableEntry fuel order cases = some code ∧
      tableEntry fuel edgemap cases = some code ∧
      code = edgeGroupTable.getD cases 0 ∧ code < 2 ^ 24 ∧
      ∀ i < 12, ∃ e ∈ edgemap, e.1 / 100 < 8 ∧ e.1 % 100 < 8 ∧
        cubeedge (e.1 / 100) (e.1 % 100) = some i ∧
        (∀ e' ∈ edgemap, e'.1 / 100 < 8 → e'.1 % 100 < 8 →
          cubeedge (e'.1 / 100) (e'.1 % 100) = some i → e' = e) ∧
        marks.getD e.2 0 ≠ 0 ∧
        0 ≤ twoBit (marks.getD e.2 0) ∧ twoBit (marks.getD e.2 0) < 4 ∧
        (((code >>> (2 * i)) % 4 : Nat) : Int) = twoBit (marks.getD e.2 0) := by
  refine ⟨(caseTable cases).1, (caseTable cases).2, edgeGroupTable.getD cases 0,
    evaluate_table hc hf, tableEntry_eq hc hf hperm, tableEntry_eq hc hf (List.Perm.refl _),
    rfl, ?_, ?_⟩
  · have h := (caseOk_parts hc).2.2.1
    unfold encodeOk at h
    simp only [Bool.and_eq_true, decide_eq_true_iff] at h
    exact h.1.2
  · intro i hi
    obtain ⟨h1, h2, h3, h4, h5⟩ := cubeEdgeByIndex_spec i hi
    obtain ⟨g1, g2, g3, g4⟩ := fields_of_case hc hi
    exact ⟨cubeEdgeByIndex.getD i (0, 0), h1, h2, h3, h4, h5, g1, g2, g3, g4⟩

theorem table_entry_fields_witness :
    ∃ marks color code, evaluate 7 105 = some (marks, color) ∧
      tableEntry 7 edgemap.reverse 105 = some code ∧
      tableEntry 7 edgemap 105 = some code ∧
      code = edgeGroupTable.getD 105 0 ∧ code < 2 ^ 24 ∧
      ∀ i < 12, ∃ e ∈ edgemap, e.1 / 100 < 8 ∧ e.1 % 100 < 8 ∧
        cubeedge (e.1 / 100) (e.1 % 100) = some i ∧
        (∀ e' ∈ edgemap, e'.1 / 100 < 8 → e'.1 % 100 < 8 →
          cubeedge (e'.1 / 100) (e'.1 % 100) = some i → e' = e) ∧
        marks.getD e.2 0 ≠ 0 ∧
        0 ≤ twoBit (marks.getD e.2 0) ∧ twoBit (marks.getD e.2 0) < 4 ∧
        (((code >>> (2 * i)) % 4 : Nat) : Int) = twoBit (marks.getD e.2 0) :=
  table_entry_fields 105 (by decide) 7 (by decide) edgemap.reverse (List.reverse_perm _)

/-! ## C14: the number of squarings -/

/-- C14: for any marks, with `A_0` the masked adjacency matrix and `A_(k+1)` the
boolean square of `A_k`: `A_7 = A_6`, every later iterate is `A_6` too, the loop
run with room for 7 passes of its body returns (it returns `A_6`), and so it does
with any larger bound. -/
theorem closure_within_six_squarings (marks : List Int) (fuel : Nat) (hf : 7 ≤ fuel) :
    squareStep^[7] (initMatrix graph marks) = squareStep^[6] (initMatrix graph marks) ∧
    squareStep (squareStep^[6] (initMatrix graph marks))
      = squareStep^[6] (initMatrix graph marks) ∧
    (∀ t, 6 ≤ t → squareStep^[t] (initMatrix graph marks)
      = squareStep^[6] (initMatrix graph marks)) ∧
    closureLoop 7 (initMatrix graph marks) = some (squareStep^[6] (initMatrix graph marks)) ∧
    closureLoop fuel (initMatrix graph marks)
      = some (squareStep^[6] (initMatrix graph marks)) := by
  obtain ⟨h1, _, _, h4, _⟩ := closure_of_marks marks hf
  obtain ⟨h7, _⟩ := closure_of_marks marks (Nat.le_refl 7)
  have hall : ∀ n, squareStep^[6 + n] (initMatrix graph marks)
      = squareStep^[6] (initMatrix graph marks) := by
    intro n
    rw [Nat.add_comm, Function.iterate_add_apply]
    exact iterate_fixed h4 n
  refine ⟨hall 1, h4, ?_, h7, h1⟩
  intro t ht
  obtain ⟨n, rfl⟩ := Nat.exists_eq_add_of_le ht
  exact hall n

theorem closure_within_six_squarings_witness :
    squareStep^[7] (initMatrix graph (initialMarks 105))
      = squareStep^[6] (initMatrix graph (initialMarks 105)) ∧
    squareStep (squareStep^[6] (initMatrix graph (initialMarks 105)))
      = squareStep^[6] (initMatrix graph (initialMarks 105)) ∧
    (∀ t, 6 ≤ t → squareStep^[t] (initMatrix graph (initialMarks 105))
      = squareStep^[6] (initMatrix graph (initialMarks 105))) ∧
    closureLoop 7 (initMatrix graph (initialMarks 105))
      = some (squareStep^[6] (initMatrix graph (initialMarks 105))) ∧
    closureLoop 9 (initMatrix graph (initialMarks 105))
      = some (squareStep^[6] (initMatrix graph (initialMarks 105))) :=
  closure_within_six_squarings (initialMarks 105) 9 (by decide)

/-! ## C15: the values at the 15 points -/

theorem cornerVal_eq (cases k : Nat) :
    cornerVal cases k = if cases.testBit k = true then 1 else 0 := by
  unfold cornerVal
  rw [Nat.one_shiftLeft, Nat.and_two_pow]
  cases h : cases.testBit k
  · simp
  · simp

theorem vals_corner (cases : Nat) {k : Nat} (hk : k < 8) :
    (vals cases).getD k 0 = cornerVal cases k := by
  unfold vals
  have h8 : ((List.range 8).map (cornerVal cases)).length = 8 := by simp
  rw [List.append_assoc, List.getD_append _ _ _ _ (by rw [h8]; exact hk),
    getD_map_range _ _ hk]

theorem vals_face (cases : Nat) {f : Nat} (hf : f < 6) :
    (vals cases).getD (8 + f) 0 = faceVal cases f := by
  unfold vals
  have h8 : ((List.range 8).map (cornerVal cases)).length = 8 := by simp
  have h6 : ((List.range 6).map (faceVal cases)).length = 6 := by simp
  rw [List.append_assoc, List.getD_append_right _ _ _ _ (by rw [h8]; omega), h8,
    List.getD_append _ _ _ _ (by rw [h6]; omega), Nat.add_sub_cancel_left,
    getD_map_range _ _ hf]

theorem vals_body (cases : Nat) : (vals cases).getD 14 0 = bodyVal cases := by
  unfold vals
  have h14 : ((List.range 8).map (cornerVal cases) ++ (List.range 6).map (faceVal cases)).length
      = 14 := by simp
  rw [List.getD_append_right _ _ _ _ (by rw [h14]), h14]
  rfl

theorem bitCount_cons (x k : Nat) (l : List Nat) :
    bitCount x (k :: l) = (if x.testBit k = true then 1 else 0) + bitCount x l := by
  unfold bitCount
  rw [List.filter_cons]
  split
  · rw [List.length_cons]; omega
  · omega

theorem bitCount_nil (x : Nat) : bitCount x [] = 0 := rfl

theorem bitCount_le (x : Nat) (l : List Nat) : bitCount x l ≤ l.length :=
  List.length_filter_le _ _

/-- The sum computed by a value loop over the corners `l`. -/
theorem foldl_cornerVal (cases : Nat) (l : List Nat) (s : ℚ) :
    l.foldl (fun s k => s + cornerVal cases k) s = s + (bitCount cases l : ℚ) := by
  induction l generalizing s with
  | nil => simp [bitCount_nil]
  | cons k l ih =>
    rw [List.foldl_cons, ih, bitCount_cons, cornerVal_eq]
    split
    · push_cast; ring
    · push_cast; ring

theorem faceVal_eq (cases : Nat) {f : Nat} (hf : f < 6) :
    faceVal cases f = (bitCount cases (cubefaces.getD f []) : ℚ) / 4 := by
  have h : (List.range 4).foldl (fun s j => s + cornerVal cases (face f j)) 0
      = (cubefaces.getD f []).foldl (fun s k => s + cornerVal cases k) 0 := by
    have hl : (List.range 4).map (face f) = cubefaces.getD f [] := by
      interval_cases f <;> decide
    rw [← hl, List.foldl_map]
  unfold faceVal
  rw [h, foldl_cornerVal]
  ring

theorem bodyVal_eq (cases : Nat) :
    bodyVal cases = (bitCount cases (List.range 8) : ℚ) / 8 := by
  unfold bodyVal
  rw [foldl_cornerVal]
  ring

/-- C15: for every case, in exact arithmetic: the value of corner `k` is 1 when bit
`k` of the mask is set and 0 otherwise, the value of the centre of face `f` is the
number of set bits among the 4 corners of the face divided by 4, the value of the
body centre is the number of set bits among the 8 corners divided by 8; a corner
exceeds the threshold 7/10 exactly when its bit is set, a face centre exactly when
at least 3 of its 4 corners are set, the body centre exactly when at least 6 of
the 8 corners are set. -/
theorem vals_exact (cases : Nat) :
    (∀ k < 8, (vals cases).getD k 0 = if cases.testBit k = true then 1 else 0) ∧
    (∀ f < 6, (vals cases).getD (8 + f) 0 = (bitCount cases (cubefaces.getD f []) : ℚ) / 4) ∧
    (vals cases).getD 14 0 = (bitCount cases (List.range 8) : ℚ) / 8 ∧
    (∀ k < 8, exceeds cases k ↔ cases.testBit k = true) ∧
    (∀ f < 6, exceeds cases (8 + f) ↔ 3 ≤ bitCount cases (cubefaces.getD f [])) ∧
    (exceeds cases 14 ↔ 6 ≤ bitCount cases (List.range 8)) := by
  refine ⟨?_, ?_, ?_, ?_, ?_, ?_⟩
  · intro k hk
    rw [vals_corner cases hk, cornerVal_eq]
  · intro f hf
    rw [vals_face cases hf, faceVal_eq cases hf]
  · rw [vals_body, bodyVal_eq]
  · intro k hk
    unfold exceeds theta
    rw [vals_corner cases hk, cornerVal_eq]
    cases h : cases.testBit k
    · simp; norm_num
    · simp; norm_num
  · intro f hf
    unfold exceeds theta
    rw [vals_face cases hf, faceVal_eq cases hf]
    constructor
    · intro h
      by_contra hlt
      have h2 : bitCount cases (cubefaces.getD f []) ≤ 2 := by omega
      have h3 : (bitCount cases (cubefaces.getD f []) : ℚ) ≤ 2 := by exact_mod_cast h2
      linarith
    · intro h
      have h3 : (3 : ℚ) ≤ (bitCount cases (cubefaces.getD f []) : ℚ) := by exact_mod_cast h
      show (7 : ℚ) / 10 < _
      linarith
  · unfold exceeds theta
    rw [vals_body, bodyVal_eq]
    constructor
    · intro h
      by_contra hlt
      have h2 : bitCount cases (List.range 8) ≤ 5 := by omega
      have h3 : (bitCount cases (List.range 8) : ℚ) ≤ 5 := by exact_mod_cast h2
      linarith
    · intro h
      have h3 : (6 : ℚ) ≤ (bitCount cases (List.range 8) : ℚ) := by exact_mod_cast h
      show (7 : ℚ) / 10 < _
      linarith

/-! ## C17: the edge id -/

/-- C17: for point indices `u, v < 100`, `edgeid(u, v) = edgeid(v, u)
= min(u, v) * 100 + max(u, v)`; the decoding `id / 100`, `id % 100` (as in the
marks loop, which reads `v = eid / 100` and `u = eid % 100`) gives back
`min(u, v)` and `max(u, v)`; and two pairs of point indices below 100 with the
same id are the same unordered pair. -/
theorem edgeid_collision_free (u v : Nat) (hu : u < 100) (hv : v < 100) :
    edgeid u v = edgeid v u ∧
    edgeid u v = min u v * 100 + max u v ∧
    edgeid u v / 100 = min u v ∧
    edgeid u v % 100 = max u v ∧
    ∀ u' < 100, ∀ v' < 100, edgeid u' v' = edgeid u v →
      (u' = u ∧ v' = v) ∨ (u' = v ∧ v' = u) := by
  unfold edgeid
  refine ⟨by omega, rfl, by omega, by omega, ?_⟩
  intro u' hu' v' hv' h
  omega

theorem edgeid_collision_free_witness :
    (edgeid 8 2 = edgeid 2 8 ∧
    edgeid 8 2 = min 8 2 * 100 + max 8 2 ∧
    edgeid 8 2 / 100 = min 8 2 ∧
    edgeid 8 2 % 100 = max 8 2 ∧
    ∀ u' < 100, ∀ v' < 100, edgeid u' v' = edgeid 8 2 →
      (u' = 8 ∧ v' = 2) ∨ (u' = 2 ∧ v' = 8)) ∧ edgeid 8 2 = 208 :=
  ⟨edgeid_collision_free 8 2 (by decide) (by decide), by decide⟩

/-! ## C13: the points and the tetrahedra -/

/-- C13: `main` builds exactly 24 tetrahedra, the one at position `4f + j` being
`(cubefaces[f][(j+1) mod 4], cubefaces[f][j], 8 + f, 14)`; its two corner vertices
are corners of face `f` whose indices differ in exactly one coordinate bit; corner
`k` is the point with the coordinate bits of `k`; the 4 corners listed for a face
share one coordinate and the point `8 + f` is their sum times 1/4; there are 15
points; and each of the 12 pairs of corners that differ in exactly one bit is the
corner pair of exactly 2 tetrahedra. -/
theorem tets_geometry :
    tets.length = 24 ∧
    (∀ f < 6, ∀ j < 4,
      tets.getD (4 * f + j) ⟨0, 0, 0, 0⟩ = ⟨face f ((j + 1) % 4), face f j, 8 + f, 14⟩) ∧
    (∀ f < 6, ∀ j < 4, face f ((j + 1) % 4) < 8 ∧ face f j < 8 ∧
      adjacentCorners (face f ((j + 1) % 4)) (face f j) ∧
      face f ((j + 1) % 4) ∈ cubefaces.getD f [] ∧ face f j ∈ cubefaces.getD f []) ∧
    (∀ k < 8, ptAt pts k = ⟨cornerX k, cornerY k, cornerZ k⟩) ∧
    (∀ f < 6, (cubefaces.getD f []).length = 4 ∧
      ((∀ j < 4, cornerX (face f j) = cornerX (face f 0)) ∨
       (∀ j < 4, cornerY (face f j) = cornerY (face f 0)) ∨
       (∀ j < 4, cornerZ (face f j) = cornerZ (face f 0))) ∧
      ptAt pts (8 + f) = (((ptAt pts (face f 0)).add (ptAt pts (face f 1))).add
        (ptAt pts (face f 2)) |>.add (ptAt pts (face f 3))).scale (1 / 4)) ∧
    pts.length = 15 ∧
    (∀ u < 8, ∀ v < 8, adjacentCorners u v → (tetsOn u v).length = 2) ∧
    ((List.range 8).flatMap fun u => (List.range 8).filter fun v =>
      decide (u < v) && decide (adjacentCorners u v)).length = 12 := by
  refine ⟨?_, ?_, ?_, ?_, ?_, ?_, ?_, ?_⟩
  all_goals decide!

/-! ## C11: the number of patches -/

set_option maxRecDepth 100000 in
theorem patchesOk_all : (List.range 256).all patchesOk = true := by decide!

theorem cubeEdgeByIndex_lt : ∀ e ∈ cubeEdgeByIndex, e.2 < 50 := by decide

theorem caseTable_getD (cases : Nat) {v : Nat} (hv : v < 50) :
    (caseTable cases).1.getD v 0
      = (((caseCodes.getD cases 0 >>> (3 * v)) % 8 : Nat) : Int) - 1 := by
  unfold caseTable unpackMarks
  rw [getD_map_range _ _ hv]

theorem patches_of_case {cases : Nat} (hc : cases < 256) :
    1 ≤ (caseTable cases).2 ∧ (caseTable cases).2 ≤ 5 ∧
    ((caseTable cases).2 = 1 ↔ cases = 0 ∨ cases = 255) ∧
    ∀ j : Nat, 1 ≤ j → (j : Int) ≤ (caseTable cases).2 - 1 →
      ∃ e ∈ cubeEdgeByIndex, (caseTable cases).1.getD e.2 0 = j := by
  have h := patchesOk_all
  rw [List.all_eq_true] at h
  have h1 := h cases (List.mem_range.2 hc)
  unfold patchesOk at h1
  rw [force_eq, force_eq] at h1
  simp only [Bool.and_eq_true, Nat.ble_eq, List.all_eq_true, List.mem_range,
    List.any_eq_true] at h1
  obtain ⟨⟨⟨h1a, h1b⟩, h1c⟩, h1d⟩ := h1
  have hcol : (caseTable cases).2 = ((caseCodes.getD cases 0 >>> 150 : Nat) : Int) := rfl
  refine ⟨by rw [hcol]; exact_mod_cast h1a, by rw [hcol]; exact_mod_cast h1b, ?_, ?_⟩
  · rw [hcol]
    have h2 : (Nat.beq (caseCodes.getD cases 0 >>> 150) 1 = true) ↔
        (Nat.beq cases 0 || Nat.beq cases 255) = true := by
      rw [beq_iff_eq] at h1c
      rw [h1c]
    rw [Bool.or_eq_true] at h2
    constructor
    · intro h3
      have h4 : caseCodes.getD cases 0 >>> 150 = 1 := by exact_mod_cast h3
      have h5 := h2.1 (by rw [h4]; rfl)
      rcases h5 with h5 | h5
      · exact Or.inl (Nat.eq_of_beq_eq_true h5)
      · exact Or.inr (Nat.eq_of_beq_eq_true h5)
    · intro h3
      have h5 : Nat.beq (caseCodes.getD cases 0 >>> 150) 1 = true := by
        apply h2.2
        rcases h3 with h3 | h3
        · left; rw [h3]; rfl
        · right; rw [h3]; rfl
      have := Nat.eq_of_beq_eq_true h5
      rw [this]; rfl
  · intro j hj1 hj2
    rw [hcol] at hj2
    have hj3 : j - 1 < caseCodes.getD cases 0 >>> 150 - 1 := by omega
    obtain ⟨e, he, h6⟩ := h1d (j - 1) hj3
    refine ⟨e, he, ?_⟩
    rw [caseTable_getD cases (cubeEdgeByIndex_lt e he)]
    have h7 := Nat.eq_of_beq_eq_true h6
    rw [h7]
    push_cast
    omega

/-- The state of a case after the numbering loop, as the table has it and in
closed form. -/
theorem case_marks {cases : Nat} (hc : cases < 256) {fuel : Nat} (hf : 7 ≤ fuel) :
    evaluate fuel cases = some (caseTable cases) ∧
    (caseTable cases).2 = ((rootsOf (keptB (initialMarks cases))
        (rowBits (closureOf (initialMarks cases)))).length : Int) + 1 ∧
    ∀ v < 50, (caseTable cases).1.getD v 0 =
      if keptIn (initialMarks cases) v then
        (idOf (rootsOf (keptB (initialMarks cases))
          (rowBits (closureOf (initialMarks cases))))
          (rowBits (closureOf (initialMarks cases))) v : Int)
      else -1 := by
  obtain ⟨marks, color, hev, _, hcol, hget⟩ := evaluate_marks cases hf
  have ht := evaluate_table hc hf
  rw [hev] at ht
  have h2 := Option.some.inj ht
  rw [← h2]
  exact ⟨hev, hcol, hget⟩

/-- The number of component starts is positive exactly when some label is kept. -/
theorem roots_pos_iff (marks : List Int) :
    1 ≤ (rootsOf (keptB marks) (rowBits (closureOf marks))).length ↔
      ∃ e < 50, keptIn marks e := by
  have hcr : ClassRows (keptB marks) (rowBits (closureOf marks)) := classRows_closure marks
  constructor
  · intro h
    obtain ⟨r, hr⟩ := List.exists_mem_of_length_pos (Nat.lt_of_lt_of_le Nat.zero_lt_one h)
    rw [mem_rootsOf] at hr
    exact ⟨r, hr.1, (keptB_eq_true _ _).1 hr.2.1⟩
  · rintro ⟨e, he, hk⟩
    obtain ⟨t, hte, hkt, hroot, _⟩ := exists_root hcr he ((keptB_eq_true _ _).2 hk)
    have : t ∈ rootsOf (keptB marks) (rowBits (closureOf marks)) :=
      mem_rootsOf.2 ⟨by omega, hkt, hroot⟩
    exact List.length_pos_of_mem this

/-- C11, the claim as stated fails: in case 0 the number of patches is 0, not at
least 1. -/
theorem patches_at_least_one_fails :
    ¬ (∃ k, patches 7 0 = some k ∧ 1 ≤ k ∧ k ≤ 50) := by
  rw [patches_of_evaluate (evaluate_table (by decide) (by decide))]
  rintro ⟨k, hk, h1, _⟩
  have h0 : (caseTable 0).2 - 1 = 0 := by decide
  rw [h0] at hk
  have := Option.some.inj hk
  omega

/-- C11, amended: for every case the evaluation returns and the number of patches
`color - 1` is at least 0 and at most 50, indeed at most 4; it is 0 exactly in the
cases 0 and 255, and it is at least 1 exactly when some label is kept. -/
theorem patches_bounds (cases : Nat) (hc : cases < 256) (fuel : Nat) (hf : 7 ≤ fuel) :
    ∃ k, patches fuel cases = some k ∧ 0 ≤ k ∧ k ≤ 50 ∧ k ≤ 4 ∧
      (k = 0 ↔ cases = 0 ∨ cases = 255) ∧
      (1 ≤ k ↔ ∃ e < 50, keptIn (initialMarks cases) e) := by
  obtain ⟨hev, hcol, _⟩ := case_marks hc hf
  obtain ⟨h1, h2, h3, _⟩ := patches_of_case hc
  refine ⟨(caseTable cases).2 - 1, patches_of_evaluate hev, by omega, by omega, by omega, ?_, ?_⟩
  · rw [← h3]; omega
  · rw [← roots_pos_iff, hcol]; omega

theorem patches_bounds_witness :
    ∃ k, patches 7 105 = some k ∧ 0 ≤ k ∧ k ≤ 50 ∧ k ≤ 4 ∧
      (k = 0 ↔ 105 = 0 ∨ 105 = 255) ∧
      (1 ≤ k ↔ ∃ e < 50, keptIn (initialMarks 105) e) :=
  patches_bounds 105 (by decide) 7 (by decide)

/-! ## C18: the assertion of the numbering loop -/

/-- When the scan reaches a label `u` whose mark is still 0, every label in the row
of `u` still has the mark 0. -/
theorem numberedUpTo_row_zero {kept : Nat → Bool} {rows : Nat → Nat} (h : ClassRows kept rows)
    {u : Nat} (hu : u < 50) (h0 : (numberedUpTo kept rows u).getD u 0 = 0)
    {v : Nat} (hv : v < 50) (huv : (rows u).testBit v = true) :
    (numberedUpTo kept rows u).getD v 0 = 0 := by
  rw [numberedUpTo_getD kept rows u hu] at h0
  have hk : kept u = true := by
    by_contra hk
    rw [if_neg hk] at h0
    exact absurd h0 (by decide)
  rw [if_pos hk] at h0
  have hroot : rows u % 2 ^ u = 0 := by
    by_contra hr
    rw [if_neg (by simp [hr])] at h0
    have := idOf_pos h hu hk
    omega
  have hkv := (h.field u hu v hv huv).2
  have hv0 : rows v % 2 ^ u = 0 := by
    rw [mod_two_pow_eq_zero_iff]
    intro w hw
    by_contra hb
    have hb' : (rows v).testBit w = true := by simpa using hb
    have := h.trans u hu v hv w (by omega) huv hb'
    have h0 := (mod_two_pow_eq_zero_iff _ _).1 hroot w hw
    rw [this] at h0
    exact absurd h0 (by decide)
  rw [numberedUpTo_getD kept rows u hv, if_pos hkv, if_pos (by simp [hv0])]

/-- C18: for any marks made of 0 (kept) and -1 (masked), the squaring loop returns
a matrix `A` that is an equivalence relation on the kept labels (a one on the
diagonal of every kept label, symmetric, transitive, ones between kept labels
only); the numbering loop on it returns, that is, `assert(marks[v] == 0)` never
fails; and whenever the scan reaches a label `u` whose mark is 0, every `v` with
`A(u, v) == 1` still has the mark 0, so that the inner loop for `u` returns. -/
theorem numbering_assert_holds (marks : List Int) (hlen : marks.length = 50)
    (h01 : ∀ v < 50, marks.getD v 0 = 0 ∨ marks.getD v 0 = -1) (fuel : Nat) (hf : 7 ≤ fuel) :
    ∃ A, closureLoop fuel (initMatrix graph marks) = some A ∧
      (∀ i < 50, keptIn marks i → A.entry i i = 1) ∧
      (∀ i < 50, ∀ j < 50, A.entry i j = 1 → A.entry j i = 1) ∧
      (∀ i < 50, ∀ j < 50, ∀ k < 50, A.entry i j = 1 → A.entry j k = 1 → A.entry i k = 1) ∧
      (∀ i < 50, ∀ j < 50, A.entry i j = 1 → keptIn marks i ∧ keptIn marks j) ∧
      (∃ s, labelLoop A 50 marks = some s) ∧
      ∀ u < 50, ∃ m c, (List.range u).foldl (labelStep A 50) (some (marks, 1)) = some (m, c) ∧
        (m.getD u 0 = 0 → ∀ v < 50, A.entry u v = 1 → m.getD v 0 = 0) ∧
        (m.getD u 0 = 0 → ∃ m', labelRow A 50 u c m = some m') := by
  obtain ⟨hloop, hlab⟩ := label_of_marks marks hlen h01 hf
  have hcr : ClassRows (keptB marks) (rowBits (closureOf marks)) := classRows_closure marks
  have hrows : ∀ p < 50, ∀ q < 50, ((closureOf marks).entry p q = 1 ↔
      (rowBits (closureOf marks) p).testBit q = true) := by
    intro p _ q hq
    rw [testBit_rowBits]
    exact ⟨fun h => ⟨hq, h⟩, fun h => h.2⟩
  refine ⟨closureOf marks, hloop, ?_, ?_, ?_, ?_, ⟨_, hlab⟩, ?_⟩
  · intro i hi hk
    rw [hrows i hi i hi]
    exact hcr.refl i hi ((keptB_eq_true _ _).2 hk)
  · intro i hi j hj h
    rw [hrows j hj i hi]
    exact hcr.symm i hi j hj ((hrows i hi j hj).1 h)
  · intro i hi j hj k hk h1 h2
    rw [hrows i hi k hk]
    exact hcr.trans i hi j hj k hk ((hrows i hi j hj).1 h1) ((hrows j hj k hk).1 h2)
  · intro i hi j hj h
    have := hcr.field i hi j hj ((hrows i hi j hj).1 h)
    exact ⟨(keptB_eq_true _ _).1 this.1, (keptB_eq_true _ _).1 this.2⟩
  · intro u hu
    have hm0 := marks_eq_numberedUpTo marks hlen h01 (rowBits (closureOf marks))
    have hpre := labelLoop_prefix (closureOf marks) hcr hrows u (Nat.le_of_lt hu)
    rw [← hm0] at hpre
    have hzero : (numberedUpTo (keptB marks) (rowBits (closureOf marks)) u).getD u 0 = 0 →
        ∀ v < 50, (closureOf marks).entry u v = 1 →
          (numberedUpTo (keptB marks) (rowBits (closureOf marks)) u).getD v 0 = 0 :=
      fun h0 v hv he => numberedUpTo_row_zero hcr hu h0 hv ((hrows u hu v hv).1 he)
    refine ⟨_, _, hpre, hzero, fun h0 => ?_⟩
    obtain ⟨m', hm', _⟩ := labelRow_spec (closureOf marks) u
      ((rootsBelow (keptB marks) (rowBits (closureOf marks)) u : Int) + 1) _
      (numberedUpTo_length _ _ u) (hzero h0)
    exact ⟨m', hm'⟩

theorem numbering_assert_holds_witness :
    ∃ A, closureLoop 7 (initMatrix graph (initialMarks 105)) = some A ∧
      (∀ i < 50, keptIn (initialMarks 105) i → A.entry i i = 1) ∧
      (∀ i < 50, ∀ j < 50, A.entry i j = 1 → A.entry j i = 1) ∧
      (∀ i < 50, ∀ j < 50, ∀ k < 50, A.entry i j = 1 → A.entry j k = 1 → A.entry i k = 1) ∧
      (∀ i < 50, ∀ j < 50, A.entry i j = 1 →
        keptIn (initialMarks 105) i ∧ keptIn (initialMarks 105) j) ∧
      (∃ s, labelLoop A 50 (initialMarks 105) = some s) ∧
      ∀ u < 50, ∃ m c,
        (List.range u).foldl (labelStep A 50) (some (initialMarks 105, 1)) = some (m, c) ∧
        (m.getD u 0 = 0 → ∀ v < 50, A.entry u v = 1 → m.getD v 0 = 0) ∧
        (m.getD u 0 = 0 → ∃ m', labelRow A 50 u c m = some m') :=
  numbering_assert_holds (initialMarks 105) (initialMarks_length 105)
    (fun v hv => by rw [initialMarks_getD 105 hv]; exact markOf_cases 105 v) 7 (by decide)

/-! ## C19: every component has a cube edge -/

theorem cubeEdgeByIndex_subset : ∀ e ∈ cubeEdgeByIndex, e ∈ cubeEdges := by
  rw [cubeEdges_eq]; decide

theorem cubeEdgeByIndex_getD_mem {i : Nat} (hi : i < 12) :
    cubeEdgeByIndex.getD i (0, 0) ∈ cubeEdgeByIndex := by
  interval_cases i <;> decide

theorem cubeEdgeByIndex_index : ∀ e ∈ cubeEdgeByIndex,
    ∃ i < 12, cubeEdgeByIndex.getD i (0, 0) = e := by decide

/-- C19: for every case the evaluation and the encoder return, and every connected
component of kept labels has a cube edge: from every kept label a kept label of one
of the 12 cube edges is reachable by a path of kept labels.  Hence the ids carried
by the kept cube edges are exactly 1, ..., k with k = `color - 1` the number of
patches, and the values of the fields of the kept cube edges in the table entry
are exactly 0, ..., k - 1. -/
theorem components_reach_cube_edges (cases : Nat) (hc : cases < 256) (fuel : Nat)
    (hf : 7 ≤ fuel) :
    ∃ marks color code, evaluate fuel cases = some (marks, color) ∧
      tableEntry fuel edgemap cases = some code ∧
      (∀ v < 50, keptIn (initialMarks cases) v →
        ∃ e ∈ cubeEdges, keptIn (initialMarks cases) e.2 ∧ reach (initialMarks cases) v e.2) ∧
      (∀ j : Int, (1 ≤ j ∧ j ≤ color - 1) ↔
        ∃ e ∈ cubeEdges, keptIn (initialMarks cases) e.2 ∧ marks.getD e.2 0 = j) ∧
      (∀ n : Nat, (n : Int) < color - 1 ↔
        ∃ i < 12, keptIn (initialMarks cases) (cubeEdgeByIndex.getD i (0, 0)).2 ∧
          (code >>> (2 * i)) % 4 = n) := by
  obtain ⟨hev, hcol, hget⟩ := case_marks hc hf
  obtain ⟨_, _, _, hcover⟩ := patches_of_case hc
  have hcr : ClassRows (keptB (initialMarks cases))
      (rowBits (closureOf (initialMarks cases))) := classRows_closure (initialMarks cases)
  -- a label whose final mark is positive is kept
  have hkept : ∀ v < 50, 1 ≤ (caseTable cases).1.getD v 0 → keptIn (initialMarks cases) v := by
    intro v hv h1
    by_contra hk
    rw [hget v hv, if_neg hk] at h1
    omega
  -- the final mark of a kept label is between 1 and the number of patches
  have hrange : ∀ v < 50, keptIn (initialMarks cases) v →
      1 ≤ (caseTable cases).1.getD v 0 ∧
        (caseTable cases).1.getD v 0 ≤ (caseTable cases).2 - 1 := by
    intro v hv hk
    rw [hget v hv, if_pos hk, hcol]
    have h1 := idOf_pos hcr hv ((keptB_eq_true _ _).2 hk)
    have h2 := idOf_le_length (keptB (initialMarks cases))
      (rowBits (closureOf (initialMarks cases))) v
    omega
  -- every id in range is on a kept cube edge
  have hcube : ∀ j : Nat, 1 ≤ j → (j : Int) ≤ (caseTable cases).2 - 1 →
      ∃ e ∈ cubeEdgeByIndex, keptIn (initialMarks cases) e.2 ∧
        (caseTable cases).1.getD e.2 0 = j := by
    intro j hj1 hj2
    obtain ⟨e, he, hm⟩ := hcover j hj1 hj2
    exact ⟨e, he, hkept e.2 (cubeEdgeByIndex_lt e he) (by rw [hm]; exact_mod_cast hj1), hm⟩
  refine ⟨(caseTable cases).1, (caseTable cases).2, edgeGroupTable.getD cases 0, hev,
    tableEntry_eq hc hf (List.Perm.refl _), ?_, ?_, ?_⟩
  · intro v hv hk
    obtain ⟨h1, h2⟩ := hrange v hv hk
    obtain ⟨j, hj⟩ : ∃ j : Nat, (caseTable cases).1.getD v 0 = j :=
      ⟨((caseTable cases).1.getD v 0).toNat, by omega⟩
    obtain ⟨e, he, hke, hm⟩ := hcube j (by omega) (by omega)
    refine ⟨e, cubeEdgeByIndex_subset e he, hke, ?_⟩
    have he50 := cubeEdgeByIndex_lt e he
    have hsame : (caseTable cases).1.getD v 0 = (caseTable cases).1.getD e.2 0 := by
      rw [hj, hm]
    rw [hget v hv, hget e.2 he50, if_pos hk, if_pos hke, Nat.cast_inj,
      idOf_eq_iff hcr hv he50 ((keptB_eq_true _ _).2 hk) ((keptB_eq_true _ _).2 hke),
      testBit_closure_rows _ hv] at hsame
    exact hsame.2
  · intro j
    constructor
    · rintro ⟨hj1, hj2⟩
      obtain ⟨n, rfl⟩ : ∃ n : Nat, j = n := ⟨j.toNat, by omega⟩
      obtain ⟨e, he, hke, hm⟩ := hcube n (by omega) hj2
      exact ⟨e, cubeEdgeByIndex_subset e he, hke, hm⟩
    · rintro ⟨e, he, hke, hm⟩
      rw [← hm]
      exact hrange e.2 (cubeEdgeByIndex_lt e (cubeEdges_subset e he)) hke
  · intro n
    constructor
    · intro hn
      obtain ⟨e, he, hke, hm⟩ := hcube (n + 1) (by omega) (by push_cast; omega)
      obtain ⟨i, hi, hie⟩ := cubeEdgeByIndex_index e he
      refine ⟨i, hi, by rw [hie]; exact hke, ?_⟩
      obtain ⟨_, _, _, hfield⟩ := fields_of_case hc hi
      rw [hie, hm] at hfield
      unfold twoBit at hfield
      rw [if_neg (by omega)] at hfield
      push_cast at hfield
      omega
    · rintro ⟨i, hi, hki, hfield⟩
      obtain ⟨_, _, _, hf2⟩ := fields_of_case hc hi
      have hi50 := cubeEdgeByIndex_lt _ (cubeEdgeByIndex_getD_mem hi)
      obtain ⟨h1, h2⟩ := hrange _ hi50 hki
      unfold twoBit at hf2
      rw [if_neg (by omega), hfield] at hf2
      omega

theorem components_reach_cube_edges_witness :
    ∃ marks color code, evaluate 7 105 = some (marks, color) ∧
      tableEntry 7 edgemap 105 = some code ∧
      (∀ v < 50, keptIn (initialMarks 105) v →
        ∃ e ∈ cubeEdges, keptIn (initialMarks 105) e.2 ∧ reach (initialMarks 105) v e.2) ∧
      (∀ j : Int, (1 ≤ j ∧ j ≤ color - 1) ↔
        ∃ e ∈ cubeEdges, keptIn (initialMarks 105) e.2 ∧ marks.getD e.2 0 = j) ∧
      (∀ n : Nat, (n : Int) < color - 1 ↔
        ∃ i < 12, keptIn (initialMarks 105) (cubeEdgeByIndex.getD i (0, 0)).2 ∧
          (code >>> (2 * i)) % 4 = n) :=
  components_reach_cube_edges 105 (by decide) 7 (by decide)

/-! ## C20: the marks of the cube edges -/

theorem exceeds_corner (cases : Nat) {k : Nat} (hk : k < 8) :
    exceeds cases k ↔ cases.testBit k = true := by
  unfold exceeds theta
  rw [vals_corner cases hk, cornerVal_eq]
  cases h : cases.testBit k
  · simp; norm_num
  · simp; norm_num

set_option maxRecDepth 100000 in
theorem cubeEdge_ends : ∀ e ∈ cubeEdgeByIndex,
    iedgemap.getD e.2 0 = e.1 ∧ e.1 / 100 < 8 ∧ e.1 % 100 < 8 := by
  rw [iedgemap_eq]
  decide!

/-- The mark set by the marks loop on a cube edge. -/
theorem cube_edge_kept_iff (cases : Nat) {e : Nat × Nat} (he : e ∈ cubeEdgeByIndex) :
    keptIn (initialMarks cases) e.2 ↔
      cases.testBit (e.1 / 100) ≠ cases.testBit (e.1 % 100) := by
  obtain ⟨hie, h1, h2⟩ := cubeEdge_ends e he
  unfold keptIn
  rw [initialMarks_getD cases (cubeEdgeByIndex_lt e he), markOf_eq]
  unfold endU endV
  rw [hie]
  have hx : Xor' (exceeds cases (e.1 % 100)) (exceeds cases (e.1 / 100)) ↔
      cases.testBit (e.1 / 100) ≠ cases.testBit (e.1 % 100) := by
    rw [xor_iff_not_iff, exceeds_corner cases h1, exceeds_corner cases h2]
    cases cases.testBit (e.1 / 100) <;> cases cases.testBit (e.1 % 100) <;> simp
  by_cases hX : Xor' (exceeds cases (e.1 % 100)) (exceeds cases (e.1 / 100))
  · rw [if_pos hX]
    exact ⟨fun _ => hx.1 hX, fun _ => by decide⟩
  · rw [if_neg hX]
    exact ⟨fun h => absurd rfl h, fun h => absurd (hx.2 h) hX⟩

/-- C20: for every case the evaluation and the encoder return, and for every entry
of the map between two corners `v1` and `v2`, with small edge index `i`: the label
is masked by the marks loop, and still has the mark -1 at the end, exactly when the
bits `v1` and `v2` of the case are equal, and then the field `i` of the table entry
holds 3; the label is kept and ends with a component id (a mark of 1 or more)
exactly when the two bits differ, and then the field `i` holds the id minus 1. -/
theorem cube_edge_masked_iff_equal_bits (cases : Nat) (hc : cases < 256) (fuel : Nat)
    (hf : 7 ≤ fuel) :
    ∃ marks color code, evaluate fuel cases = some (marks, color) ∧
      tableEntry fuel edgemap cases = some code ∧
      ∀ e ∈ cubeEdges, ∃ i < 12, cubeedge (e.1 / 100) (e.1 % 100) = some i ∧
        ((initialMarks cases).getD e.2 0 = -1 ↔
          cases.testBit (e.1 / 100) = cases.testBit (e.1 % 100)) ∧
        (marks.getD e.2 0 = -1 ↔ cases.testBit (e.1 / 100) = cases.testBit (e.1 % 100)) ∧
        (marks.getD e.2 0 = -1 → twoBit (marks.getD e.2 0) = 3 ∧ (code >>> (2 * i)) % 4 = 3) ∧
        ((initialMarks cases).getD e.2 0 = 0 ↔
          cases.testBit (e.1 / 100) ≠ cases.testBit (e.1 % 100)) ∧
        (1 ≤ marks.getD e.2 0 ↔ cases.testBit (e.1 / 100) ≠ cases.testBit (e.1 % 100)) ∧
        (1 ≤ marks.getD e.2 0 → (((code >>> (2 * i)) % 4 : Nat) : Int) = marks.getD e.2 0 - 1) := by
  obtain ⟨hev, _, hget⟩ := case_marks hc hf
  have hcr : ClassRows (keptB (initialMarks cases))
      (rowBits (closureOf (initialMarks cases))) := classRows_closure (initialMarks cases)
  refine ⟨(caseTable cases).1, (caseTable cases).2, edgeGroupTable.getD cases 0, hev,
    tableEntry_eq hc hf (List.Perm.refl _), ?_⟩
  intro e he
  have he' := cubeEdges_subset e he
  obtain ⟨i, hi, hie⟩ := cubeEdgeByIndex_index e he'
  have he50 := cubeEdgeByIndex_lt e he'
  have hkept := cube_edge_kept_iff cases he'
  obtain ⟨_, _, _, hce, _⟩ := cubeEdgeByIndex_spec i hi
  obtain ⟨_, _, _, hfield⟩ := fields_of_case hc hi
  rw [hie] at hce hfield
  have h01 := markOf_cases cases e.2
  rw [← initialMarks_getD cases he50] at h01
  have hfin := hget e.2 he50
  have hpos : keptIn (initialMarks cases) e.2 → 1 ≤ (caseTable cases).1.getD e.2 0 := by
    intro hk
    rw [hfin, if_pos hk]
    have := idOf_pos hcr he50 ((keptB_eq_true _ _).2 hk)
    omega
  have hneg : ¬ keptIn (initialMarks cases) e.2 → (caseTable cases).1.getD e.2 0 = -1 := by
    intro hk
    rw [hfin, if_neg hk]
  refine ⟨i, hi, hce, ?_, ?_, ?_, ?_, ?_, ?_⟩
  · rw [← not_iff_not, ← ne_eq (cases.testBit _), ← hkept]
    rfl
  · constructor
    · intro hm
      by_contra hb
      have := hpos (hkept.2 hb)
      omega
    · intro hb
      exact hneg (fun hk => hkept.1 hk hb)
  · intro hm
    rw [hm] at hfield
    have h3 : twoBit (-1) = 3 := by decide
    rw [hm]
    refine ⟨h3, ?_⟩
    rw [h3] at hfield
    exact_mod_cast hfield
  · rw [← hkept]
    unfold keptIn
    constructor
    · intro h; rw [h]; decide
    · intro h
      rcases h01 with h0 | h0
      · exact h0
      · exact absurd h0 h
  · constructor
    · intro hm
      apply hkept.1
      by_contra hk
      have := hneg hk
      omega
    · intro hb
      exact hpos (hkept.2 hb)
  · intro hm
    rw [hfield]
    unfold twoBit
    rw [if_neg (by omega)]

theorem cube_edge_masked_iff_equal_bits_witness :
    ∃ marks color code, evaluate 7 65 = some (marks, color) ∧
      tableEntry 7 edgemap 65 = some code ∧
      ∀ e ∈ cubeEdges, ∃ i < 12, cubeedge (e.1 / 100) (e.1 % 100) = some i ∧
        ((initialMarks 65).getD e.2 0 = -1 ↔
          (65 : Nat).testBit (e.1 / 100) = (65 : Nat).testBit (e.1 % 100)) ∧
        (marks.getD e.2 0 = -1 ↔
          (65 : Nat).testBit (e.1 / 100) = (65 : Nat).testBit (e.1 % 100)) ∧
        (marks.getD e.2 0 = -1 → twoBit (marks.getD e.2 0) = 3 ∧ (code >>> (2 * i)) % 4 = 3) ∧
        ((initialMarks 65).getD e.2 0 = 0 ↔
          (65 : Nat).testBit (e.1 / 100) ≠ (65 : Nat).testBit (e.1 % 100)) ∧
        (1 ≤ marks.getD e.2 0 ↔
          (65 : Nat).testBit (e.1 / 100) ≠ (65 : Nat).testBit (e.1 % 100)) ∧
        (1 ≤ marks.getD e.2 0 → (((code >>> (2 * i)) % 4 : Nat) : Int) = marks.getD e.2 0 - 1) :=
  cube_edge_masked_iff_equal_bits 65 (by decide) 7 (by decide)

/-! ## The evaluation for any adjacency sets -/

theorem evaluateFrom_tets (fuel cases : Nat) : evaluateFrom tets fuel cases = evaluate fuel cases :=
  rfl

theorem tableEntryFrom_tets (fuel : Nat) (order : List (Nat × Nat)) (cases : Nat) :
    tableEntryFrom tets fuel order cases = tableEntry fuel order cases := rfl

theorem oneAt_initMatrix_on {g : List (List Nat)} (hlen : g.length = 50)
    (hg : ∀ u < 50, ∀ v ∈ g.getD u [], v < 50) (marks : List Int) (p q : Nat) :
    oneAt (initMatrix g marks) p q ↔ linked g marks p q := by
  obtain ⟨_, _, he⟩ := initMatrix_spec g marks hlen hg
  unfold oneAt linked
  constructor
  · rintro ⟨hp, hq, h⟩
    exact ⟨hp, hq, (he p hp q hq).1 h⟩
  · rintro ⟨hp, hq, h⟩
    exact ⟨hp, hq, (he p hp q hq).2 h⟩

/-- The squaring loop on the matrix of any 50 adjacency sets: with 7 or more rounds
of fuel it returns the sixth iterate, whose ones are the pairs of connected
labels. -/
theorem closure_on {g : List (List Nat)} (hlen : g.length = 50)
    (hg : ∀ u < 50, ∀ v ∈ g.getD u [], v < 50) (marks : List Int) {fuel : Nat}
    (hf : 7 ≤ fuel) :
    closureLoop fuel (initMatrix g marks) = some (squareStep^[6] (initMatrix g marks)) ∧
    (initMatrix g marks).Bin ∧
    ∀ p q, oneAt (squareStep^[6] (initMatrix g marks)) p q ↔ connected g marks p q := by
  obtain ⟨hS, hB, _⟩ := initMatrix_spec g marks hlen hg
  have hsymm : ∀ p q, oneAt (initMatrix g marks) p q → oneAt (initMatrix g marks) q p := by
    intro p q h
    rw [oneAt_initMatrix_on hlen hg] at h ⊢
    exact linked_symm _ _ _ _ h
  have hrefl : ∀ p q, oneAt (initMatrix g marks) p q →
      oneAt (initMatrix g marks) p p ∧ oneAt (initMatrix g marks) q q := by
    intro p q h
    rw [oneAt_initMatrix_on hlen hg] at h
    rw [oneAt_initMatrix_on hlen hg, oneAt_initMatrix_on hlen hg]
    exact linked_refl _ _ _ _ h
  refine ⟨closureLoop_eq_iterate hB hS hsymm hrefl hf, hB, ?_⟩
  intro p q
  rw [oneAt_iterate_closure hB hsymm hrefl (Nat.le_refl 6)]
  unfold connected
  have : oneAt (initMatrix g marks) = linked g marks := by
    funext a b
    exact propext (oneAt_initMatrix_on hlen hg marks a b)
  rw [this]

theorem classRows_on {g : List (List Nat)} (hlen : g.length = 50)
    (hg : ∀ u < 50, ∀ v ∈ g.getD u [], v < 50) (marks : List Int) :
    ClassRows (keptB marks) (rowBits (squareStep^[6] (initMatrix g marks))) := by
  obtain ⟨_, _, hone⟩ := closure_on hlen hg marks (Nat.le_refl 7)
  have hiff : ∀ p < 50, ∀ q,
      (rowBits (squareStep^[6] (initMatrix g marks)) p).testBit q = true ↔
        connected g marks p q := by
    intro p hp q
    rw [testBit_rowBits, ← hone]
    unfold oneAt
    constructor
    · rintro ⟨hq, h⟩; exact ⟨hp, hq, h⟩
    · rintro ⟨_, hq, h⟩; exact ⟨hq, h⟩
  constructor
  · intro p hp q _ h
    have := connected_kept _ _ ((hiff p hp q).1 h)
    exact ⟨(keptB_eq_true _ _).2 this.2.2.1, (keptB_eq_true _ _).2 this.2.2.2⟩
  · intro p hp hk
    rw [hiff p hp p]
    have hk' : keptIn marks p := (keptB_eq_true _ _).1 hk
    exact Relation.TransGen.single ⟨hp, hp, hk', hk', Or.inl rfl⟩
  · intro p hp q hq h
    rw [hiff q hq p]
    exact connected_symm _ _ ((hiff p hp q).1 h)
  · intro p hp q hq r _ h1 h2
    rw [hiff p hp r]
    exact Relation.TransGen.trans ((hiff p hp q).1 h1) ((hiff q hq r).1 h2)

theorem testBit_initNOn (adj kept : Nat) {p q : Nat} (hp : p < 50) (hq : q < 50) :
    (initNOn adj kept).testBit (50 * p + q) =
      (kept.testBit p && (adj.testBit (50 * p + q) && kept.testBit q)) := by
  unfold initNOn
  rw [testBit_blocks (fun u => if kept.testBit u then (adj >>> (50 * u)) &&& kept else 0)
    hq p 50]
  simp only [hp, decide_True, Bool.true_and]
  rcases Bool.eq_false_or_eq_true (kept.testBit p) with h | h
  · rw [if_pos h, h, Nat.testBit_and, Nat.testBit_shiftRight, Bool.true_and]
  · rw [h]
    simp

theorem rep_init_on {g : List (List Nat)} (hlen : g.length = 50)
    (hg : ∀ u < 50, ∀ v ∈ g.getD u [], v < 50) (marks : List Int) (adj kept : Nat)
    (hadj : ∀ p < 50, ∀ q < 50, adj.testBit (50 * p + q) = decide (p = q ∨ adjIn g p q))
    (hk : ∀ v < 50, kept.testBit v = keptB marks v) :
    Rep (initMatrix g marks) (initNOn adj kept) := by
  obtain ⟨_, _, hone⟩ := initMatrix_spec g marks hlen hg
  intro p hp q hq
  rw [hone p hp q hq, testBit_initNOn adj kept hp hq, hk p hp, hk q hq, Bool.and_eq_true,
    Bool.and_eq_true, keptB_eq_true, keptB_eq_true, hadj p hp q hq, decide_eq_true_iff]
  exact ⟨fun h => ⟨h.1, h.2.2, h.2.1⟩, fun h => ⟨h.1, h.2.2, h.2.1⟩⟩

/-- The evaluation for any 50 adjacency sets `g` and any marks made of 0 and -1:
with 7 or more rounds of fuel the squaring loop and the numbering loop return, and
the final state is the one computed on bit masks. -/
theorem evaluate_on {g : List (List Nat)} (hlen : g.length = 50)
    (hg : ∀ u < 50, ∀ v ∈ g.getD u [], v < 50) (marks : List Int) (hmlen : marks.length = 50)
    (h01 : ∀ v < 50, marks.getD v 0 = 0 ∨ marks.getD v 0 = -1) (adj kept : Nat)
    (hadj : ∀ p < 50, ∀ q < 50, adj.testBit (50 * p + q) = decide (p = q ∨ adjIn g p q))
    (hk : ∀ v < 50, kept.testBit v = keptB marks v) {fuel : Nat} (hf : 7 ≤ fuel) :
    ∃ A, closureLoop fuel (initMatrix g marks) = some A ∧
      labelLoop A 50 marks = some (fastEvalOn adj kept) := by
  obtain ⟨hloop, hbin, _⟩ := closure_on hlen hg marks hf
  refine ⟨_, hloop, ?_⟩
  have hlab : labelLoop (squareStep^[6] (initMatrix g marks)) 50 marks
      = some (numbered (keptB marks) (rowBits (squareStep^[6] (initMatrix g marks)))) := by
    apply labelLoop_spec _ (classRows_on hlen hg marks)
    · intro p _ q hq
      rw [testBit_rowBits]
      exact ⟨fun h => ⟨hq, h⟩, fun h => h.2⟩
    · exact marks_eq_numberedUpTo marks hmlen h01 _
  rw [hlab]
  congr 1
  unfold fastEvalOn
  rw [force_eq, forceList_eq, closeN_eq_iterate]
  show _ = numbered (fun v => kept.testBit v) (fun p => sqN^[6] (initNOn adj kept) >>> (50 * p))
  have hrep : Rep (squareStep^[6] (initMatrix g marks)) (sqN^[6] (initNOn adj kept)) :=
    rep_iterate hbin (rep_init_on hlen hg marks adj kept hadj hk) 6
  apply numbered_congr
  · intro v hv
    exact (hk v hv).symm
  · intro v hv q hq
    rw [Nat.testBit_shiftRight, Bool.eq_iff_iff, testBit_rowBits, ← hrep v hv q hq]
    exact ⟨fun h => h.2, fun h => ⟨hq, h⟩⟩

/-! ## C12: the adjacency sets and the tetrahedra -/

theorem testBit_setBits_from (q : Nat) : ∀ (l : List Nat) (a : Nat),
    (l.foldl (fun a v => a ||| 1 <<< v) a).testBit q = true ↔ a.testBit q = true ∨ q ∈ l := by
  intro l
  induction l with
  | nil => intro a; simp
  | cons v l ih =>
    intro a
    rw [List.foldl_cons, ih, Nat.testBit_or, Bool.or_eq_true, Nat.one_shiftLeft,
      Nat.testBit_two_pow, decide_eq_true_iff, List.mem_cons]
    constructor
    · rintro ((h | h) | h)
      · exact Or.inl h
      · exact Or.inr (Or.inl h.symm)
      · exact Or.inr (Or.inr h)
    · rintro (h | h | h)
      · exact Or.inl (Or.inl h)
      · exact Or.inl (Or.inr h.symm)
      · exact Or.inr h

theorem testBit_setBits_list (l : List Nat) (q : Nat) :
    (setBits l).testBit q = true ↔ q ∈ l := by
  unfold setBits
  rw [testBit_setBits_from]
  simp

theorem testBit_sharedWith_from (u v : Nat) : ∀ (tab : List (List Nat)) (a : Nat),
    (tab.foldl (fun a ls => force (setBits ls) fun m => if m.testBit u then a ||| m else a)
      a).testBit v = true ↔ a.testBit v = true ∨ ∃ ls ∈ tab, u ∈ ls ∧ v ∈ ls := by
  intro tab
  induction tab with
  | nil => intro a; simp
  | cons ls tab ih =>
    intro a
    rw [List.foldl_cons, ih, force_eq]
    by_cases hu : (setBits ls).testBit u = true
    · rw [if_pos hu, Nat.testBit_or, Bool.or_eq_true, testBit_setBits_list]
      rw [testBit_setBits_list] at hu
      constructor
      · rintro ((h | h) | ⟨ls', hl, h⟩)
        · exact Or.inl h
        · exact Or.inr ⟨ls, List.mem_cons_self _ _, hu, h⟩
        · exact Or.inr ⟨ls', List.mem_cons_of_mem _ hl, h⟩
      · rintro (h | ⟨ls', hl, h⟩)
        · exact Or.inl (Or.inl h)
        · rcases List.mem_cons.1 hl with rfl | hl
          · exact Or.inl (Or.inr h.2)
          · exact Or.inr ⟨ls', hl, h⟩
    · rw [if_neg hu]
      rw [testBit_setBits_list] at hu
      constructor
      · rintro (h | ⟨ls', hl, h⟩)
        · exact Or.inl h
        · exact Or.inr ⟨ls', List.mem_cons_of_mem _ hl, h⟩
      · rintro (h | ⟨ls', hl, h⟩)
        · exact Or.inl h
        · rcases List.mem_cons.1 hl with rfl | hl
          · exact absurd h.1 hu
          · exact Or.inr ⟨ls', hl, h⟩

theorem testBit_sharedWith (tab : List (List Nat)) (u v : Nat) :
    (sharedWith tab u).testBit v = true ↔ ∃ ls ∈ tab, u ∈ ls ∧ v ∈ ls := by
  unfold sharedWith
  rw [testBit_sharedWith_from]
  simp

theorem tetLabelTable_eq : tets.map (tetLabels edgemapTable) = tetLabelTable := by decide

theorem tet_label_ids : ∀ t ∈ tets, ∀ k < 6,
    (edgemapTable.map Prod.fst).getD (edgeLabel edgemapTable (tetEdge t k)) 0 = tetEdge t k := by
  decide

theorem label_of_id : ∀ u < 50,
    edgeLabel edgemapTable ((edgemapTable.map Prod.fst).getD u 0) = u := by
  decide

set_option maxRecDepth 100000 in
theorem graphRowsOk_table : graphRowsOk graphTable tetLabelTable = true := by
  decide!

/-- The label `u` is the label of a vertex pair of the tetrahedron `t` exactly when
the edge `iedgemap[u]` is one of its vertex pairs. -/
theorem mem_tetLabels {t : Tet} (ht : t ∈ tets) {u : Nat} (hu : u < 50) :
    u ∈ tetLabels edgemapTable t ↔
      ∃ k < 6, tetEdge t k = (edgemapTable.map Prod.fst).getD u 0 := by
  unfold tetLabels
  rw [List.mem_map]
  constructor
  · rintro ⟨k, hk, h⟩
    have hk6 := List.mem_range.1 hk
    refine ⟨k, hk6, ?_⟩
    rw [← h, tet_label_ids t ht k hk6]
  · rintro ⟨k, hk, h⟩
    refine ⟨k, List.mem_range.2 hk, ?_⟩
    rw [h, label_of_id u hu]

/-- C12: the adjacency sets built by the graph loop are symmetric (`v` is in
`graph[u]` exactly when `u` is in `graph[v]`), no label is in its own set, every
member of a set is a label, and for distinct labels `u` and `v`, `v` is in
`graph[u]` exactly when some tetrahedron has both the edge `iedgemap[u]` and the
edge `iedgemap[v]` among its 6 vertex pairs. -/
theorem graph_is_shared_tetrahedron :
    (∀ u < 50, ∀ v < 50, (v ∈ graph.getD u [] ↔ u ∈ graph.getD v [])) ∧
    (∀ u < 50, u ∉ graph.getD u []) ∧
    (∀ u < 50, ∀ v ∈ graph.getD u [], v < 50) ∧
    (∀ u < 50, ∀ v < 50, u ≠ v → (v ∈ graph.getD u [] ↔
      ∃ t ∈ tets, (∃ k < 6, tetEdge t k = iedgemap.getD u 0) ∧
        (∃ ks < 6, tetEdge t ks = iedgemap.getD v 0))) := by
  have hrow : ∀ u < 50, u ∉ graphTable.getD u [] ∧
      sharedWith tetLabelTable u = setBits (graphTable.getD u []) ||| 1 <<< u := by
    intro u hu
    have h := graphRowsOk_table
    unfold graphRowsOk at h
    rw [List.all_eq_true] at h
    have h1 := h u (List.mem_range.2 hu)
    rw [force_eq, Bool.and_eq_true] at h1
    refine ⟨fun hm => ?_, Nat.eq_of_beq_eq_true h1.2⟩
    rw [← testBit_setBits_list] at hm
    rw [hm] at h1
    exact absurd h1.1 (by decide)
  have hshare : ∀ u < 50, ∀ v < 50, u ≠ v → (v ∈ graphTable.getD u [] ↔
      ∃ ls ∈ tetLabelTable, u ∈ ls ∧ v ∈ ls) := by
    intro u hu v _ huv
    rw [← testBit_sharedWith, (hrow u hu).2, Nat.testBit_or, Bool.or_eq_true,
      testBit_setBits_list, Nat.one_shiftLeft, Nat.testBit_two_pow, decide_eq_true_iff]
    exact ⟨fun h => Or.inl h, fun h => h.resolve_right huv⟩
  rw [graph_eq, iedgemap_eq]
  refine ⟨?_, fun u hu => (hrow u hu).1, ?_, ?_⟩
  · intro u hu v hv
    by_cases huv : u = v
    · subst huv; exact Iff.rfl
    · rw [hshare u hu v hv huv, hshare v hv u hu (Ne.symm huv)]
      exact ⟨fun ⟨ls, h1, h2, h3⟩ => ⟨ls, h1, h3, h2⟩, fun ⟨ls, h1, h2, h3⟩ => ⟨ls, h1, h3, h2⟩⟩
  · rw [← graph_eq]; exact graph_entries_lt
  · intro u hu v hv huv
    rw [hshare u hu v hv huv, ← tetLabelTable_eq]
    constructor
    · rintro ⟨ls, hls, h1, h2⟩
      obtain ⟨t, ht, rfl⟩ := List.mem_map.1 hls
      exact ⟨t, ht, (mem_tetLabels ht hu).1 h1, (mem_tetLabels ht hv).1 h2⟩
    · rintro ⟨t, ht, h1, h2⟩
      exact ⟨_, List.mem_map.2 ⟨t, ht, rfl⟩, (mem_tetLabels ht hu).2 h1,
        (mem_tetLabels ht hv).2 h2⟩

/-! ## The first two tetrahedra exchanged -/

theorem tetsSwapped_perm : tetsSwapped.Perm tets := by
  have h1 : tets = (⟨2, 0, 8, 14⟩ : Tet) :: ⟨6, 2, 8, 14⟩ :: tets.drop 2 := by decide
  have h2 : tetsSwapped = (⟨6, 2, 8, 14⟩ : Tet) :: ⟨2, 0, 8, 14⟩ :: tets.drop 2 := by decide
  rw [h2]
  nth_rewrite 2 [h1]
  exact List.Perm.swap _ _ _

set_option maxRecDepth 4000 in
theorem buildEdgesFrom_swapped :
    buildEdgesFrom tetsSwapped = ⟨edgemapSwapped, edgemapSwapped.map Prod.fst⟩ := by
  decide!

set_option maxRecDepth 6000 in
theorem buildGraphFrom_swapped : buildGraphFrom tetsSwapped edgemapSwapped = graphSwapped := by
  decide!

theorem graphSwapped_lt : ∀ u < 50, ∀ v ∈ graphSwapped.getD u [], v < 50 := by decide

/-- The packed adjacency, read off its rows: when row `p` of `adj` holds the labels
of the set of `p` and `p` itself, and the sets are symmetric, bit `50 * p + q` of
`adj` says that `p = q` or `p` and `q` are neighbours. -/
theorem adj_of_rows {g : List (List Nat)} {adj : Nat}
    (hrow : ∀ p < 50, (adj >>> (50 * p)) % 2 ^ 50 = setBits (g.getD p []) ||| 1 <<< p)
    (hsym : ∀ p < 50, ∀ q ∈ g.getD p [], p ∈ g.getD q []) :
    ∀ p < 50, ∀ q < 50, adj.testBit (50 * p + q) = decide (p = q ∨ adjIn g p q) := by
  intro p hp q hq
  have h1 : adj.testBit (50 * p + q) = ((adj >>> (50 * p)) % 2 ^ 50).testBit q := by
    rw [Nat.testBit_mod_two_pow, Nat.testBit_shiftRight]
    simp [hq]
  rw [h1, hrow p hp, Bool.eq_iff_iff, Nat.testBit_or, Bool.or_eq_true, testBit_setBits_list,
    Nat.one_shiftLeft, Nat.testBit_two_pow, decide_eq_true_iff, decide_eq_true_iff]
  unfold adjIn
  constructor
  · rintro (h | h)
    · exact Or.inr (Or.inl h)
    · exact Or.inl h
  · rintro (h | h | h)
    · exact Or.inr h
    · exact Or.inl h
    · exact Or.inl (hsym q hq p h)

set_option maxRecDepth 100000 in
theorem adjRowsOk_swapped : adjRowsOk graphSwapped adjDiagSwapped = true := by
  decide!

theorem adjDiagSwapped_table : ∀ p < 50, ∀ q < 50,
    adjDiagSwapped.testBit (50 * p + q) = decide (p = q ∨ adjIn graphSwapped p q) := by
  have h := adjRowsOk_swapped
  unfold adjRowsOk at h
  rw [List.all_eq_true] at h
  apply adj_of_rows
  · intro p hp
    have h1 := h p (List.mem_range.2 hp)
    rw [Bool.and_eq_true] at h1
    exact Nat.eq_of_beq_eq_true h1.1
  · intro p hp q hq
    have h1 := h p (List.mem_range.2 hp)
    rw [Bool.and_eq_true, List.all_eq_true] at h1
    exact (testBit_setBits_list _ _).1 (h1.2 q hq)

theorem keptB_initialMarksIn (tabs : EdgeTables) (hlen : tabs.edgemap.length = 50)
    (cases : Nat) {v : Nat} (hv : v < 50) :
    keptB (initialMarksIn tabs cases) v
      = xor (above cases (tabs.iedgemap.getD v 0 % 100))
          (above cases (tabs.iedgemap.getD v 0 / 100)) := by
  have hm : (initialMarksIn tabs cases).getD v 0 = markOfIn tabs.iedgemap cases v := by
    unfold initialMarksIn
    rw [hlen, getD_map_range _ _ hv]
  have hm2 : markOfIn tabs.iedgemap cases v =
      if xor (above cases (tabs.iedgemap.getD v 0 % 100))
        (above cases (tabs.iedgemap.getD v 0 / 100)) = true then 0 else -1 := rfl
  rw [Bool.eq_iff_iff, keptB_eq_true]
  unfold keptIn
  rw [hm, hm2]
  cases xor (above cases (tabs.iedgemap.getD v 0 % 100))
    (above cases (tabs.iedgemap.getD v 0 / 100)) <;> simp

set_option maxRecDepth 100000 in
theorem keptSwapped_bits : ∀ v < 50,
    (edgemapSwapped.map Prod.fst).getD v 0 % 100 < 15 ∧
    (edgemapSwapped.map Prod.fst).getD v 0 / 100 < 15 ∧
    keptSwapped.testBit v
      = xor ((aboveMask 65).testBit ((edgemapSwapped.map Prod.fst).getD v 0 % 100))
          ((aboveMask 65).testBit ((edgemapSwapped.map Prod.fst).getD v 0 / 100)) := by
  decide!

theorem keptSwapped_table : ∀ v < 50, keptSwapped.testBit v
    = keptB (initialMarksIn ⟨edgemapSwapped, edgemapSwapped.map Prod.fst⟩ 65) v := by
  intro v hv
  obtain ⟨h1, h2, h3⟩ := keptSwapped_bits v hv
  rw [keptB_initialMarksIn _ (by decide) 65 hv]
  show _ = xor (above 65 ((edgemapSwapped.map Prod.fst).getD v 0 % 100))
    (above 65 ((edgemapSwapped.map Prod.fst).getD v 0 / 100))
  rw [above_eq (by decide) h1, above_eq (by decide) h2, h3]

set_option maxRecDepth 100000 in
theorem fastEvalOn_swapped : fastEvalOn adjDiagSwapped keptSwapped = (marksSwapped, 3) := by
  decide!

set_option maxRecDepth 100000 in
theorem encode_swapped : encode edgemapSwapped marksSwapped = some 0xcdcd3d := by
  decide!

/-! ## C16: the table and the order of the tetrahedra -/

theorem markOfIn_cases (ie : List Nat) (cases v : Nat) :
    markOfIn ie cases v = 0 ∨ markOfIn ie cases v = -1 := by
  unfold markOfIn
  simp only
  split
  · exact Or.inl rfl
  · exact Or.inr rfl

theorem edgemapSwapped_length : edgemapSwapped.length = 50 := by decide

theorem graphSwapped_length : graphSwapped.length = 50 := by decide

/-- The state of case 65 after the numbering loop when the first two tetrahedra are
exchanged. -/
theorem evaluateFrom_swapped {fuel : Nat} (hf : 7 ≤ fuel) :
    evaluateFrom tetsSwapped fuel 65 = some (marksSwapped, 3) := by
  have hmlen : (initialMarksIn ⟨edgemapSwapped, edgemapSwapped.map Prod.fst⟩ 65).length = 50 := by
    unfold initialMarksIn
    rw [List.length_map, List.length_range]
    exact edgemapSwapped_length
  have h01 : ∀ v < 50,
      (initialMarksIn ⟨edgemapSwapped, edgemapSwapped.map Prod.fst⟩ 65).getD v 0 = 0 ∨
      (initialMarksIn ⟨edgemapSwapped, edgemapSwapped.map Prod.fst⟩ 65).getD v 0 = -1 := by
    intro v hv
    unfold initialMarksIn
    simp only
    rw [edgemapSwapped_length, getD_map_range _ _ hv]
    exact markOfIn_cases _ _ _
  obtain ⟨A, hA, hlab⟩ := evaluate_on graphSwapped_length graphSwapped_lt _ hmlen h01
    adjDiagSwapped keptSwapped adjDiagSwapped_table keptSwapped_table hf
  unfold evaluateFrom
  simp only
  rw [buildEdgesFrom_swapped]
  simp only
  rw [buildGraphFrom_swapped, if_pos graphSwapped_length, hA]
  simp only
  rw [graphSwapped_length, hlab, fastEvalOn_swapped]

theorem tableEntryFrom_swapped {fuel : Nat} (hf : 7 ≤ fuel) {order : List (Nat × Nat)}
    (hperm : order.Perm edgemapSwapped) :
    tableEntryFrom tetsSwapped fuel order 65 = some 0xcdcd3d := by
  unfold tableEntryFrom
  rw [evaluateFrom_swapped hf, Option.some_bind]
  show encode order marksSwapped = _
  rw [encode_perm marksSwapped hperm, encode_swapped]

theorem edgeGroup_65 : edgeGroupTable.getD 65 0 = 0xdcdc7c := by decide

/-- C16, the claim as stated fails: with the first two tetrahedra exchanged the
table entry of case 65 is not the one the program writes. -/
theorem table_depends_on_tet_order :
    ¬ (∀ ts : List Tet, ts.Perm tets → ∀ cases < 256,
        tableEntryFrom ts 7 (buildEdgesFrom ts).edgemap cases
          = tableEntryFrom tets 7 (buildEdgesFrom tets).edgemap cases) := by
  intro h
  have h1 := h tetsSwapped tetsSwapped_perm 65 (by decide)
  rw [tableEntryFrom_swapped (by decide)
    (by rw [buildEdgesFrom_swapped]), tableEntryFrom_tets] at h1
  have h2 : (buildEdgesFrom tets).edgemap = edgemap := rfl
  rw [h2, tableEntry_eq (by decide) (by decide) (List.Perm.refl _), edgeGroup_65] at h1
  exact absurd (Option.some.inj h1) (by decide)

/-- C16, amended: the packed code of every case does not depend on the order in
which the encoder visits the entries of the map, but it does depend on the order
in which the labelling loop enumerates the tetrahedra.  With the first two
tetrahedra exchanged the map has the same 50 edge ids under other labels, and the
entry of case 65 is 0xcdcd3d instead of 0xdcdc7c, whatever the order of the
encoder: the same fields hold 3 and the values 0 and 1 (the ids 1 and 2 of the two
components) are exchanged. -/
theorem table_order_dependence (fuel : Nat) (hf : 7 ≤ fuel) :
    (∀ cases < 256, ∀ order : List (Nat × Nat), order.Perm edgemap →
      tableEntryFrom tets fuel order cases = some (edgeGroupTable.getD cases 0)) ∧
    tetsSwapped.Perm tets ∧
    ((buildEdgesFrom tetsSwapped).edgemap.map Prod.fst).Perm (edgemap.map Prod.fst) ∧
    (buildEdgesFrom tetsSwapped).edgemap.map Prod.snd = List.range 50 ∧
    (buildEdgesFrom tetsSwapped).edgemap ≠ edgemap ∧
    (∀ order : List (Nat × Nat), order.Perm (buildEdgesFrom tetsSwapped).edgemap →
      tableEntryFrom tetsSwapped fuel order 65 = some 0xcdcd3d) ∧
    (∀ order : List (Nat × Nat), order.Perm edgemap →
      tableEntryFrom tets fuel order 65 = some 0xdcdc7c) ∧
    (∀ i < 12, (0xcdcd3d >>> (2 * i)) % 4 = swapIds ((0xdcdc7c >>> (2 * i)) % 4)) := by
  refine ⟨?_, tetsSwapped_perm, ?_, ?_, ?_, ?_, ?_, by decide⟩
  · intro cases hc order hperm
    rw [tableEntryFrom_tets, tableEntry_eq hc hf hperm]
  · rw [buildEdgesFrom_swapped, edgemap_eq]
    decide
  · rw [buildEdgesFrom_swapped]
    decide
  · rw [buildEdgesFrom_swapped, edgemap_eq]
    decide
  · intro order hperm
    rw [buildEdgesFrom_swapped] at hperm
    exact tableEntryFrom_swapped hf hperm
  · intro order hperm
    rw [tableEntryFrom_tets, tableEntry_eq (by decide) hf hperm, edgeGroup_65]

theorem table_order_dependence_witness :
    (∀ cases < 256, ∀ order : List (Nat × Nat), order.Perm edgemap →
      tableEntryFrom tets 7 order cases = some (edgeGroupTable.getD cases 0)) ∧
    tetsSwapped.Perm tets ∧
    ((buildEdgesFrom tetsSwapped).edgemap.map Prod.fst).Perm (edgemap.map Prod.fst) ∧
    (buildEdgesFrom tetsSwapped).edgemap.map Prod.snd = List.range 50 ∧
    (buildEdgesFrom tetsSwapped).edgemap ≠ edgemap ∧
    (∀ order : List (Nat × Nat), order.Perm (buildEdgesFrom tetsSwapped).edgemap →
      tableEntryFrom tetsSwapped 7 order 65 = some 0xcdcd3d) ∧
    (∀ order : List (Nat × Nat), order.Perm edgemap →
      tableEntryFrom tets 7 order 65 = some 0xdcdc7c) ∧
    (∀ i < 12, (0xcdcd3d >>> (2 * i)) % 4 = swapIds ((0xdcdc7c >>> (2 * i)) % 4)) :=
  table_order_dependence 7 (by decide)

end Mcubes
